import Mathlib

/-!
# Instantiator (opencog/atoms/execution/Instantiator.cc)

A shallow embedding of `Instantiator::walk_sequence`, `Instantiator::walk_tree`
and `Instantiator::instantiate`.

* Atoms are values.  The hypergraph store interns atoms by structure, so the
  handle comparisons `hg != h` of the source are comparisons of terms here.
* `Handle` is `Option Atom`; `none` is `Handle::UNDEFINED` (the null handle).
  An outgoing set holds atoms, never null handles.
* The instance fields `_quotation_level`, `_avoid_discarding_quotes_level` and
  `_halt` are fields of `State`, together with the atomspace `as` and a record
  `trace` of the calls made to the external collaborators.  An exception leaves
  the state as it was when it was thrown.
* Everything the source calls outside of Instantiator.cc (class server,
  DefineLink, AtomSpace, PutLink, LambdaLink, ExecutionOutputLink, FoldLink,
  FunctionLink, EvaluationLink, satisfying_set) is a field of `Config`.
* `walk_tree` recurses on bound values, definitions and beta-reduced bodies, so
  it takes a recursion budget; `none` means that the budget was exhausted.
-/

namespace Instantiator

/-- Type tags of nodes that the walker tells apart. -/
inductive NodeType
  | VARIABLE_NODE
  | GLOB_NODE
  | DEFINED_SCHEMA_NODE
  | OTHER_NODE (n : Nat)
  deriving DecidableEq, Repr

/-- Type tags of links that the walker tells apart. -/
inductive LinkType
  | QUOTE_LINK
  | UNQUOTE_LINK
  | PUT_LINK
  | LAMBDA_LINK
  | EXECUTION_OUTPUT_LINK
  | DELETE_LINK
  | FOLD_LINK
  | FUNCTION_LINK
  | GET_LINK
  | SET_LINK
  | LIST_LINK
  | OTHER_LINK (n : Nat)
  deriving DecidableEq, Repr

/-- Truth value payload of a link; only carried along. -/
abbrev TruthValue := Nat

/-- The truth value of a link created without one. -/
def DEFAULT_TV : TruthValue := 0

/-- Atoms: a node has a type tag and a name, a link has a type tag, an
outgoing set and a truth value. -/
inductive Atom
  | node (t : NodeType) (name : Nat)
  | link (t : LinkType) (out : List Atom) (tv : TruthValue)
  deriving Repr

mutual
/-- Structural equality of atoms is decidable. -/
def Atom.decEq : (a b : Atom) → Decidable (a = b)
  | .node t n, .node t' n' =>
    if h : t = t' ∧ n = n' then isTrue (by rw [h.1, h.2])
    else isFalse (by intro e; injection e with e1 e2; exact h ⟨e1, e2⟩)
  | .node _ _, .link _ _ _ => isFalse (by intro e; cases e)
  | .link _ _ _, .node _ _ => isFalse (by intro e; cases e)
  | .link t o tv, .link t' o' tv' =>
    match Atom.decEqList o o' with
    | isTrue ho =>
      if h : t = t' ∧ tv = tv' then isTrue (by rw [h.1, h.2, ho])
      else isFalse (by intro e; injection e with e1 e2 e3; exact h ⟨e1, e3⟩)
    | isFalse ho => isFalse (by intro e; injection e with e1 e2 e3; exact ho e2)
/-- Structural equality of outgoing sets is decidable. -/
def Atom.decEqList : (xs ys : List Atom) → Decidable (xs = ys)
  | [], [] => isTrue rfl
  | [], _ :: _ => isFalse (by intro e; cases e)
  | _ :: _, [] => isFalse (by intro e; cases e)
  | a :: xs, b :: ys =>
    match Atom.decEq a b with
    | isTrue h1 =>
      match Atom.decEqList xs ys with
      | isTrue h2 => isTrue (by rw [h1, h2])
      | isFalse h2 => isFalse (by intro e; injection e with e1 e2; exact h2 e2)
    | isFalse h1 => isFalse (by intro e; injection e with e1 e2; exact h1 e1)
end

instance : DecidableEq Atom := Atom.decEq

/-- A handle is an atom or `Handle::UNDEFINED`. -/
abbrev Handle := Option Atom

/-- Does the atom carry the tag `GLOB_NODE`? -/
def Atom.isGlob : Atom → Bool
  | .node .GLOB_NODE _ => true
  | _ => false

/-- Does the atom carry the tag `VARIABLE_NODE`? -/
def Atom.isVariable : Atom → Bool
  | .node .VARIABLE_NODE _ => true
  | _ => false

mutual
/-- Height of an atom: 0 for a node, one more than its highest child for a
link. -/
def Atom.depth : Atom → Nat
  | .node _ _ => 0
  | .link _ out _ => 1 + Atom.depthList out
/-- Height of the highest atom of a sequence. -/
def Atom.depthList : List Atom → Nat
  | [] => 0
  | a :: rest => max (Atom.depth a) (Atom.depthList rest)
end

mutual
/-- Every atom of the tree (the atom itself and all its descendants)
satisfies `p`. -/
def Atom.all (p : Atom → Bool) : Atom → Bool
  | .node t n => p (.node t n)
  | .link t out tv => p (.link t out tv) && Atom.allList p out
/-- Every atom of every tree of the sequence satisfies `p`. -/
def Atom.allList (p : Atom → Bool) : List Atom → Bool
  | [] => true
  | a :: rest => Atom.all p a && Atom.allList p rest
end

/-- Errors: the exceptions thrown by the walker and by its collaborators. -/
inductive Err
  /-- Source: `InvalidParamException`: "Asked to ground a null expression". -/
  | NullExpression
  /-- Source: `InvalidParamException`: "QuoteLink/UnquoteLink has unexpected arity!". -/
  | InvalidShape
  /-- Source: `OC_ASSERT(nullptr != lp, "Expecting glob list")`. -/
  | ExpectingGlobList
  /-- Source: `NotEvaluatableException`, thrown by `EvaluationLink::do_evaluate`. -/
  | NotEvaluatable
  /-- A null handle is dereferenced. -/
  | NullPointer
  /-- Any other exception of a collaborator. -/
  | Collaborator (code : Nat)
  deriving DecidableEq, Repr

/-- The calls to external collaborators, as recorded in `State.trace`. -/
inductive Call
  | get_definition (a : Atom)
  | add_atom (h : Handle)
  | remove_atom (a : Atom)
  | do_evaluate (a : Atom)
  | execute_output (sn : Atom) (args : Handle)
  | fold_factory_execute (t : LinkType) (oset : List Atom)
  | fold_execute (a : Atom)
  | function_factory_execute (t : LinkType) (oset : List Atom)
  | function_execute (a : Atom)
  | satisfying_set (a : Atom)
  deriving DecidableEq, Repr

/-- The fields of a `PutLink` read by the walker. -/
structure PutLink where
  vardecl : Handle
  body : Handle
  values : Atom
  deriving DecidableEq, Repr

/-- The fields of a `LambdaLink` read by the walker. -/
structure LambdaLink where
  body : Atom
  vars : List Atom
  deriving DecidableEq, Repr

/-- The reduction strategy and the external collaborators, over an atomspace
of type `S`. -/
structure Config (S : Type) where
  /-- Field `_eager`. -/
  eager : Bool
  /-- Source: `classserver().isA(t, parent)`. -/
  isA : LinkType → LinkType → Bool
  /-- Source: `DefineLink::get_definition`. -/
  get_definition : S → Atom → Except Err Atom
  /-- Source: `AtomSpace::add_atom`. -/
  add_atom : S → Handle → S × Handle
  /-- Source: `AtomSpace::remove_atom(h, true)`. -/
  remove_atom : S → Atom → S
  /-- Source: `PutLinkCast(expr)`, or `createPutLink(*LinkCast(expr))` when the cast
  gives null. -/
  PutLinkCast : Atom → Except Err PutLink
  /-- Source: `createPutLink(groset)`. -/
  createPutLink : List Handle → Except Err PutLink
  /-- Source: `PutLink::reduce`. -/
  reduce : PutLink → Except Err Atom
  /-- Source: `EvaluationLink::do_evaluate(_as, h, true)`. -/
  do_evaluate : S → Atom → S × Except Err TruthValue
  /-- Source: `ExecutionOutputLinkCast(expr)`, or
  `createExecutionOutputLink(expr->getOutgoingSet())` when the cast gives
  null; the result is `(get_schema(), get_args())`. -/
  ExecutionOutputLinkCast : Atom → Except Err (Atom × Atom)
  /-- Source: `LambdaLinkCast(sn)`, or `createLambdaLink(*LinkCast(sn))` when the cast
  gives null. -/
  LambdaLinkCast : Atom → Except Err LambdaLink
  /-- Source: `Variables::substitute_nocheck(body, oset)`. -/
  substitute_nocheck : List Atom → Atom → List Atom → Except Err Atom
  /-- Source: `createExecutionOutputLink(sn, args)->execute(_as)`. -/
  execute_output : S → Atom → Handle → S × Except Err Handle
  /-- Source: `FoldLinkCast(FoldLink::factory(t, oset))->execute(_as)`. -/
  fold_factory_execute : S → LinkType → List Atom → S × Except Err Handle
  /-- Source: `FoldLink::factory(expr)->execute(_as)`. -/
  fold_execute : S → Atom → S × Except Err Handle
  /-- Source: `FunctionLinkCast(FunctionLink::factory(t, oset))->execute(_as)`. -/
  function_factory_execute : S → LinkType → List Atom → S × Except Err Handle
  /-- Source: `FunctionLinkCast(expr)->execute(_as)`, through the factory when the
  cast gives null. -/
  function_execute : S → Atom → S × Except Err Handle
  /-- Source: `satisfying_set(_as, h)`. -/
  satisfying_set : S → Atom → S × Except Err Handle

/-- The mutable fields of an Instantiator, the atomspace and the record of
collaborator calls. -/
structure State (S : Type) where
  quotation_level : Int
  avoid_discarding_quotes_level : Int
  halt : Bool
  as : S
  trace : List Call
  deriving DecidableEq, Repr

/-- A computation of the walker: from a state, either the budget runs out
(`none`) or there is a final state with a result or an exception. -/
def Walk (S : Type) (α : Type) : Type :=
  State S → Option (State S × Except Err α)

/-- Return a value. -/
def Walk.ret {S α : Type} (a : α) : Walk S α :=
  fun st => some (st, .ok a)

/-- Sequencing: an exception or an exhausted budget ends the computation. -/
def Walk.andThen {S α β : Type} (m : Walk S α) (f : α → Walk S β) : Walk S β :=
  fun st =>
    match m st with
    | none => none
    | some (st1, .error e) => some (st1, .error e)
    | some (st1, .ok a) => f a st1

instance {S : Type} : Monad (Walk S) where
  pure := Walk.ret
  bind := Walk.andThen

/-- Throw an exception. -/
def Walk.throw {S α : Type} (e : Err) : Walk S α :=
  fun st => some (st, .error e)

/-- The budget is exhausted. -/
def Walk.diverge {S α : Type} : Walk S α :=
  fun _ => none

/-- Return the value of a pure call or throw its exception. -/
def Walk.ofExcept {S α : Type} : Except Err α → Walk S α
  | .ok a => Walk.ret a
  | .error e => Walk.throw e

/-- Call a collaborator on the atomspace and record the call. -/
def Walk.call {S α : Type} (ev : Call) (f : S → S × Except Err α) : Walk S α :=
  fun st =>
    some ({ st with as := (f st.as).1, trace := st.trace ++ [ev] }, (f st.as).2)

/-- Read `_quotation_level`. -/
def Walk.getQuotationLevel {S : Type} : Walk S Int :=
  fun st => some (st, .ok st.quotation_level)

/-- Add `d` to `_quotation_level`. -/
def Walk.addQuotationLevel {S : Type} (d : Int) : Walk S Unit :=
  fun st => some ({ st with quotation_level := st.quotation_level + d }, .ok ())

/-- Read `_avoid_discarding_quotes_level`. -/
def Walk.getAvoid {S : Type} : Walk S Int :=
  fun st => some (st, .ok st.avoid_discarding_quotes_level)

/-- Add `d` to `_avoid_discarding_quotes_level`. -/
def Walk.addAvoid {S : Type} (d : Int) : Walk S Unit :=
  fun st => some ({ st with
    avoid_discarding_quotes_level := st.avoid_discarding_quotes_level + d }, .ok ())

/-- Read `_halt`. -/
def Walk.getHalt {S : Type} : Walk S Bool :=
  fun st => some (st, .ok st.halt)

/-- Assign `_halt`. -/
def Walk.setHalt {S : Type} (b : Bool) : Walk S Unit :=
  fun st => some ({ st with halt := b }, .ok ())

/-- Source: `try { m } catch (const NotEvaluatableException& ex) {}`. -/
def Walk.catchNotEvaluatable {S : Type} (m : Walk S Unit) : Walk S Unit :=
  fun st =>
    match m st with
    | some (st1, .error .NotEvaluatable) => some (st1, .ok ())
    | r => r

/-- Lookup in the map of groundings: `_vmap->find(expr)`. -/
def vmap_find (vmap : List (Atom × Atom)) (expr : Atom) : Option Atom :=
  match vmap with
  | [] => none
  | (k, v) :: rest => if k = expr then some v else vmap_find rest expr

/-- Instantiator::walk_sequence (lines 40-72), over the function `walk` that
stands for `walk_tree`.  The arguments `oset_results` and `changed` are the
values of the two variables when the loop reaches the sequence `expr` that is
still to be walked; the result is their final value. -/
def walk_sequence {S : Type} (walk : Atom → Walk S Handle) :
    List Atom → Bool → List Atom → Walk S (List Atom × Bool)
  | oset_results, changed, [] => pure (oset_results, changed)
  | oset_results, changed, h :: expr => do
    let hg ← walk h
    let changed := if hg ≠ some h then true else changed
    let quotation_level ← Walk.getQuotationLevel
    if quotation_level = 0 ∧ h.isGlob = true ∧ hg ≠ some h then
      -- LinkCast(hg) is null when hg is null or a node
      match hg with
      | some (.link _ lp _) => walk_sequence walk (oset_results ++ lp) changed expr
      | _ => Walk.throw .ExpectingGlobList
    else
      match hg with
      | some a => walk_sequence walk (oset_results ++ [a]) changed expr
      | none => walk_sequence walk oset_results changed expr

/-- The loop of lines 190-196: evaluate every member of a SetLink, ignoring
`NotEvaluatableException`. -/
def evaluate_members {S : Type} (c : Config S) : List Atom → Walk S Unit
  | [] => pure ()
  | plo :: rest => do
    Walk.catchNotEvaluatable (do
      let _ ← Walk.call (.do_evaluate plo) (fun s => c.do_evaluate s plo)
      pure ())
    evaluate_members c rest

/-- The eager step of the PutLink case (lines 155-171): walk the values and
rebuild the PutLink when they changed. -/
def walk_put_values {S : Type} (c : Config S) (walk : Atom → Walk S Handle)
    (ppp : PutLink) : Walk S PutLink :=
  if c.eager = true then
    walk ppp.values >>= fun gargs =>
      if gargs ≠ some ppp.values then
        Walk.ofExcept (c.createPutLink
          ((match ppp.vardecl with
            | some v => [some v]
            | none => []) ++ [ppp.body, gargs]))
      else pure ppp
  else pure ppp

/-- The PutLink case of walk_tree (lines 149-204). -/
def walk_put {S : Type} (c : Config S) (walk : Atom → Walk S Handle)
    (expr : Atom) : Walk S Handle := do
  let ppp ← Walk.ofExcept (c.PutLinkCast expr)
  let ppp ← walk_put_values c walk ppp
  let red ← Walk.ofExcept (c.reduce ppp)
  let rex ← walk red
  match rex with
  | none => pure rex
  | some (.link .SET_LINK out _) => do
    evaluate_members c out
    pure rex
  | some r => do
    Walk.catchNotEvaluatable (do
      let _ ← Walk.call (.do_evaluate r) (fun s => c.do_evaluate s r)
      pure ())
    pure rex

/-- Lines 235-237: a DefinedSchemaNode in the schema position is replaced by
its definition. -/
def resolve_schema {S : Type} (c : Config S) (sn : Atom) : Walk S Atom :=
  match sn with
  | .node .DEFINED_SCHEMA_NODE _ =>
    Walk.call (.get_definition sn) (fun s => (s, c.get_definition s sn))
  | _ => pure sn

/-- The ExecutionOutputLink case of walk_tree (lines 215-260). -/
def walk_execution_output {S : Type} (c : Config S) (walk : Atom → Walk S Handle)
    (expr : Atom) : Walk S Handle := do
  let eolp ← Walk.ofExcept (c.ExecutionOutputLinkCast expr)
  let sn := eolp.1
  let args := eolp.2
  Walk.addAvoid 1
  let args ← walk args
  Walk.addAvoid (-1)
  let sn ← resolve_schema c sn
  match sn with
  | .link .LAMBDA_LINK _ _ => do
    let flp ← Walk.ofExcept (c.LambdaLinkCast sn)
    -- LinkCast(args)->getOutgoingSet()
    match args with
    | some (.link _ oset _) => do
      let beta_reduced ← Walk.ofExcept (c.substitute_nocheck flp.vars flp.body oset)
      walk beta_reduced
    | _ => Walk.throw .NullPointer
  | _ => Walk.call (.execute_output sn args) (fun s => c.execute_output s sn args)

/-- The loop of lines 268-273: remove every walked atom that is neither a
VariableNode nor a GlobNode. -/
def remove_results {S : Type} (c : Config S) : List Atom → Walk S Unit
  | [] => pure ()
  | h :: rest => do
    (if h.isVariable = false ∧ h.isGlob = false then
      Walk.call (.remove_atom h) (fun s => (c.remove_atom s h, .ok ()))
    else pure ())
    remove_results c rest

/-- The DeleteLink case of walk_tree (lines 264-275). -/
def walk_delete {S : Type} (c : Config S) (walk : Atom → Walk S Handle)
    (out : List Atom) : Walk S Handle := do
  let r ← walk_sequence walk [] false out
  remove_results c r.1
  pure none

/-- The FoldLink case of walk_tree (lines 280-299). -/
def walk_fold {S : Type} (c : Config S) (walk : Atom → Walk S Handle)
    (expr : Atom) (t : LinkType) (out : List Atom) : Walk S Handle :=
  if c.eager = true then do
    let r ← walk_sequence walk [] false out
    Walk.call (.fold_factory_execute t r.1) (fun s => c.fold_factory_execute s t r.1)
  else
    Walk.call (.fold_execute expr) (fun s => c.fold_execute s expr)

/-- The FunctionLink case of walk_tree (lines 302-324). -/
def walk_function {S : Type} (c : Config S) (walk : Atom → Walk S Handle)
    (expr : Atom) (t : LinkType) (out : List Atom) : Walk S Handle :=
  if c.eager = true then do
    let r ← walk_sequence walk [] false out
    Walk.call (.function_factory_execute t r.1)
      (fun s => c.function_factory_execute s t r.1)
  else
    Walk.call (.function_execute expr) (fun s => c.function_execute s expr)

/-- The loop of lines 338-340: every walked atom is replaced by the handle
that `add_atom` returns for it.  A null handle cannot sit in the outgoing set
of the link built next. -/
def add_results {S : Type} (c : Config S) : List Atom → Walk S (List Atom)
  | [] => pure []
  | h :: rest => do
    let r ← Walk.call (.add_atom (some h)) (fun s => ((c.add_atom s (some h)).1,
      Except.ok (c.add_atom s (some h)).2))
    match r with
    | none => Walk.throw .NullPointer
    | some a => do
      let rest ← add_results c rest
      pure (a :: rest)

/-- The GetLink case of walk_tree (lines 329-350). -/
def walk_get {S : Type} (c : Config S) (walk : Atom → Walk S Handle)
    (expr : Atom) (out : List Atom) : Walk S Handle :=
  if c.eager = true then do
    Walk.addAvoid 1
    let r ← walk_sequence walk [] false out
    Walk.addAvoid (-1)
    let oset_results ← add_results c r.1
    let lp := Atom.link .GET_LINK oset_results DEFAULT_TV
    Walk.call (.satisfying_set lp) (fun s => c.satisfying_set s lp)
  else
    Walk.call (.satisfying_set expr) (fun s => c.satisfying_set s expr)

/-- The label `mere_recursive_call` of walk_tree (lines 352-362). -/
def mere_recursive_call {S : Type} (c : Config S) (walk : Atom → Walk S Handle)
    (expr : Atom) (t : LinkType) (out : List Atom) (tv : TruthValue) :
    Walk S Handle := do
  let r ← walk_sequence walk [] false out
  if r.2 = true then
    let subl := Atom.link t r.1 tv
    Walk.call (.add_atom (some subl)) (fun s => ((c.add_atom s (some subl)).1,
      Except.ok (c.add_atom s (some subl)).2))
  else pure (some expr)

/-- The quotation case of walk_tree (lines 78-82). -/
def quotation_case {S : Type} (t : LinkType) : Walk S Unit :=
  if t = .QUOTE_LINK then Walk.addQuotationLevel 1
  else if t = .UNQUOTE_LINK then Walk.addQuotationLevel (-1)
  else pure ()

/-- Instantiator::walk_tree (lines 74-363).  The first argument after the
groundings is the recursion budget. -/
def walk_tree {S : Type} (c : Config S) (vmap : List (Atom × Atom)) :
    Nat → Atom → Walk S Handle
  | 0, _ => Walk.diverge
  | fuel + 1, .node t name => do
    let expr := Atom.node t name
    let quotation_level ← Walk.getQuotationLevel
    if quotation_level > 0 then pure (some expr)
    else if t = .DEFINED_SCHEMA_NODE then do
      let d ← Walk.call (.get_definition expr) (fun s => (s, c.get_definition s expr))
      walk_tree c vmap fuel d
    else if t ≠ .VARIABLE_NODE ∧ t ≠ .GLOB_NODE then pure (some expr)
    else
      match vmap_find vmap expr with
      | none => pure (some expr)
      | some gnd => do
        let halt ← Walk.getHalt
        if halt = true then pure (some expr)
        else do
          Walk.setHalt true
          let hgnd ← walk_tree c vmap fuel gnd
          Walk.setHalt false
          pure hgnd
  | fuel + 1, .link t out tv => do
    let expr := Atom.link t out tv
    quotation_case t
    let quotation_level ← Walk.getQuotationLevel
    let avoid_discarding_quotes_level ← Walk.getAvoid
    if (avoid_discarding_quotes_level = 0
          ∧ (quotation_level = 1 ∧ t = .QUOTE_LINK))
        ∨ (quotation_level = 0 ∧ t = .UNQUOTE_LINK) then
      match out with
      | [child] => walk_tree c vmap fuel child
      | _ => Walk.throw .InvalidShape
    else if quotation_level > 0 then
      mere_recursive_call c (walk_tree c vmap fuel) expr t out tv
    else if t = .PUT_LINK then walk_put c (walk_tree c vmap fuel) expr
    else if t = .EXECUTION_OUTPUT_LINK then
      walk_execution_output c (walk_tree c vmap fuel) expr
    else if t = .DELETE_LINK then walk_delete c (walk_tree c vmap fuel) out
    else if c.isA t .FOLD_LINK = true then walk_fold c (walk_tree c vmap fuel) expr t out
    else if c.isA t .FUNCTION_LINK = true then
      walk_function c (walk_tree c vmap fuel) expr t out
    else if t = .GET_LINK then walk_get c (walk_tree c vmap fuel) expr out
    else mere_recursive_call c (walk_tree c vmap fuel) expr t out tv

/-- Instantiator::instantiate (lines 378-396). -/
def instantiate {S : Type} (c : Config S) (fuel : Nat) (expr : Handle)
    (vars : List (Atom × Atom)) : Walk S Handle :=
  match expr with
  | none => Walk.throw .NullExpression
  | some e => fun st =>
    (do
      let h ← walk_tree c vars fuel e
      Walk.call (.add_atom h) (fun s => ((c.add_atom s h).1, Except.ok (c.add_atom s h).2)))
    { st with quotation_level := 0, avoid_discarding_quotes_level := 0 }

/-- A small atomspace for concrete runs: the list of the atoms it holds. -/
abbrev AtomSet := List Atom

/-- Collaborators for concrete runs over `AtomSet`.  There are no definitions
and nothing is evaluatable; `OTHER_LINK 1` is a FoldLink and `OTHER_LINK 2` a
FunctionLink; a PutLink reduces to its body; every executor returns an atom. -/
def fakeConfig (eager : Bool) : Config AtomSet where
  eager := eager
  isA := fun t parent =>
    decide (t = parent)
      || (decide (t = .OTHER_LINK 1)
          && (decide (parent = .FOLD_LINK) || decide (parent = .FUNCTION_LINK)))
      || (decide (t = .OTHER_LINK 2) && decide (parent = .FUNCTION_LINK))
  get_definition := fun _ _ => .error (.Collaborator 1)
  add_atom := fun s h =>
    match h with
    | some a => (if a ∈ s then s else s ++ [a], some a)
    | none => (s, none)
  remove_atom := fun s a => s.filter (fun b => decide (b ≠ a))
  PutLinkCast := fun expr =>
    match expr with
    | .link _ [body, values] _ => .ok ⟨none, some body, values⟩
    | .link _ [vardecl, body, values] _ => .ok ⟨some vardecl, some body, values⟩
    | _ => .error (.Collaborator 2)
  createPutLink := fun groset =>
    match groset with
    | [body, some values] => .ok ⟨none, body, values⟩
    | [vardecl, body, some values] => .ok ⟨vardecl, body, values⟩
    | _ => .error (.Collaborator 2)
  reduce := fun ppp =>
    match ppp.body with
    | some b => .ok b
    | none => .error (.Collaborator 3)
  do_evaluate := fun s _ => (s, .error .NotEvaluatable)
  ExecutionOutputLinkCast := fun expr =>
    match expr with
    | .link _ [sn, args] _ => .ok (sn, args)
    | _ => .error (.Collaborator 4)
  LambdaLinkCast := fun sn =>
    match sn with
    | .link _ [vars, body] _ => .ok ⟨body, [vars]⟩
    | _ => .error (.Collaborator 5)
  substitute_nocheck := fun _ body _ => .ok body
  execute_output := fun s sn _ => (s, .ok (some sn))
  fold_factory_execute := fun s _ _ => (s, .ok (some (.node (.OTHER_NODE 0) 0)))
  fold_execute := fun s _ => (s, .ok (some (.node (.OTHER_NODE 0) 0)))
  function_factory_execute := fun s _ _ => (s, .ok (some (.node (.OTHER_NODE 0) 0)))
  function_execute := fun s _ => (s, .ok (some (.node (.OTHER_NODE 0) 0)))
  satisfying_set := fun s _ => (s, .ok (some (.link .SET_LINK [] DEFAULT_TV)))

/-- The state of a fresh Instantiator over an empty atomspace. -/
def State.init : State AtomSet :=
  { quotation_level := 0, avoid_discarding_quotes_level := 0, halt := false,
    as := [], trace := [] }

/-- ConceptNode-like plain node number `i`. -/
def concept (i : Nat) : Atom := .node (.OTHER_NODE 0) i

/-- VariableNode number `i`. -/
def var (i : Nat) : Atom := .node .VARIABLE_NODE i

/-- GlobNode number `i`. -/
def glob (i : Nat) : Atom := .node .GLOB_NODE i

/-- ListLink over `out`. -/
def list (out : List Atom) : Atom := .link .LIST_LINK out DEFAULT_TV

/-- QuoteLink over `out`. -/
def quote (out : List Atom) : Atom := .link .QUOTE_LINK out DEFAULT_TV

/-- UnquoteLink over `out`. -/
def unquote (out : List Atom) : Atom := .link .UNQUOTE_LINK out DEFAULT_TV

/-- DeleteLink over `out`. -/
def delete (out : List Atom) : Atom := .link .DELETE_LINK out DEFAULT_TV

/-! ## Shapes of terms -/

/-- The atom is neither a QuoteLink nor an UnquoteLink. -/
def Atom.notQuotation : Atom → Bool
  | .link .QUOTE_LINK _ _ => false
  | .link .UNQUOTE_LINK _ _ => false
  | _ => true

/-- A plain link tag: walk_tree has no rule for it other than the generic
recursion, at any quotation level. -/
def plainTag {S : Type} (c : Config S) (t : LinkType) : Bool :=
  decide (t ≠ .QUOTE_LINK) && decide (t ≠ .UNQUOTE_LINK) && decide (t ≠ .PUT_LINK)
    && decide (t ≠ .EXECUTION_OUTPUT_LINK) && decide (t ≠ .DELETE_LINK)
    && !c.isA t .FOLD_LINK && !c.isA t .FUNCTION_LINK && decide (t ≠ .GET_LINK)

/-- A plain leaf: a node that is no VariableNode, GlobNode or
DefinedSchemaNode. -/
def Atom.plainLeaf : Atom → Bool
  | .node .VARIABLE_NODE _ => false
  | .node .GLOB_NODE _ => false
  | .node .DEFINED_SCHEMA_NODE _ => false
  | .node _ _ => true
  | .link _ _ _ => false

/-- An inert atom: a node that is no DefinedSchemaNode and no VariableNode or
GlobNode with a grounding in `vmap`, or a link with a plain tag. -/
def inert {S : Type} (c : Config S) (vmap : List (Atom × Atom)) : Atom → Bool
  | .node .DEFINED_SCHEMA_NODE _ => false
  | .node .VARIABLE_NODE n => (vmap_find vmap (.node .VARIABLE_NODE n)).isNone
  | .node .GLOB_NODE n => (vmap_find vmap (.node .GLOB_NODE n)).isNone
  | .node _ _ => true
  | .link t _ _ => plainTag c t

/-- A term of plain substitution: a node that is no GlobNode and no
DefinedSchemaNode, or a link with a plain tag. -/
def plainTerm {S : Type} (c : Config S) : Atom → Bool
  | .node .GLOB_NODE _ => false
  | .node .DEFINED_SCHEMA_NODE _ => false
  | .node _ _ => true
  | .link t _ _ => plainTag c t

mutual
/-- The term in which every VariableNode with a grounding in `vmap` is
replaced by its grounding, and everything else is kept. -/
def substitute (vmap : List (Atom × Atom)) : Atom → Atom
  | .node .VARIABLE_NODE n =>
    match vmap_find vmap (.node .VARIABLE_NODE n) with
    | some v => v
    | none => .node .VARIABLE_NODE n
  | .node t n => .node t n
  | .link t out tv => .link t (substituteList vmap out) tv
/-- The sequence of the substituted terms. -/
def substituteList (vmap : List (Atom × Atom)) : List Atom → List Atom
  | [] => []
  | a :: rest => substitute vmap a :: substituteList vmap rest
end

/-- The store contract used for results that are built anew: `add_atom`
returns the handle of the atom it was given. -/
def Config.AddAtomReturnsAtom {S : Type} (c : Config S) : Prop :=
  ∀ (s : S) (a : Atom), (c.add_atom s (some a)).2 = some a

/-- One member of a sequence, seen from walk_sequence: from every state that
satisfies `Inv`, walking `h` appends `g` to the results, raises the flag
`changed` when `d` holds, and ends in a state that satisfies `Inv`. -/
def SequenceStep {S : Type} (walk : Atom → Walk S Handle) (Inv : State S → Prop)
    (h : Atom) (g : List Atom) (d : Bool) : Prop :=
  ∀ st, Inv st → ∃ st', Inv st' ∧
    ∀ (oset_results : List Atom) (changed : Bool) (rest : List Atom),
      walk_sequence walk oset_results changed (h :: rest) st
        = walk_sequence walk (oset_results ++ g) (changed || d) rest st'

/-- The walker is ready for a substitution: quotation level 0, the guard
`_halt` clear, and the quote preservation level `a`. -/
def Ready {S : Type} (a : Int) (st : State S) : Prop :=
  st.quotation_level = 0 ∧ st.halt = false ∧ st.avoid_discarding_quotes_level = a


/-- The sequence `out` with every occurrence of the atom `g` replaced by the
atoms `members`, in order. -/
def splice (g : Atom) (members : List Atom) (out : List Atom) : List Atom :=
  out.flatMap (fun h => if h = g then members else [h])

/-- The test of line 271: the atom is neither a VariableNode nor a
GlobNode. -/
def removable (h : Atom) : Bool :=
  !h.isVariable && !h.isGlob

/-- Every collaborator that hands a handle back to the walker returns an atom:
`add_atom` for an atom, and every executor and the pattern engine whenever they
return. -/
def Config.ReturnsAtoms {S : Type} (c : Config S) : Prop :=
  (∀ s a, (c.add_atom s (some a)).2 ≠ none)
  ∧ (∀ s sn args, (c.execute_output s sn args).2 ≠ .ok none)
  ∧ (∀ s t oset, (c.fold_factory_execute s t oset).2 ≠ .ok none)
  ∧ (∀ s a, (c.fold_execute s a).2 ≠ .ok none)
  ∧ (∀ s t oset, (c.function_factory_execute s t oset).2 ≠ .ok none)
  ∧ (∀ s a, (c.function_execute s a).2 ≠ .ok none)
  ∧ (∀ s a, (c.satisfying_set s a).2 ≠ .ok none)

/-- The atoms through which walk_tree can return the undefined handle: a
DeleteLink, and the forms that pass on the result of an inner walk, that is a
QuoteLink or UnquoteLink, a VariableNode or GlobNode with a grounding, a
DefinedSchemaNode, a PutLink and an ExecutionOutputLink. -/
def passesUndefined (vmap : List (Atom × Atom)) : Atom → Bool
  | .node .DEFINED_SCHEMA_NODE _ => true
  | .node .VARIABLE_NODE n => (vmap_find vmap (.node .VARIABLE_NODE n)).isSome
  | .node .GLOB_NODE n => (vmap_find vmap (.node .GLOB_NODE n)).isSome
  | .node _ _ => false
  | .link t _ _ =>
    decide (t = .QUOTE_LINK) || decide (t = .UNQUOTE_LINK) || decide (t = .PUT_LINK)
      || decide (t = .EXECUTION_OUTPUT_LINK) || decide (t = .DELETE_LINK)

/-- The computation never returns the undefined handle. -/
def NeverUndefined {S : Type} (m : Walk S Handle) : Prop :=
  ∀ st st', m st ≠ some (st', .ok none)

/-- Two states agree on the fields of the walker: the quotation level, the
quote preservation level and the guard `_halt`.  The atomspace and the record
of calls may differ. -/
def State.agree {S : Type} (st1 st2 : State S) : Prop :=
  st1.quotation_level = st2.quotation_level
  ∧ st1.avoid_discarding_quotes_level = st2.avoid_discarding_quotes_level
  ∧ st1.halt = st2.halt

/-- Two outcomes agree: both exhaust the budget, or both end, in states that
agree, with the same result or the same exception. -/
def agreeOutcome {S α : Type} (r1 r2 : Option (State S × Except Err α)) : Prop :=
  match r1, r2 with
  | none, none => True
  | some (s1, x1), some (s2, x2) => s1.agree s2 ∧ x1 = x2
  | _, _ => False

/-- The outcome of the computation depends on the state only through the
fields of the walker. -/
def Uniform {S α : Type} (m : Walk S α) : Prop :=
  ∀ st1 st2, st1.agree st2 → agreeOutcome (m st1) (m st2)

/-- The collaborators are pure functions: what they return does not depend on
the atomspace. -/
def Config.Pure {S : Type} (c : Config S) : Prop :=
  (∀ s s' a, c.get_definition s a = c.get_definition s' a)
  ∧ (∀ s s' h, (c.add_atom s h).2 = (c.add_atom s' h).2)
  ∧ (∀ s s' a, (c.do_evaluate s a).2 = (c.do_evaluate s' a).2)
  ∧ (∀ s s' sn args, (c.execute_output s sn args).2 = (c.execute_output s' sn args).2)
  ∧ (∀ s s' t oset,
      (c.fold_factory_execute s t oset).2 = (c.fold_factory_execute s' t oset).2)
  ∧ (∀ s s' a, (c.fold_execute s a).2 = (c.fold_execute s' a).2)
  ∧ (∀ s s' t oset,
      (c.function_factory_execute s t oset).2 = (c.function_factory_execute s' t oset).2)
  ∧ (∀ s s' a, (c.function_execute s a).2 = (c.function_execute s' a).2)
  ∧ (∀ s s' a, (c.satisfying_set s a).2 = (c.satisfying_set s' a).2)

/-- The state after the quotation case (lines 78-82) for a link with tag
`t`. -/
def State.afterQuotationCase {S : Type} (t : LinkType) (st : State S) : State S :=
  { st with quotation_level :=
      st.quotation_level
        + (if t = .QUOTE_LINK then 1 else if t = .UNQUOTE_LINK then -1 else 0) }

/-- The test of lines 86-88, on the state after the quotation case: the
QuoteLink or UnquoteLink is discarded. -/
def discards {S : Type} (t : LinkType) (st : State S) : Prop :=
  (st.avoid_discarding_quotes_level = 0 ∧ (st.quotation_level = 1 ∧ t = .QUOTE_LINK))
    ∨ (st.quotation_level = 0 ∧ t = .UNQUOTE_LINK)

/-- The handles that `walk` returns for the atoms of a sequence, walked in
order, one handle for each atom. -/
def walked_children {S : Type} (walk : Atom → Walk S Handle) :
    List Atom → Walk S (List Handle)
  | [] => pure []
  | h :: rest => do
    let hg ← walk h
    let hgs ← walked_children walk rest
    pure (hg :: hgs)

/-- The first steps of the PutLink case (lines 151-176): cast, eager walk of
the values, beta-reduction, walk of the reduced body.  The result is the
handle `rex`. -/
def walk_put_body {S : Type} (c : Config S) (walk : Atom → Walk S Handle)
    (expr : Atom) : Walk S Handle := do
  let ppp ← Walk.ofExcept (c.PutLinkCast expr)
  let ppp ← walk_put_values c walk ppp
  let red ← Walk.ofExcept (c.reduce ppp)
  walk red

/-- The evaluator returned a truth value or threw
`NotEvaluatableException`. -/
def benign (x : Except Err TruthValue) : Prop :=
  x = .error .NotEvaluatable ∨ ∃ tv, x = .ok tv

/-- The last steps of the PutLink case (lines 177-203): the evaluation of the
handle `rex` that the walk of the reduced body returned. -/
def walk_put_evaluate {S : Type} (c : Config S) (rex : Handle) : Walk S Handle :=
  match rex with
  | none => pure rex
  | some (.link .SET_LINK out _) => do
    evaluate_members c out
    pure rex
  | some r => do
    Walk.catchNotEvaluatable (do
      let _ ← Walk.call (.do_evaluate r) (fun s => c.do_evaluate s r)
      pure ())
    pure rex

/-- The computation never throws the exception `e`. -/
def NoThrow {S α : Type} (e : Err) (m : Walk S α) : Prop :=
  ∀ st st', m st ≠ some (st', .error e)

/-- No collaborator throws the exception `e`. -/
def Config.NeverThrows {S : Type} (c : Config S) (e : Err) : Prop :=
  (∀ s a, c.get_definition s a ≠ .error e)
  ∧ (∀ a, c.PutLinkCast a ≠ .error e)
  ∧ (∀ groset, c.createPutLink groset ≠ .error e)
  ∧ (∀ ppp, c.reduce ppp ≠ .error e)
  ∧ (∀ s a, (c.do_evaluate s a).2 ≠ .error e)
  ∧ (∀ a, c.ExecutionOutputLinkCast a ≠ .error e)
  ∧ (∀ a, c.LambdaLinkCast a ≠ .error e)
  ∧ (∀ vars body oset, c.substitute_nocheck vars body oset ≠ .error e)
  ∧ (∀ s sn args, (c.execute_output s sn args).2 ≠ .error e)
  ∧ (∀ s t oset, (c.fold_factory_execute s t oset).2 ≠ .error e)
  ∧ (∀ s a, (c.fold_execute s a).2 ≠ .error e)
  ∧ (∀ s t oset, (c.function_factory_execute s t oset).2 ≠ .error e)
  ∧ (∀ s a, (c.function_execute s a).2 ≠ .error e)
  ∧ (∀ s a, (c.satisfying_set s a).2 ≠ .error e)

/-- The computation keeps the guard `_halt` set: started with the guard set,
it ends, normally or by an exception, with the guard set. -/
def KeepsHalt {S α : Type} (m : Walk S α) : Prop :=
  ∀ st st' r, st.halt = true → m st = some (st', r) → st'.halt = true

/-- The computation treats the quote preservation level as a bracket: the
level never ends below where it started, and ends where it started when the
computation returns normally. -/
def AvoidBracket {S α : Type} (m : Walk S α) : Prop :=
  ∀ st st' r, m st = some (st', r) →
    st.avoid_discarding_quotes_level ≤ st'.avoid_discarding_quotes_level
    ∧ ∀ a, r = .ok a →
        st'.avoid_discarding_quotes_level = st.avoid_discarding_quotes_level

/-- DefinedSchemaNode number `i`. -/
def dsn (i : Nat) : Atom := .node .DEFINED_SCHEMA_NODE i

/-- Collaborators for concrete runs in which every DefinedSchemaNode `f` is
defined as `(List f)`; everything else is as in `fakeConfig true`. -/
def selfDefinedConfig : Config AtomSet :=
  { fakeConfig true with get_definition := fun _ a => .ok (list [a]) }

/-- An atom whose walk calls no definition, no beta-reduction, no executor and
no pattern engine: a node that is no DefinedSchemaNode, or a link that is no
PutLink, ExecutionOutputLink, GetLink, FoldLink or FunctionLink. -/
def walkable {S : Type} (c : Config S) : Atom → Bool
  | .node .DEFINED_SCHEMA_NODE _ => false
  | .node _ _ => true
  | .link t _ _ =>
    decide (t ≠ .PUT_LINK) && decide (t ≠ .EXECUTION_OUTPUT_LINK)
      && decide (t ≠ .GET_LINK) && !c.isA t .FOLD_LINK && !c.isA t .FUNCTION_LINK

/-- The height of the highest grounding of the map. -/
def vmap_depth : List (Atom × Atom) → Nat
  | [] => 0
  | (_, v) :: rest => max v.depth (vmap_depth rest)

/-! # Theorems -/

/-! ## Basic facts about `Walk` -/

theorem Walk.bind_apply {S α β : Type} (m : Walk S α) (f : α → Walk S β)
    (st : State S) :
    (m >>= f) st =
      match m st with
      | none => none
      | some (st1, .error e) => some (st1, .error e)
      | some (st1, .ok a) => f a st1 := rfl

theorem Walk.bind_ok {S α β : Type} {m : Walk S α} {st st1 : State S} {a : α}
    (h : m st = some (st1, .ok a)) (f : α → Walk S β) :
    (m >>= f) st = f a st1 := by
  rw [Walk.bind_apply, h]

theorem Walk.bind_error {S α β : Type} {m : Walk S α} {st st1 : State S} {e : Err}
    (h : m st = some (st1, .error e)) (f : α → Walk S β) :
    (m >>= f) st = some (st1, .error e) := by
  rw [Walk.bind_apply, h]

theorem Walk.bind_none {S α β : Type} {m : Walk S α} {st : State S}
    (h : m st = none) (f : α → Walk S β) :
    (m >>= f) st = none := by
  rw [Walk.bind_apply, h]

theorem Walk.pure_apply {S α : Type} (a : α) (st : State S) :
    (pure a : Walk S α) st = some (st, .ok a) := rfl

theorem Walk.getQuotationLevel_apply {S : Type} (st : State S) :
    (Walk.getQuotationLevel : Walk S Int) st = some (st, .ok st.quotation_level) := rfl

theorem Walk.getAvoid_apply {S : Type} (st : State S) :
    (Walk.getAvoid : Walk S Int) st
      = some (st, .ok st.avoid_discarding_quotes_level) := rfl

theorem Walk.getHalt_apply {S : Type} (st : State S) :
    (Walk.getHalt : Walk S Bool) st = some (st, .ok st.halt) := rfl

/-! ## Atoms that the walk leaves alone -/

/-- If `walk` returns every atom of `expr` itself and leaves the state `st` as
it is, so does the walk of the sequence. -/
theorem walk_sequence_fixed {S : Type} (walk : Atom → Walk S Handle) (st : State S) :
    ∀ (expr oset_results : List Atom) (changed : Bool),
      (∀ h ∈ expr, walk h st = some (st, .ok (some h))) →
      walk_sequence walk oset_results changed expr st
        = some (st, .ok (oset_results ++ expr, changed)) := by
  intro expr
  induction expr with
  | nil => intro acc ch _; simp [walk_sequence, Walk.pure_apply]
  | cons h rest ih =>
    intro acc ch hall
    have hh := hall h (List.mem_cons_self h rest)
    have hrest := ih (acc ++ [h]) ch (fun x hx => hall x (List.mem_cons_of_mem h hx))
    rw [walk_sequence, Walk.bind_ok hh, Walk.bind_ok (Walk.getQuotationLevel_apply st)]
    simp [hrest]

theorem Atom.allList_mem {p : Atom → Bool} :
    ∀ {out : List Atom}, Atom.allList p out = true → ∀ h ∈ out, Atom.all p h = true := by
  intro out
  induction out with
  | nil => intro _ h hh; cases hh
  | cons a rest ih =>
    intro hall h hh
    simp only [Atom.allList, Bool.and_eq_true] at hall
    rcases List.mem_cons.mp hh with rfl | hm
    · exact hall.1
    · exact ih hall.2 h hm

theorem Atom.all_head {p : Atom → Bool} {a : Atom} (h : Atom.all p a = true) :
    p a = true := by
  cases a with
  | node t n => simpa [Atom.all] using h
  | link t out tv =>
    simp only [Atom.all, Bool.and_eq_true] at h
    exact h.1

theorem Atom.all_children {p : Atom → Bool} {t : LinkType} {out : List Atom}
    {tv : TruthValue} (h : Atom.all p (.link t out tv) = true) :
    ∀ x ∈ out, Atom.all p x = true := by
  simp only [Atom.all, Bool.and_eq_true] at h
  exact Atom.allList_mem h.2

theorem Atom.depth_le_depthList :
    ∀ {out : List Atom} {h : Atom}, h ∈ out → h.depth ≤ Atom.depthList out := by
  intro out
  induction out with
  | nil => intro h hh; cases hh
  | cons a rest ih =>
    intro h hh
    simp only [Atom.depthList]
    rcases List.mem_cons.mp hh with rfl | hm
    · exact le_max_left _ _
    · exact le_trans (ih hm) (le_max_right _ _)

theorem Atom.depth_child (t : LinkType) (out : List Atom) (tv : TruthValue) {h : Atom}
    (hh : h ∈ out) : h.depth < (Atom.link t out tv).depth := by
  have := Atom.depth_le_depthList hh
  simp only [Atom.depth]
  omega

theorem quotation_case_plain {S : Type} (t : LinkType) (st : State S)
    (h1 : t ≠ .QUOTE_LINK) (h2 : t ≠ .UNQUOTE_LINK) :
    (quotation_case t : Walk S Unit) st = some (st, .ok ()) := by
  simp [quotation_case, h1, h2, Walk.pure_apply]

/-- The label `mere_recursive_call` returns the link itself when the walk
returns each child itself. -/
theorem mere_recursive_call_fixed {S : Type} (c : Config S) (walk : Atom → Walk S Handle)
    (st : State S) (t : LinkType) (out : List Atom) (tv : TruthValue)
    (h : ∀ x ∈ out, walk x st = some (st, .ok (some x))) :
    mere_recursive_call c walk (.link t out tv) t out tv st
      = some (st, .ok (some (.link t out tv))) := by
  rw [mere_recursive_call, Walk.bind_ok (walk_sequence_fixed walk st out [] false h)]
  simp [Walk.pure_apply]

/-- Under a positive quotation level, a term without QuoteLink and UnquoteLink
is returned as it is and the state does not change. -/
theorem walk_tree_quoted_fixed {S : Type} (c : Config S) (vmap : List (Atom × Atom)) :
    ∀ (fuel : Nat) (expr : Atom) (st : State S),
      expr.depth < fuel → Atom.all Atom.notQuotation expr = true →
      0 < st.quotation_level →
      walk_tree c vmap fuel expr st = some (st, .ok (some expr)) := by
  intro fuel
  induction fuel with
  | zero => intro expr st hd; omega
  | succ n ih =>
    intro expr st hd hall hq
    cases expr with
    | node t name =>
      simp only [walk_tree]
      rw [Walk.bind_ok (Walk.getQuotationLevel_apply st)]
      simp [hq, Walk.pure_apply]
    | link t out tv =>
      have hhead := Atom.all_head hall
      have h1 : t ≠ .QUOTE_LINK := by rintro rfl; simp [Atom.notQuotation] at hhead
      have h2 : t ≠ .UNQUOTE_LINK := by rintro rfl; simp [Atom.notQuotation] at hhead
      simp only [walk_tree]
      rw [Walk.bind_ok (quotation_case_plain t st h1 h2),
        Walk.bind_ok (Walk.getQuotationLevel_apply st),
        Walk.bind_ok (Walk.getAvoid_apply st)]
      simp only [h1, h2, and_false, or_false, if_false, hq, if_true]
      apply mere_recursive_call_fixed
      intro x hx
      have hdx := Atom.depth_child t out tv hx
      exact ih x st (by omega) (Atom.all_children hall x hx) hq

theorem plainTag_iff {S : Type} {c : Config S} {t : LinkType} (h : plainTag c t = true) :
    t ≠ .QUOTE_LINK ∧ t ≠ .UNQUOTE_LINK ∧ t ≠ .PUT_LINK ∧ t ≠ .EXECUTION_OUTPUT_LINK
      ∧ t ≠ .DELETE_LINK ∧ c.isA t .FOLD_LINK = false ∧ c.isA t .FUNCTION_LINK = false
      ∧ t ≠ .GET_LINK := by
  simpa [plainTag, and_assoc] using h

/-- A link with a plain tag is handled by the label `mere_recursive_call`,
whatever the quotation level. -/
theorem walk_tree_plain_link {S : Type} (c : Config S) (vmap : List (Atom × Atom))
    (fuel : Nat) (t : LinkType) (out : List Atom) (tv : TruthValue) (st : State S)
    (ht : plainTag c t = true) :
    walk_tree c vmap (fuel + 1) (.link t out tv) st
      = mere_recursive_call c (walk_tree c vmap fuel) (.link t out tv) t out tv st := by
  obtain ⟨h1, h2, h3, h4, h5, h6, h7, h8⟩ := plainTag_iff ht
  simp only [walk_tree]
  rw [Walk.bind_ok (quotation_case_plain t st h1 h2),
    Walk.bind_ok (Walk.getQuotationLevel_apply st),
    Walk.bind_ok (Walk.getAvoid_apply st)]
  simp only [h1, h2, h3, h4, h5, h6, h7, h8, and_false, or_false, if_false]
  split <;> simp

/-- An inert term (no grounded variable, no DefinedSchemaNode, plain links
only) is returned as it is and the state does not change. -/
theorem walk_tree_inert_fixed {S : Type} (c : Config S) (vmap : List (Atom × Atom)) :
    ∀ (fuel : Nat) (expr : Atom) (st : State S),
      expr.depth < fuel → Atom.all (inert c vmap) expr = true →
      walk_tree c vmap fuel expr st = some (st, .ok (some expr)) := by
  intro fuel
  induction fuel with
  | zero => intro expr st hd; omega
  | succ n ih =>
    intro expr st hd hall
    cases expr with
    | node t name =>
      have hhead := Atom.all_head hall
      simp only [walk_tree]
      rw [Walk.bind_ok (Walk.getQuotationLevel_apply st)]
      by_cases hq : st.quotation_level > 0
      · simp [hq, Walk.pure_apply]
      · cases t with
        | VARIABLE_NODE =>
          simp only [inert, Option.isNone_iff_eq_none] at hhead
          simp [hq, hhead, Walk.pure_apply]
        | GLOB_NODE =>
          simp only [inert, Option.isNone_iff_eq_none] at hhead
          simp [hq, hhead, Walk.pure_apply]
        | DEFINED_SCHEMA_NODE => simp [inert] at hhead
        | OTHER_NODE k => simp [hq, Walk.pure_apply]
    | link t out tv =>
      have hhead : plainTag c t = true := Atom.all_head hall
      rw [walk_tree_plain_link c vmap n t out tv st hhead]
      apply mere_recursive_call_fixed
      intro x hx
      have hdx := Atom.depth_child t out tv hx
      exact ih x st (by omega) (Atom.all_children hall x hx)

theorem quotation_case_quote {S : Type} (st : State S) :
    (quotation_case .QUOTE_LINK : Walk S Unit) st
      = some ({ st with quotation_level := st.quotation_level + 1 }, .ok ()) := by
  simp [quotation_case, Walk.addQuotationLevel]

theorem quotation_case_unquote {S : Type} (st : State S) :
    (quotation_case .UNQUOTE_LINK : Walk S Unit) st
      = some ({ st with quotation_level := st.quotation_level + -1 }, .ok ()) := by
  simp [quotation_case, Walk.addQuotationLevel]

/-- C2: quoted forms are returned literally.  For every configuration (either
value of the eager flag, any collaborators), every map of groundings and every
term `t` without QuoteLink and UnquoteLink, walk_tree of `(Quote t)` started at
quotation level 0 with no quote preservation returns exactly `t`: the wrapper
is removed, nothing is substituted, and neither the atomspace nor the record
of collaborator calls changes. -/
theorem walk_tree_quote_literal {S : Type} (c : Config S) (vmap : List (Atom × Atom))
    (fuel : Nat) (t : Atom) (tv : TruthValue) (st : State S)
    (hq : st.quotation_level = 0) (ha : st.avoid_discarding_quotes_level = 0)
    (hnq : Atom.all Atom.notQuotation t = true) (hf : t.depth + 2 ≤ fuel) :
    walk_tree c vmap fuel (.link .QUOTE_LINK [t] tv) st
      = some ({ st with quotation_level := 1 }, .ok (some t)) := by
  obtain ⟨n, rfl⟩ : ∃ n, fuel = n + 1 := ⟨fuel - 1, by omega⟩
  simp only [walk_tree]
  rw [Walk.bind_ok (quotation_case_quote st), Walk.bind_ok (Walk.getQuotationLevel_apply _),
    Walk.bind_ok (Walk.getAvoid_apply _)]
  simp only [hq, ha, zero_add, and_self, true_or, if_true]
  exact walk_tree_quoted_fixed c vmap n t _ (by omega) hnq (by simp)

/-- Witness of C2: `(Quote (List X))` with `X` grounded by a concept. -/
theorem walk_tree_quote_literal_witness :
    walk_tree (fakeConfig true) [(var 0, concept 1)] 3 (quote [list [var 0]]) State.init
      = some ({ State.init with quotation_level := 1 }, .ok (some (list [var 0]))) :=
  walk_tree_quote_literal (fakeConfig true) [(var 0, concept 1)] 3 (list [var 0])
    DEFAULT_TV State.init rfl rfl (by decide) (by decide)

/-! ## Walking a sequence member by member -/

theorem walk_sequence_steps {S : Type} (walk : Atom → Walk S Handle)
    (Inv : State S → Prop) (g : Atom → List Atom) (d : Atom → Bool) :
    ∀ (expr oset_results : List Atom) (changed : Bool) (st : State S),
      (∀ h ∈ expr, SequenceStep walk Inv h (g h) (d h)) → Inv st →
      ∃ st', Inv st' ∧
        walk_sequence walk oset_results changed expr st
          = some (st', .ok (oset_results ++ expr.flatMap g, changed || expr.any d)) := by
  intro expr
  induction expr with
  | nil =>
    intro acc ch st _ hinv
    exact ⟨st, hinv, by simp [walk_sequence, Walk.pure_apply]⟩
  | cons h rest ih =>
    intro acc ch st hall hinv
    obtain ⟨st1, hinv1, hstep⟩ := hall h (List.mem_cons_self h rest) st hinv
    obtain ⟨st2, hinv2, hrest⟩ :=
      ih (acc ++ g h) (ch || d h) st1 (fun x hx => hall x (List.mem_cons_of_mem h hx)) hinv1
    refine ⟨st2, hinv2, ?_⟩
    rw [hstep, hrest]
    simp [List.flatMap_cons, Bool.or_assoc]

/-- A member that is no GlobNode and walks to the atom `a` contributes `a`. -/
theorem sequenceStep_of_walk {S : Type} (walk : Atom → Walk S Handle)
    (Inv : State S → Prop) (h a : Atom) (hg : h.isGlob = false ∨ a = h)
    (hw : ∀ st, Inv st → ∃ st', Inv st' ∧ walk h st = some (st', .ok (some a))) :
    SequenceStep walk Inv h [a] (decide (a ≠ h)) := by
  intro st hinv
  obtain ⟨st', hinv', hw'⟩ := hw st hinv
  refine ⟨st', hinv', ?_⟩
  intro acc ch rest
  rw [walk_sequence, Walk.bind_ok hw', Walk.bind_ok (Walk.getQuotationLevel_apply st')]
  by_cases hne : a = h
  · subst hne; simp
  · have hg' : h.isGlob = false := hg.resolve_right hne
    have : (if ¬ (some a : Handle) = some h then true else ch) = (ch || decide (a ≠ h)) := by
      simp [hne]
    simp only [ne_eq, hg', Bool.false_eq_true, false_and, and_false, if_false, this]

/-- A GlobNode that walks to a link, at quotation level 0, contributes the
members of the link. -/
theorem sequenceStep_of_glob {S : Type} (walk : Atom → Walk S Handle)
    (Inv : State S → Prop) (h : Atom) (lt : LinkType) (members : List Atom)
    (ltv : TruthValue) (hg : h.isGlob = true)
    (hql : ∀ st, Inv st → st.quotation_level = 0)
    (hw : ∀ st, Inv st → ∃ st', Inv st' ∧
      walk h st = some (st', .ok (some (.link lt members ltv)))) :
    SequenceStep walk Inv h members true := by
  intro st hinv
  obtain ⟨st', hinv', hw'⟩ := hw st hinv
  refine ⟨st', hinv', ?_⟩
  intro acc ch rest
  have hne : ¬ (some (Atom.link lt members ltv) : Handle) = some h := by
    intro e
    cases h with
    | node t n => cases e
    | link t out tv => simp [Atom.isGlob] at hg
  rw [walk_sequence, Walk.bind_ok hw', Walk.bind_ok (Walk.getQuotationLevel_apply st')]
  simp [hql st' hinv', hg, hne]

/-! ## Plain substitution -/

theorem vmap_find_mem {vmap : List (Atom × Atom)} {k v : Atom} :
    vmap_find vmap k = some v → ∃ p ∈ vmap, p.2 = v := by
  induction vmap with
  | nil => intro h; simp [vmap_find] at h
  | cons p rest ih =>
    obtain ⟨k', v'⟩ := p
    intro h
    simp only [vmap_find] at h
    split at h
    · exact ⟨(k', v'), List.mem_cons_self _ _, by simpa using h⟩
    · obtain ⟨q, hq, hq2⟩ := ih h
      exact ⟨q, List.mem_cons_of_mem _ hq, hq2⟩

theorem plainLeaf_inert {S : Type} (c : Config S) (vmap : List (Atom × Atom)) {v : Atom}
    (h : v.plainLeaf = true) : Atom.all (inert c vmap) v = true := by
  cases v with
  | node t n => cases t <;> simp_all [Atom.plainLeaf, Atom.all, inert]
  | link t out tv => simp [Atom.plainLeaf] at h

theorem plainLeaf_depth {v : Atom} (h : v.plainLeaf = true) : v.depth = 0 := by
  cases v with
  | node t n => simp [Atom.depth]
  | link t out tv => simp [Atom.plainLeaf] at h

theorem State.halt_restore {S : Type} (st : State S) (h : st.halt = false) :
    ({ ({ st with halt := true } : State S) with halt := false } : State S) = st := by
  cases st; simp_all

/-- A grounded variable, met with the guard clear, walks to the walk of its
grounding, and the guard is clear again afterwards. -/
theorem walk_tree_grounded {S : Type} (c : Config S) (vmap : List (Atom × Atom))
    (fuel : Nat) (t : NodeType) (name : Nat) (gnd : Atom) (st st1 : State S) (r : Handle)
    (ht : t = .VARIABLE_NODE ∨ t = .GLOB_NODE)
    (hfind : vmap_find vmap (.node t name) = some gnd)
    (hq : st.quotation_level = 0) (hh : st.halt = false)
    (hw : walk_tree c vmap fuel gnd { st with halt := true } = some (st1, .ok r)) :
    walk_tree c vmap (fuel + 1) (.node t name) st
      = some ({ st1 with halt := false }, .ok r) := by
  simp only [walk_tree]
  rw [Walk.bind_ok (Walk.getQuotationLevel_apply st)]
  have h1 : ¬ (t ≠ .VARIABLE_NODE ∧ t ≠ .GLOB_NODE) := by
    rcases ht with rfl | rfl <;> simp
  have h2 : t ≠ .DEFINED_SCHEMA_NODE := by rcases ht with rfl | rfl <;> simp
  simp only [hq, lt_self_iff_false, if_false, h1, h2, hfind]
  rw [Walk.bind_ok (Walk.getHalt_apply st)]
  simp only [hh, Bool.false_eq_true, if_false]
  have hset : (Walk.setHalt true : Walk S Unit) st
      = some ({ st with halt := true }, .ok ()) := rfl
  rw [Walk.bind_ok hset, Walk.bind_ok hw]
  rfl

theorem substituteList_flatMap (vmap : List (Atom × Atom)) :
    ∀ out : List Atom,
      out.flatMap (fun h => [substitute vmap h]) = substituteList vmap out := by
  intro out
  induction out with
  | nil => simp [substituteList]
  | cons a rest ih => simp [substituteList, List.flatMap_cons, ih]

theorem substituteList_fixed (vmap : List (Atom × Atom)) :
    ∀ out : List Atom,
      out.any (fun h => decide (substitute vmap h ≠ h)) = false →
      substituteList vmap out = out := by
  intro out
  induction out with
  | nil => intro _; simp [substituteList]
  | cons a rest ih =>
    intro h
    simp only [List.any_cons, Bool.or_eq_false_iff, decide_eq_false_iff_not, ne_eq,
      not_not] at h
    simp [substituteList, h.1, ih h.2]

theorem plainTerm_not_glob {S : Type} {c : Config S} {h : Atom}
    (hp : plainTerm c h = true) : h.isGlob = false := by
  cases h with
  | node t n => cases t <;> simp_all [plainTerm, Atom.isGlob]
  | link t out tv => simp [Atom.isGlob]

theorem walk_tree_substitute_aux {S : Type} (c : Config S) (hadd : c.AddAtomReturnsAtom)
    (vmap : List (Atom × Atom)) (henv : ∀ p ∈ vmap, p.2.plainLeaf = true) (a : Int) :
    ∀ (fuel : Nat) (expr : Atom) (st : State S),
      expr.depth + 2 ≤ fuel → Atom.all (plainTerm c) expr = true → Ready a st →
      ∃ st', Ready a st' ∧
        walk_tree c vmap fuel expr st = some (st', .ok (some (substitute vmap expr))) := by
  intro fuel
  induction fuel with
  | zero => intro expr st hd; omega
  | succ n ih =>
    intro expr st hd hall hready
    obtain ⟨hq, hh, ha⟩ := hready
    cases expr with
    | node t name =>
      have hhead := Atom.all_head hall
      cases t with
      | VARIABLE_NODE =>
        cases hfind : vmap_find vmap (.node .VARIABLE_NODE name) with
        | none =>
          refine ⟨st, ⟨hq, hh, ha⟩, ?_⟩
          simp only [walk_tree, substitute, hfind]
          rw [Walk.bind_ok (Walk.getQuotationLevel_apply st)]
          simp [hq, Walk.pure_apply]
        | some gnd =>
          obtain ⟨p, hp, hp2⟩ := vmap_find_mem hfind
          have hleaf : gnd.plainLeaf = true := hp2 ▸ henv p hp
          have hw := walk_tree_inert_fixed c vmap n gnd { st with halt := true }
            (by rw [plainLeaf_depth hleaf]; simp only [Atom.depth] at hd; omega)
            (plainLeaf_inert c vmap hleaf)
          refine ⟨st, ⟨hq, hh, ha⟩, ?_⟩
          rw [walk_tree_grounded c vmap n .VARIABLE_NODE name gnd st _ _ (Or.inl rfl)
            hfind hq hh hw, State.halt_restore st hh]
          simp [substitute, hfind]
      | GLOB_NODE => simp [plainTerm] at hhead
      | DEFINED_SCHEMA_NODE => simp [plainTerm] at hhead
      | OTHER_NODE k =>
        refine ⟨st, ⟨hq, hh, ha⟩, ?_⟩
        simp only [walk_tree, substitute]
        rw [Walk.bind_ok (Walk.getQuotationLevel_apply st)]
        simp [hq, Walk.pure_apply]
    | link t out tv =>
      have hhead : plainTag c t = true := Atom.all_head hall
      rw [walk_tree_plain_link c vmap n t out tv st hhead]
      have hsteps : ∀ h ∈ out, SequenceStep (walk_tree c vmap n) (Ready a) h
          [substitute vmap h] (decide (substitute vmap h ≠ h)) := by
        intro h hmem
        have hph := Atom.all_children hall h hmem
        apply sequenceStep_of_walk _ _ _ _ (Or.inl (plainTerm_not_glob (Atom.all_head hph)))
        intro st0 hr0
        have hdx := Atom.depth_child t out tv hmem
        exact ih h st0 (by omega) hph hr0
      obtain ⟨st1, hr1, hseq⟩ := walk_sequence_steps (walk_tree c vmap n) (Ready a)
        (fun h => [substitute vmap h]) (fun h => decide (substitute vmap h ≠ h))
        out [] false st hsteps ⟨hq, hh, ha⟩
      rw [mere_recursive_call, Walk.bind_ok hseq]
      simp only [List.nil_append, Bool.false_or, substituteList_flatMap]
      by_cases hch : out.any (fun h => decide (substitute vmap h ≠ h)) = true
      · have hres := hadd st1.as (Atom.link t (substituteList vmap out) tv)
        simp only [hch, if_true, Walk.call, substitute, hres]
        refine ⟨_, ?_, rfl⟩
        exact ⟨hr1.1, hr1.2.1, hr1.2.2⟩
      · simp only [hch, Bool.false_eq_true, if_false, Walk.pure_apply, substitute]
        rw [substituteList_fixed vmap out (by simpa using hch)]
        exact ⟨st1, hr1, rfl⟩

/-- C1: plain substitution.  For every map of groundings whose values are
plain leaves, and every term built from plain-tagged links and from nodes
other than GlobNode and DefinedSchemaNode, walk_tree started at quotation
level 0 with the guard `_halt` clear returns the term in which every grounded
VariableNode is replaced by its grounding and every other leaf is kept; the
quotation level and the guard are as before.  The atomspace returns the handle
of the atom it is given. -/
theorem walk_tree_plain_substitution {S : Type} (c : Config S)
    (hadd : c.AddAtomReturnsAtom) (vmap : List (Atom × Atom))
    (henv : ∀ p ∈ vmap, p.2.plainLeaf = true) (fuel : Nat) (expr : Atom) (st : State S)
    (hterm : Atom.all (plainTerm c) expr = true)
    (hq : st.quotation_level = 0) (hh : st.halt = false) (hf : expr.depth + 2 ≤ fuel) :
    ∃ st', walk_tree c vmap fuel expr st = some (st', .ok (some (substitute vmap expr)))
      ∧ st'.quotation_level = 0 ∧ st'.halt = false
      ∧ st'.avoid_discarding_quotes_level = st.avoid_discarding_quotes_level := by
  obtain ⟨st', hr, hw⟩ := walk_tree_substitute_aux c hadd vmap henv
    st.avoid_discarding_quotes_level fuel expr st hf hterm ⟨hq, hh, rfl⟩
  exact ⟨st', hw, hr.1, hr.2.1, hr.2.2⟩

theorem fakeConfig_addAtomReturnsAtom (eager : Bool) :
    (fakeConfig eager).AddAtomReturnsAtom := by
  intro s a
  rfl

/-- Witness of C1: the groundings `X ↦ A` and the term `(List X X)`; the
substituted term is `(List A A)`. -/
theorem walk_tree_plain_substitution_witness :
    substitute [(var 0, concept 1)] (list [var 0, var 0]) = list [concept 1, concept 1]
    ∧ ∃ st', walk_tree (fakeConfig true) [(var 0, concept 1)] 3 (list [var 0, var 0])
        State.init
          = some (st', .ok (some (substitute [(var 0, concept 1)] (list [var 0, var 0]))))
      ∧ st'.quotation_level = 0 ∧ st'.halt = false
      ∧ st'.avoid_discarding_quotes_level = State.init.avoid_discarding_quotes_level :=
  ⟨by decide,
   walk_tree_plain_substitution (fakeConfig true) (fakeConfig_addAtomReturnsAtom true)
    [(var 0, concept 1)] (by decide) 3 (list [var 0, var 0]) State.init (by decide)
    rfl rfl (by decide)⟩

/-! ## The quotation level after a QuoteLink or an UnquoteLink -/

/-- C3: substitution and quotation.  With the grounding `X ↦ A`, the walk of
`(Quote (List (Unquote X) X))` from quotation level 0 returns `(List A A)`:
the second `X` lies inside the QuoteLink and outside the UnquoteLink, and is
substituted all the same, because the quotation level that the UnquoteLink
lowered to 0 is not raised again when the walk of the UnquoteLink returns. -/
theorem walk_tree_unquote_sibling_substituted :
    walk_tree (fakeConfig true) [(var 0, concept 1)] 5
        (quote [list [unquote [var 0], var 0]]) State.init
      = some ({ State.init with
                  as := [list [concept 1, concept 1]],
                  trace := [.add_atom (some (list [concept 1, concept 1]))] },
              .ok (some (list [concept 1, concept 1]))) := by
  rfl

/-- C5: the quotation state at the return of walk_tree.  With the grounding
`X ↦ A`, the walk of `(List (Quote X) X)` from quotation level 0 returns
`(List X X)` with quotation level 1: the QuoteLink raised the level, the walk
of the QuoteLink returned without lowering it, and the sibling `X` was walked
at level 1.  On a failure path the quote preservation level is not restored
either: the eager walk of `(Get G)` with the GlobNode `G` grounded by a node
throws with the level at 1. -/
theorem walk_tree_quotation_level_not_restored :
    walk_tree (fakeConfig true) [(var 0, concept 1)] 5
        (list [quote [var 0], var 0]) State.init
      = some ({ State.init with
                  quotation_level := 1,
                  as := [list [var 0, var 0]],
                  trace := [.add_atom (some (list [var 0, var 0]))] },
              .ok (some (list [var 0, var 0])))
    ∧ walk_tree (fakeConfig true) [(glob 0, concept 1)] 5
        (.link .GET_LINK [glob 0] DEFAULT_TV) State.init
      = some ({ State.init with avoid_discarding_quotes_level := 1 },
              .error .ExpectingGlobList) := by
  constructor <;> rfl

/-! ## Ground terms -/

/-- C6, as stated, fails on a QuoteLink: `(Quote A)` holds no variable and
nothing executable, the walk strips the wrapper, and instantiate returns `A`,
while `add_atom` of `(Quote A)` returns `(Quote A)`. -/
theorem instantiate_quote_not_noop :
    instantiate (fakeConfig true) 3 (some (quote [concept 1])) [] State.init
      = some ({ State.init with
                  quotation_level := 1,
                  as := [concept 1],
                  trace := [.add_atom (some (concept 1))] },
              .ok (some (concept 1)))
    ∧ ((fakeConfig true).add_atom State.init.as (some (quote [concept 1]))).2
      = some (quote [concept 1])
    ∧ concept 1 ≠ quote [concept 1] := by
  refine ⟨rfl, rfl, by decide⟩

/-- Instantiate of an inert term returns what `add_atom` returns for it. -/
theorem instantiate_inert {S : Type} (c : Config S) (vmap : List (Atom × Atom))
    (fuel : Nat) (expr : Atom) (st : State S)
    (hg : Atom.all (inert c vmap) expr = true) (hf : expr.depth < fuel) :
    instantiate c fuel (some expr) vmap st
      = some ({ st with
                  quotation_level := 0,
                  avoid_discarding_quotes_level := 0,
                  as := (c.add_atom st.as (some expr)).1,
                  trace := st.trace ++ [.add_atom (some expr)] },
              .ok (c.add_atom st.as (some expr)).2) := by
  simp only [instantiate]
  rw [Walk.bind_ok (walk_tree_inert_fixed c vmap fuel expr _ hf hg)]
  rfl

/-- C6, amended: for every map of groundings and every term that holds no
grounded VariableNode or GlobNode, no DefinedSchemaNode and only plain-tagged
links (no Quote, Unquote, Put, ExecutionOutput, Delete, Get, Fold-family or
Function-family link), walk_tree returns the term itself without changing the
state, and instantiate returns what `add_atom` returns for the term. -/
theorem instantiate_ground_noop {S : Type} (c : Config S) (vmap : List (Atom × Atom))
    (fuel : Nat) (expr : Atom) (st : State S)
    (hg : Atom.all (inert c vmap) expr = true) (hf : expr.depth < fuel) :
    walk_tree c vmap fuel expr st = some (st, .ok (some expr))
    ∧ instantiate c fuel (some expr) vmap st
      = some ({ st with
                  quotation_level := 0,
                  avoid_discarding_quotes_level := 0,
                  as := (c.add_atom st.as (some expr)).1,
                  trace := st.trace ++ [.add_atom (some expr)] },
              .ok (c.add_atom st.as (some expr)).2) := by
  exact ⟨walk_tree_inert_fixed c vmap fuel expr st hf hg,
    instantiate_inert c vmap fuel expr st hg hf⟩

/-- Witness of C6, amended: `(List A Y)` with `Y` not grounded. -/
theorem instantiate_ground_noop_witness :
    walk_tree (fakeConfig true) [(var 0, concept 1)] 2 (list [concept 1, var 1]) State.init
      = some (State.init, .ok (some (list [concept 1, var 1])))
    ∧ instantiate (fakeConfig true) 2 (some (list [concept 1, var 1])) [(var 0, concept 1)]
        State.init
      = some ({ State.init with
                  quotation_level := 0,
                  avoid_discarding_quotes_level := 0,
                  as := ((fakeConfig true).add_atom State.init.as
                          (some (list [concept 1, var 1]))).1,
                  trace := State.init.trace ++ [.add_atom (some (list [concept 1, var 1]))] },
              .ok ((fakeConfig true).add_atom State.init.as
                    (some (list [concept 1, var 1]))).2) :=
  instantiate_ground_noop (fakeConfig true) [(var 0, concept 1)] 2
    (list [concept 1, var 1]) State.init (by decide) (by decide)

/-- C7, as stated, fails on nested QuoteLinks: under the empty map,
instantiate of `(Quote (Quote A))` returns `(Quote A)` and calls nothing but
`add_atom`; instantiate of that result returns `A`. -/
theorem instantiate_not_idempotent :
    instantiate (fakeConfig true) 4 (some (quote [quote [concept 1]])) [] State.init
      = some ({ State.init with
                  quotation_level := 2,
                  as := [quote [concept 1]],
                  trace := [.add_atom (some (quote [concept 1]))] },
              .ok (some (quote [concept 1])))
    ∧ instantiate (fakeConfig true) 4 (some (quote [concept 1])) []
        { State.init with
            quotation_level := 2,
            as := [quote [concept 1]],
            trace := [.add_atom (some (quote [concept 1]))] }
      = some ({ State.init with
                  quotation_level := 1,
                  as := [quote [concept 1], concept 1],
                  trace := [.add_atom (some (quote [concept 1])),
                            .add_atom (some (concept 1))] },
              .ok (some (concept 1)))
    ∧ concept 1 ≠ quote [concept 1] := by
  refine ⟨rfl, rfl, by decide⟩

/-- C7, amended: idempotence on ground results.  Under the empty map, whenever
instantiate of a term `e` returns a term `r` that holds no DefinedSchemaNode
and only plain-tagged links (no Quote, Unquote, Put, ExecutionOutput, Delete,
Get, Fold-family or Function-family link), instantiate of `r`, run in the
state that the first call left, returns `r` again.  The atomspace returns the
handle of the atom it is given. -/
theorem instantiate_idempotent_on_ground_result {S : Type} (c : Config S)
    (hadd : c.AddAtomReturnsAtom) (fuel1 fuel2 : Nat) (e r : Atom) (st st1 : State S)
    (_h1 : instantiate c fuel1 (some e) [] st = some (st1, .ok (some r)))
    (hr : Atom.all (inert c []) r = true) (hf : r.depth < fuel2) :
    ∃ st2, instantiate c fuel2 (some r) [] st1 = some (st2, .ok (some r)) := by
  have h := instantiate_inert c [] fuel2 r st1 hr hf
  rw [hadd st1.as r] at h
  exact ⟨_, h⟩

/-- Witness of C7, amended: `(Quote (List A))` is instantiated to `(List A)`,
and `(List A)` to itself. -/
theorem instantiate_idempotent_on_ground_result_witness :
    ∃ st2, instantiate (fakeConfig true) 3 (some (list [concept 1])) []
        { State.init with
            quotation_level := 1,
            as := [list [concept 1]],
            trace := [.add_atom (some (list [concept 1]))] }
      = some (st2, .ok (some (list [concept 1]))) :=
  instantiate_idempotent_on_ground_result (fakeConfig true)
    (fakeConfig_addAtomReturnsAtom true) 3 3 (quote [list [concept 1]]) (list [concept 1])
    State.init _ rfl (by decide) (by decide)

/-! ## Glob splicing -/

theorem depthList_plainLeaves :
    ∀ {members : List Atom}, (∀ m ∈ members, m.plainLeaf = true) →
      Atom.depthList members = 0 := by
  intro members
  induction members with
  | nil => intro _; rfl
  | cons a rest ih =>
    intro h
    simp only [Atom.depthList]
    rw [plainLeaf_depth (h a (List.mem_cons_self a rest)),
      ih (fun m hm => h m (List.mem_cons_of_mem a hm))]
    rfl

theorem allList_of_forall {p : Atom → Bool} :
    ∀ {out : List Atom}, (∀ h ∈ out, Atom.all p h = true) → Atom.allList p out = true := by
  intro out
  induction out with
  | nil => intro _; rfl
  | cons a rest ih =>
    intro h
    simp only [Atom.allList, Bool.and_eq_true]
    exact ⟨h a (List.mem_cons_self a rest), ih (fun m hm => h m (List.mem_cons_of_mem a hm))⟩

theorem splice_absent (g : Atom) (members : List Atom) :
    ∀ out : List Atom, out.any (fun h => decide (h = g)) = false →
      splice g members out = out := by
  intro out
  induction out with
  | nil => intro _; rfl
  | cons a rest ih =>
    intro h
    simp only [List.any_cons, Bool.or_eq_false_iff, decide_eq_false_iff_not] at h
    have := ih h.2
    simp only [splice] at this ⊢
    simp [List.flatMap_cons, h.1, this]

/-- C4, as stated, fails in two ways.  The link that grounds the GlobNode
need not be a plain one: with `G ↦ (Delete P)`, a link whose one member is a
plain leaf, the walk of `(List G)` removes `P` from the atomspace and throws
"Expecting glob list" instead of returning `(List P)`.  And the other children
are walked as well: with `G ↦ (List P)` and `X ↦ A`, the walk of `(List X G)`
returns `(List A P)`, whose first child is not the child `X` of the input. -/
theorem walk_tree_glob_delete_binding :
    walk_tree (fakeConfig true) [(glob 0, delete [concept 1])] 5 (list [glob 0])
        { State.init with as := [concept 1] }
      = some ({ State.init with trace := [.remove_atom (concept 1)] },
              .error .ExpectingGlobList)
    ∧ walk_tree (fakeConfig true) [(glob 0, list [concept 1]), (var 0, concept 2)] 5
        (list [var 0, glob 0]) State.init
      = some ({ State.init with
                  as := [list [concept 2, concept 1]],
                  trace := [.add_atom (some (list [concept 2, concept 1]))] },
              .ok (some (list [concept 2, concept 1]))) := by
  constructor <;> rfl

/-- C4, amended: glob splicing.  Let the GlobNode `G` be grounded by a link
with a plain tag whose members are plain leaves, and let `(Outer c1 … cn)` be a
plain-tagged link whose children are `G` or inert terms (no grounded variable,
no DefinedSchemaNode, plain links only).  Walked at quotation level 0 with the
guard `_halt` clear, the link returns the link with the same tag and truth
value whose children are the children of the input, in order, with each
occurrence of `G` replaced by the members of its grounding; an empty grounding
removes `G`.  The atomspace returns the handle of the atom it is given. -/
theorem walk_tree_glob_splice {S : Type} (c : Config S) (hadd : c.AddAtomReturnsAtom)
    (vmap : List (Atom × Atom)) (fuel : Nat) (t : LinkType) (out : List Atom)
    (tv : TruthValue) (name : Nat) (lt : LinkType) (members : List Atom)
    (ltv : TruthValue) (st : State S)
    (ht : plainTag c t = true)
    (hfind : vmap_find vmap (.node .GLOB_NODE name) = some (.link lt members ltv))
    (hlt : plainTag c lt = true)
    (hmem : ∀ m ∈ members, m.plainLeaf = true)
    (hout : ∀ h ∈ out, h = .node .GLOB_NODE name ∨ Atom.all (inert c vmap) h = true)
    (hq : st.quotation_level = 0) (hh : st.halt = false)
    (hf : (Atom.link t out tv).depth + 3 ≤ fuel) :
    ∃ st', walk_tree c vmap fuel (.link t out tv) st
      = some (st', .ok (some (.link t (splice (.node .GLOB_NODE name) members out) tv))) := by
  obtain ⟨n, rfl⟩ : ∃ n, fuel = n + 1 := ⟨fuel - 1, by omega⟩
  obtain ⟨m, rfl⟩ : ∃ m, n = m + 1 := ⟨n - 1, by simp only [Atom.depth] at hf; omega⟩
  have hLinert : Atom.all (inert c vmap) (.link lt members ltv) = true := by
    simp only [Atom.all, Bool.and_eq_true]
    exact ⟨hlt, allList_of_forall (fun x hx => plainLeaf_inert c vmap (hmem x hx))⟩
  have hLdepth : (Atom.link lt members ltv).depth = 1 := by
    simp [Atom.depth, depthList_plainLeaves hmem]
  have hsteps : ∀ h ∈ out, SequenceStep (walk_tree c vmap (m + 1))
      (Ready st.avoid_discarding_quotes_level) h
      (if h = .node .GLOB_NODE name then members else [h])
      (decide (h = .node .GLOB_NODE name)) := by
    intro h hmem'
    by_cases hG : h = .node .GLOB_NODE name
    · subst hG
      simp only [if_true, decide_True]
      apply sequenceStep_of_glob _ _ (.node .GLOB_NODE name) lt members ltv rfl
        (fun s hs => hs.1)
      intro st0 hr0
      have hw := walk_tree_inert_fixed c vmap m (.link lt members ltv)
        { st0 with halt := true }
        (by rw [hLdepth]; simp only [Atom.depth] at hf; omega) hLinert
      refine ⟨st0, hr0, ?_⟩
      rw [walk_tree_grounded c vmap m .GLOB_NODE name _ st0 _ _ (Or.inr rfl) hfind
        hr0.1 hr0.2.1 hw, State.halt_restore st0 hr0.2.1]
    · simp only [hG, if_false, decide_False]
      have hin := (hout h hmem').resolve_left hG
      have hstep := sequenceStep_of_walk (walk_tree c vmap (m + 1))
        (Ready st.avoid_discarding_quotes_level) h h (Or.inr rfl) (by
          intro st0 hr0
          have hdx := Atom.depth_child t out tv hmem'
          exact ⟨st0, hr0, walk_tree_inert_fixed c vmap (m + 1) h st0 (by omega) hin⟩)
      simpa using hstep
  obtain ⟨st1, _, hseq⟩ := walk_sequence_steps (walk_tree c vmap (m + 1))
    (Ready st.avoid_discarding_quotes_level)
    (fun h => if h = .node .GLOB_NODE name then members else [h])
    (fun h => decide (h = .node .GLOB_NODE name)) out [] false st hsteps ⟨hq, hh, rfl⟩
  rw [walk_tree_plain_link c vmap (m + 1) t out tv st ht, mere_recursive_call,
    Walk.bind_ok hseq]
  simp only [List.nil_append, Bool.false_or]
  by_cases hch : out.any (fun h => decide (h = .node .GLOB_NODE name)) = true
  · have hres := hadd st1.as (Atom.link t
      (out.flatMap (fun h => if h = .node .GLOB_NODE name then members else [h])) tv)
    simp only [hch, if_true, Walk.call, hres, splice]
    exact ⟨_, rfl⟩
  · simp only [hch, Bool.false_eq_true, if_false, Walk.pure_apply]
    rw [splice_absent _ members out (Bool.eq_false_iff.mpr hch)]
    exact ⟨st1, rfl⟩

/-- Witness of C4, amended: `G ↦ (List P Q R)` and `(Outer pre G post)` give
`(Outer pre P Q R post)`. -/
theorem walk_tree_glob_splice_witness :
    splice (glob 0) [concept 1, concept 2, concept 3] [concept 0, glob 0, concept 9]
      = [concept 0, concept 1, concept 2, concept 3, concept 9]
    ∧ ∃ st', walk_tree (fakeConfig true)
        [(glob 0, list [concept 1, concept 2, concept 3])] 4
        (.link (.OTHER_LINK 7) [concept 0, glob 0, concept 9] 5) State.init
      = some (st', .ok (some (.link (.OTHER_LINK 7)
          (splice (glob 0) [concept 1, concept 2, concept 3]
            [concept 0, glob 0, concept 9]) 5))) :=
  ⟨by decide,
   walk_tree_glob_splice (fakeConfig true) (fakeConfig_addAtomReturnsAtom true)
    [(glob 0, list [concept 1, concept 2, concept 3])] 4 (.OTHER_LINK 7)
    [concept 0, glob 0, concept 9] 5 0 .LIST_LINK [concept 1, concept 2, concept 3]
    DEFAULT_TV State.init (by decide) rfl (by decide) (by decide) (by decide) rfl rfl
    (by decide)⟩

/-! ## DeleteLink -/

/-- The removal loop calls `remove_atom` once, in order, for every removable
atom of the sequence, and for nothing else. -/
theorem remove_results_apply {S : Type} (c : Config S) :
    ∀ (rs : List Atom) (st : State S),
      remove_results c rs st
        = some ({ st with
                    as := (rs.filter removable).foldl c.remove_atom st.as,
                    trace := st.trace ++ (rs.filter removable).map Call.remove_atom },
                .ok ()) := by
  intro rs
  induction rs with
  | nil => intro st; simp [remove_results, Walk.pure_apply]
  | cons h rest ih =>
    intro st
    by_cases hr : removable h = true
    · have hr' : h.isVariable = false ∧ h.isGlob = false := by
        simpa [removable] using hr
      have hcall : (if h.isVariable = false ∧ h.isGlob = false then
            Walk.call (.remove_atom h) (fun s => (c.remove_atom s h, Except.ok ()))
          else (pure () : Walk S Unit)) st
          = some ({ st with as := c.remove_atom st.as h,
                            trace := st.trace ++ [.remove_atom h] }, .ok ()) := by
        simp [hr', Walk.call]
      rw [remove_results, Walk.bind_ok hcall, ih]
      simp [List.filter_cons, hr]
    · have hr' : ¬ (h.isVariable = false ∧ h.isGlob = false) := by
        simpa [removable] using hr
      have hcall : (if h.isVariable = false ∧ h.isGlob = false then
            Walk.call (.remove_atom h) (fun s => (c.remove_atom s h, Except.ok ()))
          else (pure () : Walk S Unit)) st = some (st, .ok ()) := by
        simp [hr', Walk.pure_apply]
      rw [remove_results, Walk.bind_ok hcall, ih]
      simp [List.filter_cons, hr]

/-- A DeleteLink met at quotation level 0 is handled by the DeleteLink
case. -/
theorem walk_tree_delete_link {S : Type} (c : Config S) (vmap : List (Atom × Atom))
    (fuel : Nat) (out : List Atom) (tv : TruthValue) (st : State S)
    (hq : st.quotation_level = 0) :
    walk_tree c vmap (fuel + 1) (.link .DELETE_LINK out tv) st
      = walk_delete c (walk_tree c vmap fuel) out st := by
  simp only [walk_tree]
  rw [Walk.bind_ok (quotation_case_plain .DELETE_LINK st (by decide) (by decide)),
    Walk.bind_ok (Walk.getQuotationLevel_apply st),
    Walk.bind_ok (Walk.getAvoid_apply st)]
  simp [hq]

/-- C8, as stated, fails in two ways.  The walk of a DeleteLink does not
return the undefined handle when the walk of a child throws: the child
`(Quote A B)` throws "unexpected arity".  And the atoms removed are those of
the walked sequence, in which a grounded GlobNode is replaced by the members
of its grounding: with `G ↦ (List P Q)`, the walk of `(Delete G)` removes `P`
and `Q`, and not the walked form `(List P Q)` of the child. -/
theorem walk_tree_delete_not_always_undefined :
    walk_tree (fakeConfig true) [] 5 (delete [quote [concept 1, concept 2]]) State.init
      = some ({ State.init with quotation_level := 1 }, .error .InvalidShape)
    ∧ walk_tree (fakeConfig true) [(glob 0, list [concept 1, concept 2])] 5
        (delete [glob 0]) State.init
      = some ({ State.init with
                  trace := [.remove_atom (concept 1), .remove_atom (concept 2)] },
              .ok none) := by
  constructor <;> rfl

/-- C8, amended: for every map of groundings and every DeleteLink walked at
quotation level 0, if the walk of the children returns the sequence `rs`
(grounded GlobNodes spliced, undefined handles skipped), then walk_tree returns
the undefined handle and, after what the walk of the children did, calls
`remove_atom` exactly once, in order, for each atom of `rs` that is neither a
VariableNode nor a GlobNode, and for nothing else. -/
theorem walk_tree_delete {S : Type} (c : Config S) (vmap : List (Atom × Atom))
    (fuel : Nat) (out : List Atom) (tv : TruthValue) (st st1 : State S)
    (rs : List Atom) (changed : Bool)
    (hq : st.quotation_level = 0)
    (hseq : walk_sequence (walk_tree c vmap fuel) [] false out st
      = some (st1, .ok (rs, changed))) :
    walk_tree c vmap (fuel + 1) (.link .DELETE_LINK out tv) st
      = some ({ st1 with
                  as := (rs.filter removable).foldl c.remove_atom st1.as,
                  trace := st1.trace ++ (rs.filter removable).map Call.remove_atom },
              .ok none) := by
  rw [walk_tree_delete_link c vmap fuel out tv st hq, walk_delete, Walk.bind_ok hseq,
    Walk.bind_ok (remove_results_apply c rs st1)]
  rfl

/-- Witness of C8, amended: with `X ↦ A`, the walk of `(Delete X Y)` removes
`A` once and does not remove the VariableNode `Y`, which has no grounding. -/
theorem walk_tree_delete_witness :
    walk_tree (fakeConfig true) [(var 0, concept 1)] 3 (delete [var 0, var 1])
        { State.init with as := [concept 1, concept 2] }
      = some ({ State.init with
                  as := [concept 2],
                  trace := [.remove_atom (concept 1)] },
              .ok none) :=
  walk_tree_delete (fakeConfig true) [(var 0, concept 1)] 2 [var 0, var 1] DEFAULT_TV
    { State.init with as := [concept 1, concept 2] }
    { State.init with as := [concept 1, concept 2] } [concept 1, var 1] true rfl rfl

/-! ## The undefined handle -/

theorem neverUndefined_bind {S α : Type} (m : Walk S α) (f : α → Walk S Handle)
    (h : ∀ a, NeverUndefined (f a)) : NeverUndefined (m >>= f) := by
  intro st st'
  rw [Walk.bind_apply]
  split
  · simp
  · simp
  · exact h _ _ _

theorem neverUndefined_pure {S : Type} (a : Atom) :
    NeverUndefined (pure (some a) : Walk S Handle) := by
  intro st st'
  simp [Walk.pure_apply]

theorem neverUndefined_call {S : Type} (ev : Call) (f : S → S × Except Err Handle)
    (h : ∀ s, (f s).2 ≠ .ok none) : NeverUndefined (Walk.call ev f) := by
  intro st st' e
  simp only [Walk.call, Option.some.injEq, Prod.mk.injEq] at e
  exact h _ e.2

theorem neverUndefined_mere_recursive_call {S : Type} (c : Config S)
    (hc : c.ReturnsAtoms) (walk : Atom → Walk S Handle) (expr : Atom) (t : LinkType)
    (out : List Atom) (tv : TruthValue) :
    NeverUndefined (mere_recursive_call c walk expr t out tv) := by
  unfold mere_recursive_call
  apply neverUndefined_bind
  intro r
  split
  · apply neverUndefined_call
    intro s e
    simp only [Except.ok.injEq] at e
    exact hc.1 _ _ e
  · exact neverUndefined_pure expr

theorem neverUndefined_walk_fold {S : Type} (c : Config S)
    (hc : c.ReturnsAtoms) (walk : Atom → Walk S Handle) (expr : Atom) (t : LinkType)
    (out : List Atom) : NeverUndefined (walk_fold c walk expr t out) := by
  unfold walk_fold
  split
  · apply neverUndefined_bind
    intro r
    exact neverUndefined_call _ _ (fun s => hc.2.2.1 s t r.1)
  · exact neverUndefined_call _ _ (fun s => hc.2.2.2.1 s expr)

theorem neverUndefined_walk_function {S : Type} (c : Config S)
    (hc : c.ReturnsAtoms) (walk : Atom → Walk S Handle) (expr : Atom) (t : LinkType)
    (out : List Atom) : NeverUndefined (walk_function c walk expr t out) := by
  unfold walk_function
  split
  · apply neverUndefined_bind
    intro r
    exact neverUndefined_call _ _ (fun s => hc.2.2.2.2.1 s t r.1)
  · exact neverUndefined_call _ _ (fun s => hc.2.2.2.2.2.1 s expr)

theorem neverUndefined_walk_get {S : Type} (c : Config S)
    (hc : c.ReturnsAtoms) (walk : Atom → Walk S Handle) (expr : Atom)
    (out : List Atom) : NeverUndefined (walk_get c walk expr out) := by
  unfold walk_get
  split
  · apply neverUndefined_bind; intro _
    apply neverUndefined_bind; intro _
    apply neverUndefined_bind; intro _
    apply neverUndefined_bind; intro _
    exact neverUndefined_call _ _ (fun s => hc.2.2.2.2.2.2 s _)
  · exact neverUndefined_call _ _ (fun s => hc.2.2.2.2.2.2 s expr)

theorem fakeConfig_returnsAtoms (eager : Bool) : (fakeConfig eager).ReturnsAtoms := by
  refine ⟨?_, ?_, ?_, ?_, ?_, ?_, ?_⟩ <;> intros <;> simp [fakeConfig]

/-- C10, as stated, fails: with collaborators that return atoms only and the
grounding `X ↦ (Delete A)`, the walk of the VariableNode `X`, whose tag is not
Delete, returns the undefined handle. -/
theorem walk_tree_variable_undefined :
    (fakeConfig true).ReturnsAtoms
    ∧ walk_tree (fakeConfig true) [(var 0, delete [concept 1])] 5 (var 0)
        { State.init with as := [concept 1] }
      = some ({ State.init with trace := [.remove_atom (concept 1)] }, .ok none) :=
  ⟨fakeConfig_returnsAtoms true, rfl⟩

/-- C10, amended: when every collaborator returns an atom, walk_tree returns
the undefined handle only for a DeleteLink or for a form that passes on the
result of an inner walk: a QuoteLink or UnquoteLink, a VariableNode or GlobNode
with a grounding, a DefinedSchemaNode, a PutLink or an ExecutionOutputLink.
For every other term, whatever it returns is an atom. -/
theorem walk_tree_undefined_only {S : Type} (c : Config S) (hc : c.ReturnsAtoms)
    (vmap : List (Atom × Atom)) (fuel : Nat) (expr : Atom) (st st' : State S)
    (hw : walk_tree c vmap fuel expr st = some (st', .ok none)) :
    passesUndefined vmap expr = true := by
  by_contra hp
  rw [Bool.not_eq_true] at hp
  cases fuel with
  | zero => simp [walk_tree, Walk.diverge] at hw
  | succ n =>
    cases expr with
    | node t name =>
      simp only [walk_tree] at hw
      rw [Walk.bind_ok (Walk.getQuotationLevel_apply st)] at hw
      by_cases hq : st.quotation_level > 0
      · simp [hq, Walk.pure_apply] at hw
      · cases t with
        | VARIABLE_NODE =>
          have hp' : vmap_find vmap (.node .VARIABLE_NODE name) = none := by
            simpa [passesUndefined] using hp
          simp [hq, hp', Walk.pure_apply] at hw
        | GLOB_NODE =>
          have hp' : vmap_find vmap (.node .GLOB_NODE name) = none := by
            simpa [passesUndefined] using hp
          simp [hq, hp', Walk.pure_apply] at hw
        | DEFINED_SCHEMA_NODE => simp [passesUndefined] at hp
        | OTHER_NODE k => simp [hq, Walk.pure_apply] at hw
    | link t out tv =>
      simp only [passesUndefined, Bool.or_eq_false_iff, decide_eq_false_iff_not] at hp
      obtain ⟨⟨⟨⟨h1, h2⟩, h3⟩, h4⟩, h5⟩ := hp
      simp only [walk_tree] at hw
      rw [Walk.bind_ok (quotation_case_plain t st h1 h2),
        Walk.bind_ok (Walk.getQuotationLevel_apply st),
        Walk.bind_ok (Walk.getAvoid_apply st)] at hw
      simp only [h1, h2, h3, h4, h5, and_false, or_false, if_false] at hw
      split at hw
      · exact neverUndefined_mere_recursive_call c hc _ _ t out tv _ _ hw
      · split at hw
        · exact neverUndefined_walk_fold c hc _ _ t out _ _ hw
        · split at hw
          · exact neverUndefined_walk_function c hc _ _ t out _ _ hw
          · split at hw
            · exact neverUndefined_walk_get c hc _ _ out _ _ hw
            · exact neverUndefined_mere_recursive_call c hc _ _ t out tv _ _ hw

/-- Witness of C10, amended: the walk of `(Delete A)` returns the undefined
handle, and a DeleteLink is among the forms of the statement. -/
theorem walk_tree_undefined_only_witness :
    passesUndefined [] (delete [concept 1]) = true :=
  walk_tree_undefined_only (fakeConfig true) (fakeConfig_returnsAtoms true) [] 2
    (delete [concept 1]) State.init
    { State.init with trace := [.remove_atom (concept 1)] } rfl

/-! ## Determinism -/

theorem uniform_pure {S α : Type} (a : α) : Uniform (pure a : Walk S α) := by
  intro st1 st2 h
  exact ⟨h, rfl⟩

theorem uniform_throw {S α : Type} (e : Err) : Uniform (Walk.throw e : Walk S α) := by
  intro st1 st2 h
  exact ⟨h, rfl⟩

theorem uniform_diverge {S α : Type} : Uniform (Walk.diverge : Walk S α) := by
  intro st1 st2 _
  trivial

theorem uniform_ofExcept {S α : Type} (x : Except Err α) :
    Uniform (Walk.ofExcept x : Walk S α) := by
  cases x with
  | ok a => exact uniform_pure a
  | error e => exact uniform_throw e

theorem uniform_bind {S α β : Type} {m : Walk S α} {f : α → Walk S β}
    (hm : Uniform m) (hf : ∀ a, Uniform (f a)) : Uniform (m >>= f) := by
  intro st1 st2 h
  have h12 := hm st1 st2 h
  rw [Walk.bind_apply, Walk.bind_apply]
  rcases h1 : m st1 with _ | ⟨s1, x1⟩ <;> rcases h2 : m st2 with _ | ⟨s2, x2⟩ <;>
    rw [h1, h2] at h12
  · trivial
  · exact h12.elim
  · exact h12.elim
  · obtain ⟨hs, hx⟩ := h12
    subst hx
    cases x1 with
    | error e => exact ⟨hs, rfl⟩
    | ok a => exact hf a s1 s2 hs

theorem uniform_call {S α : Type} (ev : Call) (f : S → S × Except Err α)
    (hf : ∀ s s', (f s).2 = (f s').2) : Uniform (Walk.call ev f) := by
  intro st1 st2 h
  exact ⟨h, hf _ _⟩

theorem uniform_getQuotationLevel {S : Type} :
    Uniform (Walk.getQuotationLevel : Walk S Int) := by
  intro st1 st2 h
  exact ⟨h, by rw [h.1]⟩

theorem uniform_getAvoid {S : Type} : Uniform (Walk.getAvoid : Walk S Int) := by
  intro st1 st2 h
  exact ⟨h, by rw [h.2.1]⟩

theorem uniform_getHalt {S : Type} : Uniform (Walk.getHalt : Walk S Bool) := by
  intro st1 st2 h
  exact ⟨h, by rw [h.2.2]⟩

theorem uniform_addQuotationLevel {S : Type} (d : Int) :
    Uniform (Walk.addQuotationLevel d : Walk S Unit) := by
  intro st1 st2 h
  exact ⟨⟨by show st1.quotation_level + d = st2.quotation_level + d; rw [h.1],
    h.2.1, h.2.2⟩, rfl⟩

theorem uniform_addAvoid {S : Type} (d : Int) :
    Uniform (Walk.addAvoid d : Walk S Unit) := by
  intro st1 st2 h
  exact ⟨⟨h.1, by
    show st1.avoid_discarding_quotes_level + d = st2.avoid_discarding_quotes_level + d
    rw [h.2.1], h.2.2⟩, rfl⟩

theorem uniform_setHalt {S : Type} (b : Bool) :
    Uniform (Walk.setHalt b : Walk S Unit) := by
  intro st1 st2 h
  exact ⟨⟨h.1, h.2.1, rfl⟩, rfl⟩

theorem uniform_catchNotEvaluatable {S : Type} {m : Walk S Unit} (hm : Uniform m) :
    Uniform (Walk.catchNotEvaluatable m) := by
  intro st1 st2 h
  have h12 := hm st1 st2 h
  unfold Walk.catchNotEvaluatable
  rcases h1 : m st1 with _ | ⟨s1, x1⟩ <;> rcases h2 : m st2 with _ | ⟨s2, x2⟩ <;>
    rw [h1, h2] at h12
  · trivial
  · exact h12.elim
  · exact h12.elim
  · obtain ⟨hs, hx⟩ := h12
    subst hx
    cases x1 with
    | ok a => exact ⟨hs, rfl⟩
    | error e => cases e <;> exact ⟨hs, rfl⟩

theorem uniform_quotation_case {S : Type} (t : LinkType) :
    Uniform (quotation_case t : Walk S Unit) := by
  unfold quotation_case
  split
  · exact uniform_addQuotationLevel 1
  · split
    · exact uniform_addQuotationLevel (-1)
    · exact uniform_pure ()

theorem uniform_walk_sequence {S : Type} {walk : Atom → Walk S Handle}
    (hw : ∀ a, Uniform (walk a)) :
    ∀ (expr oset_results : List Atom) (changed : Bool),
      Uniform (walk_sequence walk oset_results changed expr) := by
  intro expr
  induction expr with
  | nil =>
    intro acc ch
    rw [walk_sequence]
    exact uniform_pure _
  | cons h rest ih =>
    intro acc ch
    rw [walk_sequence]
    apply uniform_bind (hw h); intro hg
    apply uniform_bind uniform_getQuotationLevel; intro ql
    split
    · split
      · exact ih _ _
      · exact uniform_throw _
    · split
      · exact ih _ _
      · exact ih _ _

theorem uniform_evaluate_members {S : Type} (c : Config S) (hp : c.Pure) :
    ∀ out : List Atom, Uniform (evaluate_members c out) := by
  intro out
  induction out with
  | nil => rw [evaluate_members]; exact uniform_pure ()
  | cons plo rest ih =>
    rw [evaluate_members]
    apply uniform_bind
    · apply uniform_catchNotEvaluatable
      apply uniform_bind (uniform_call _ _ (fun s s' => hp.2.2.1 s s' plo))
      intro _
      exact uniform_pure ()
    · intro _
      exact ih

theorem uniform_remove_results {S : Type} (c : Config S) :
    ∀ rs : List Atom, Uniform (remove_results c rs) := by
  intro rs
  induction rs with
  | nil => rw [remove_results]; exact uniform_pure ()
  | cons h rest ih =>
    rw [remove_results]
    apply uniform_bind
    · split
      · exact uniform_call _ _ (fun _ _ => rfl)
      · exact uniform_pure ()
    · intro _
      exact ih

theorem uniform_add_results {S : Type} (c : Config S) (hp : c.Pure) :
    ∀ rs : List Atom, Uniform (add_results c rs) := by
  intro rs
  induction rs with
  | nil => rw [add_results]; exact uniform_pure _
  | cons h rest ih =>
    rw [add_results]
    apply uniform_bind
    · apply uniform_call
      intro s s'
      simp only [hp.2.1 s s' (some h)]
    · intro r
      split
      · exact uniform_throw _
      · apply uniform_bind ih
        intro _
        exact uniform_pure _

theorem uniform_walk_put_values {S : Type} (c : Config S)
    {walk : Atom → Walk S Handle} (hw : ∀ a, Uniform (walk a)) (ppp : PutLink) :
    Uniform (walk_put_values c walk ppp) := by
  unfold walk_put_values
  split
  · apply uniform_bind (hw _)
    intro gargs
    split
    · exact uniform_ofExcept _
    · exact uniform_pure _
  · exact uniform_pure _

theorem uniform_walk_put {S : Type} (c : Config S) (hp : c.Pure)
    {walk : Atom → Walk S Handle} (hw : ∀ a, Uniform (walk a)) (expr : Atom) :
    Uniform (walk_put c walk expr) := by
  unfold walk_put
  apply uniform_bind (uniform_ofExcept _); intro ppp
  apply uniform_bind (uniform_walk_put_values c hw ppp); intro ppp'
  apply uniform_bind (uniform_ofExcept _); intro red
  apply uniform_bind (hw red); intro rex
  split
  · exact uniform_pure _
  · apply uniform_bind (uniform_evaluate_members c hp _)
    intro _
    exact uniform_pure _
  · apply uniform_bind
    · apply uniform_catchNotEvaluatable
      apply uniform_bind (uniform_call _ _ (fun s s' => hp.2.2.1 s s' _))
      intro _
      exact uniform_pure ()
    · intro _
      exact uniform_pure _

theorem uniform_resolve_schema {S : Type} (c : Config S) (hp : c.Pure) (sn : Atom) :
    Uniform (resolve_schema c sn) := by
  unfold resolve_schema
  split
  · apply uniform_call
    intro s s'
    simp only [hp.1 s s']
  · exact uniform_pure _

theorem uniform_walk_execution_output {S : Type} (c : Config S) (hp : c.Pure)
    {walk : Atom → Walk S Handle} (hw : ∀ a, Uniform (walk a)) (expr : Atom) :
    Uniform (walk_execution_output c walk expr) := by
  unfold walk_execution_output
  apply uniform_bind (uniform_ofExcept _); intro eolp
  apply uniform_bind (uniform_addAvoid 1); intro _
  apply uniform_bind (hw _); intro args
  apply uniform_bind (uniform_addAvoid (-1)); intro _
  apply uniform_bind (uniform_resolve_schema c hp _); intro sn
  split
  · apply uniform_bind (uniform_ofExcept _); intro flp
    split
    · apply uniform_bind (uniform_ofExcept _); intro beta_reduced
      exact hw _
    · exact uniform_throw _
  · exact uniform_call _ _ (fun s s' => hp.2.2.2.1 s s' _ _)

theorem uniform_walk_delete {S : Type} (c : Config S)
    {walk : Atom → Walk S Handle} (hw : ∀ a, Uniform (walk a)) (out : List Atom) :
    Uniform (walk_delete c walk out) := by
  unfold walk_delete
  apply uniform_bind (uniform_walk_sequence hw _ _ _); intro r
  apply uniform_bind (uniform_remove_results c _); intro _
  exact uniform_pure _

theorem uniform_walk_fold {S : Type} (c : Config S) (hp : c.Pure)
    {walk : Atom → Walk S Handle} (hw : ∀ a, Uniform (walk a)) (expr : Atom)
    (t : LinkType) (out : List Atom) : Uniform (walk_fold c walk expr t out) := by
  unfold walk_fold
  split
  · apply uniform_bind (uniform_walk_sequence hw _ _ _); intro r
    exact uniform_call _ _ (fun s s' => hp.2.2.2.2.1 s s' _ _)
  · exact uniform_call _ _ (fun s s' => hp.2.2.2.2.2.1 s s' _)

theorem uniform_walk_function {S : Type} (c : Config S) (hp : c.Pure)
    {walk : Atom → Walk S Handle} (hw : ∀ a, Uniform (walk a)) (expr : Atom)
    (t : LinkType) (out : List Atom) : Uniform (walk_function c walk expr t out) := by
  unfold walk_function
  split
  · apply uniform_bind (uniform_walk_sequence hw _ _ _); intro r
    exact uniform_call _ _ (fun s s' => hp.2.2.2.2.2.2.1 s s' _ _)
  · exact uniform_call _ _ (fun s s' => hp.2.2.2.2.2.2.2.1 s s' _)

theorem uniform_walk_get {S : Type} (c : Config S) (hp : c.Pure)
    {walk : Atom → Walk S Handle} (hw : ∀ a, Uniform (walk a)) (expr : Atom)
    (out : List Atom) : Uniform (walk_get c walk expr out) := by
  unfold walk_get
  split
  · apply uniform_bind (uniform_addAvoid 1); intro _
    apply uniform_bind (uniform_walk_sequence hw _ _ _); intro r
    apply uniform_bind (uniform_addAvoid (-1)); intro _
    apply uniform_bind (uniform_add_results c hp _); intro oset_results
    exact uniform_call _ _ (fun s s' => hp.2.2.2.2.2.2.2.2 s s' _)
  · exact uniform_call _ _ (fun s s' => hp.2.2.2.2.2.2.2.2 s s' _)

theorem uniform_mere_recursive_call {S : Type} (c : Config S) (hp : c.Pure)
    {walk : Atom → Walk S Handle} (hw : ∀ a, Uniform (walk a)) (expr : Atom)
    (t : LinkType) (out : List Atom) (tv : TruthValue) :
    Uniform (mere_recursive_call c walk expr t out tv) := by
  unfold mere_recursive_call
  apply uniform_bind (uniform_walk_sequence hw _ _ _); intro r
  split
  · apply uniform_call
    intro s s'
    simp only [hp.2.1 s s']
  · exact uniform_pure _

theorem uniform_walk_tree {S : Type} (c : Config S) (hp : c.Pure)
    (vmap : List (Atom × Atom)) :
    ∀ (fuel : Nat) (expr : Atom), Uniform (walk_tree c vmap fuel expr) := by
  intro fuel
  induction fuel with
  | zero => intro expr; rw [walk_tree]; exact uniform_diverge
  | succ n ih =>
    intro expr
    cases expr with
    | node t name =>
      simp only [walk_tree]
      apply uniform_bind uniform_getQuotationLevel; intro ql
      split
      · exact uniform_pure _
      · split
        · apply uniform_bind
          · apply uniform_call
            intro s s'
            simp only [hp.1 s s']
          · intro d
            exact ih d
        · split
          · exact uniform_pure _
          · split
            · exact uniform_pure _
            · apply uniform_bind uniform_getHalt; intro halt
              split
              · exact uniform_pure _
              · apply uniform_bind (uniform_setHalt true); intro _
                apply uniform_bind (ih _); intro hgnd
                apply uniform_bind (uniform_setHalt false); intro _
                exact uniform_pure _
    | link t out tv =>
      simp only [walk_tree]
      apply uniform_bind (uniform_quotation_case t); intro _
      apply uniform_bind uniform_getQuotationLevel; intro ql
      apply uniform_bind uniform_getAvoid; intro avoid
      split
      · split
        · exact ih _
        · exact uniform_throw _
      · split
        · exact uniform_mere_recursive_call c hp ih _ _ _ _
        · split
          · exact uniform_walk_put c hp ih _
          · split
            · exact uniform_walk_execution_output c hp ih _
            · split
              · exact uniform_walk_delete c ih _
              · split
                · exact uniform_walk_fold c hp ih _ _ _
                · split
                  · exact uniform_walk_function c hp ih _ _ _
                  · split
                    · exact uniform_walk_get c hp ih _ _
                    · exact uniform_mere_recursive_call c hp ih _ _ _ _

/-- C9, as stated, fails: the result depends on the guard `_halt`.  With the
grounding `X ↦ A`, the same quotation levels and the same eager flag, the walk
of `X` returns `A` when the guard is clear and `X` when it is set.  The guard
is set while a grounding is walked: with `Y ↦ (List X)` in addition, the walk
of `Y` returns `(List X)`, so the inner walk of `X` returned `X`. -/
theorem walk_tree_depends_on_halt :
    walk_tree (fakeConfig true) [(var 0, concept 1)] 3 (var 0) State.init
      = some (State.init, .ok (some (concept 1)))
    ∧ walk_tree (fakeConfig true) [(var 0, concept 1)] 3 (var 0)
        { State.init with halt := true }
      = some ({ State.init with halt := true }, .ok (some (var 0)))
    ∧ concept 1 ≠ var 0
    ∧ walk_tree (fakeConfig true) [(var 0, concept 1), (var 1, list [var 0])] 4 (var 1)
        State.init
      = some (State.init, .ok (some (list [var 0]))) := by
  refine ⟨rfl, rfl, by decide, rfl⟩

/-- C9, amended: determinism.  With collaborators that are pure functions, the
outcome of walk_tree (the term returned, the exception thrown, or the
exhaustion of the budget) is a function of the term, the groundings, the
quotation level, the quote preservation level, the eager flag and the guard
`_halt`: two calls that agree on these return the same, whatever the atomspace
and the record of calls are. -/
theorem walk_tree_deterministic {S : Type} (c : Config S) (hp : c.Pure)
    (vmap : List (Atom × Atom)) (fuel : Nat) (expr : Atom) (st1 st2 : State S)
    (hq : st1.quotation_level = st2.quotation_level)
    (ha : st1.avoid_discarding_quotes_level = st2.avoid_discarding_quotes_level)
    (hh : st1.halt = st2.halt) :
    (walk_tree c vmap fuel expr st1).map Prod.snd
      = (walk_tree c vmap fuel expr st2).map Prod.snd := by
  have h := uniform_walk_tree c hp vmap fuel expr st1 st2 ⟨hq, ha, hh⟩
  rcases h1 : walk_tree c vmap fuel expr st1 with _ | ⟨s1, x1⟩ <;>
    rcases h2 : walk_tree c vmap fuel expr st2 with _ | ⟨s2, x2⟩ <;>
    rw [h1, h2] at h
  · exact h.elim
  · exact h.elim
  · simp [h.2]

theorem fakeConfig_pure (eager : Bool) : (fakeConfig eager).Pure := by
  refine ⟨?_, ?_, ?_, ?_, ?_, ?_, ?_, ?_, ?_⟩ <;> intros <;> try rfl
  rename_i h
  cases h <;> rfl

/-- Witness of C9, amended: the walk of `(List X)` returns the same from an
empty atomspace and from one that holds an atom. -/
theorem walk_tree_deterministic_witness :
    (walk_tree (fakeConfig true) [(var 0, concept 1)] 3 (list [var 0]) State.init).map
        Prod.snd
      = (walk_tree (fakeConfig true) [(var 0, concept 1)] 3 (list [var 0])
          { State.init with as := [concept 5] }).map Prod.snd :=
  walk_tree_deterministic (fakeConfig true) (fakeConfig_pure true) [(var 0, concept 1)] 3
    (list [var 0]) State.init { State.init with as := [concept 5] } rfl rfl rfl

/-! ## Quote preservation -/

/-- C11: quote preservation.  With the grounding `X ↦ A`, the eager walk of
`(Get (Quote (List (Unquote X))))` walks the child of the GetLink with the
quote preservation level at 1.  The QuoteLink is kept, but the UnquoteLink,
reached with the quotation level becoming 0, is discarded all the same: the
pattern engine receives `(Get (Quote (List A)))` and not
`(Get (Quote (List (Unquote A))))`.  Met directly at quotation level 1 with
the preservation level at 1, `(Unquote X)` walks to `A`. -/
theorem walk_tree_unquote_discarded_while_preserving :
    walk_tree (fakeConfig true) [(var 0, concept 1)] 6
        (.link .GET_LINK [quote [list [unquote [var 0]]]] DEFAULT_TV) State.init
      = some ({ State.init with
                  as := [list [concept 1], quote [list [concept 1]]],
                  trace := [.add_atom (some (list [concept 1])),
                            .add_atom (some (quote [list [concept 1]])),
                            .add_atom (some (quote [list [concept 1]])),
                            .satisfying_set
                              (.link .GET_LINK [quote [list [concept 1]]] DEFAULT_TV)] },
              .ok (some (.link .SET_LINK [] DEFAULT_TV)))
    ∧ walk_tree (fakeConfig true) [(var 0, concept 1)] 6 (unquote [var 0])
        { State.init with quotation_level := 1, avoid_discarding_quotes_level := 1 }
      = some ({ State.init with quotation_level := 0, avoid_discarding_quotes_level := 1 },
              .ok (some (concept 1))) := by
  constructor <;> rfl

/-! ## Independence of calls -/

/-- C20: independence of calls.  A first call of instantiate on `X` with the
grounding `X ↦ (Quote A B)` throws "unexpected arity" while the grounding is
walked, and leaves the guard `_halt` set.  instantiate does not clear the
guard: a second call on the same instance, on `(List X)` with `X ↦ A`, returns
`(List X)`, whereas on a fresh instance it returns `(List A)`. -/
theorem instantiate_depends_on_earlier_failure :
    instantiate (fakeConfig true) 6 (some (var 0)) [(var 0, quote [concept 1, concept 2])]
        State.init
      = some ({ State.init with quotation_level := 1, halt := true },
              .error .InvalidShape)
    ∧ instantiate (fakeConfig true) 6 (some (list [var 0])) [(var 0, concept 1)]
        { State.init with quotation_level := 1, halt := true }
      = some ({ State.init with
                  halt := true,
                  as := [list [var 0]],
                  trace := [.add_atom (some (list [var 0]))] },
              .ok (some (list [var 0])))
    ∧ instantiate (fakeConfig true) 6 (some (list [var 0])) [(var 0, concept 1)]
        State.init
      = some ({ State.init with
                  as := [list [concept 1]],
                  trace := [.add_atom (some (list [concept 1])),
                            .add_atom (some (list [concept 1]))] },
              .ok (some (list [concept 1]))) := by
  refine ⟨rfl, rfl, rfl⟩

/-! ## The child-sequence walk -/

theorem quotation_case_apply {S : Type} (t : LinkType) (st : State S) :
    (quotation_case t : Walk S Unit) st = some (st.afterQuotationCase t, .ok ()) := by
  unfold quotation_case State.afterQuotationCase
  split
  · rfl
  · split
    · rfl
    · simp [Walk.pure_apply]

/-- After the quotation case, walk_tree of a link is the dispatch of lines
86-362 on the updated state. -/
theorem walk_tree_link {S : Type} (c : Config S) (vmap : List (Atom × Atom))
    (fuel : Nat) (t : LinkType) (out : List Atom) (tv : TruthValue) (st : State S) :
    walk_tree c vmap (fuel + 1) (.link t out tv) st
      = (if (st.avoid_discarding_quotes_level = 0
              ∧ ((st.afterQuotationCase t).quotation_level = 1 ∧ t = .QUOTE_LINK))
            ∨ ((st.afterQuotationCase t).quotation_level = 0 ∧ t = .UNQUOTE_LINK) then
          match out with
          | [child] => walk_tree c vmap fuel child
          | _ => Walk.throw .InvalidShape
        else if (st.afterQuotationCase t).quotation_level > 0 then
          mere_recursive_call c (walk_tree c vmap fuel) (.link t out tv) t out tv
        else if t = .PUT_LINK then walk_put c (walk_tree c vmap fuel) (.link t out tv)
        else if t = .EXECUTION_OUTPUT_LINK then
          walk_execution_output c (walk_tree c vmap fuel) (.link t out tv)
        else if t = .DELETE_LINK then walk_delete c (walk_tree c vmap fuel) out
        else if c.isA t .FOLD_LINK = true then
          walk_fold c (walk_tree c vmap fuel) (.link t out tv) t out
        else if c.isA t .FUNCTION_LINK = true then
          walk_function c (walk_tree c vmap fuel) (.link t out tv) t out
        else if t = .GET_LINK then walk_get c (walk_tree c vmap fuel) (.link t out tv) out
        else mere_recursive_call c (walk_tree c vmap fuel) (.link t out tv) t out tv)
        (st.afterQuotationCase t) := by
  simp only [walk_tree]
  rw [Walk.bind_ok (quotation_case_apply t st),
    Walk.bind_ok (Walk.getQuotationLevel_apply _),
    Walk.bind_ok (Walk.getAvoid_apply _)]
  rfl

/-- C13: the glob list assertion.  In the child-sequence walk, when a child
is a GlobNode whose walked form differs from the GlobNode, and the quotation
level read at the test of line 51 is 0: if the walked form is not a link (it
is a node or the undefined handle), the walk throws "Expecting glob list"; if
it is a link, no such failure occurs, the members of the link are appended
and the walk goes on with the next child. -/
theorem walk_sequence_expecting_glob_list {S : Type} (walk : Atom → Walk S Handle)
    (h : Atom) (hg : Handle) (st st1 : State S) (oset_results : List Atom)
    (changed : Bool) (rest : List Atom)
    (hglob : h.isGlob = true) (hw : walk h st = some (st1, .ok hg))
    (hne : hg ≠ some h) (hq : st1.quotation_level = 0) :
    ((∀ t lp tv, hg ≠ some (.link t lp tv)) →
      walk_sequence walk oset_results changed (h :: rest) st
        = some (st1, .error .ExpectingGlobList))
    ∧ (∀ t lp tv, hg = some (.link t lp tv) →
      walk_sequence walk oset_results changed (h :: rest) st
        = walk_sequence walk (oset_results ++ lp) true rest st1)
    ∧ (∀ t lp tv, hg = some (.link t lp tv) →
      walk_sequence walk oset_results changed [h] st
        = some (st1, .ok (oset_results ++ lp, true))) := by
  have hstep : ∀ rest', walk_sequence walk oset_results changed (h :: rest') st
      = (match hg with
          | some (.link _ lp _) => walk_sequence walk (oset_results ++ lp) true rest'
          | _ => Walk.throw .ExpectingGlobList) st1 := by
    intro rest'
    rw [walk_sequence, Walk.bind_ok hw, Walk.bind_ok (Walk.getQuotationLevel_apply st1)]
    simp [hq, hglob, hne]
  refine ⟨?_, ?_, ?_⟩
  · intro hnl
    rw [hstep]
    cases hg with
    | none => rfl
    | some a =>
      cases a with
      | node t n => rfl
      | link t lp tv => exact absurd rfl (hnl t lp tv)
  · intro t lp tv e
    subst e
    rw [hstep]
  · intro t lp tv e
    subst e
    rw [hstep]
    simp [walk_sequence, Walk.pure_apply]

/-- Witness of C13: the GlobNode `G` is grounded by the node `A`. -/
theorem walk_sequence_expecting_glob_list_witness :
    walk_sequence (walk_tree (fakeConfig true) [(glob 0, concept 1)] 3) [] false
        [glob 0, concept 2] State.init
      = some (State.init, .error .ExpectingGlobList) :=
  (walk_sequence_expecting_glob_list (walk_tree (fakeConfig true) [(glob 0, concept 1)] 3)
    (glob 0) (some (concept 1)) State.init State.init [] false [concept 2] rfl rfl
    (by decide) rfl).1 (by intro t lp tv e; cases e)

/-! ## Generic recursion -/

/-- When the child-sequence walk returns, every child was walked, in order,
the flag `changed` tells whether some walked handle differs from its child,
and when none differs the result sequence is the input sequence. -/
theorem walk_sequence_walked {S : Type} (walk : Atom → Walk S Handle) :
    ∀ (out oset_results : List Atom) (changed : Bool) (st st1 : State S)
      (rs : List Atom) (changed' : Bool),
      walk_sequence walk oset_results changed out st = some (st1, .ok (rs, changed')) →
      ∃ hgs, walked_children walk out st = some (st1, .ok hgs)
        ∧ changed' = (changed || decide (hgs ≠ out.map some))
        ∧ (hgs = out.map some → rs = oset_results ++ out) := by
  intro out
  induction out with
  | nil =>
    intro acc ch st st1 rs ch' h
    simp only [walk_sequence, Walk.pure_apply, Option.some.injEq, Prod.mk.injEq,
      Except.ok.injEq] at h
    obtain ⟨rfl, rfl, rfl⟩ := h
    exact ⟨[], rfl, by simp, by intro _; simp⟩
  | cons h rest ih =>
    intro acc ch st st1 rs ch' hseq
    rw [walk_sequence, Walk.bind_apply] at hseq
    rcases hw : walk h st with _ | ⟨s1, x⟩
    · rw [hw] at hseq; cases hseq
    · rw [hw] at hseq
      cases x with
      | error e => simp at hseq
      | ok hg =>
        simp only at hseq
        rw [Walk.bind_ok (Walk.getQuotationLevel_apply s1)] at hseq
        have key : ∀ (acc' : List Atom),
            walk_sequence walk acc' (if hg ≠ some h then true else ch) rest s1
              = some (st1, .ok (rs, ch')) →
            (hg = some h → acc' = acc ++ [h]) →
            ∃ hgs, walked_children walk (h :: rest) st = some (st1, .ok hgs)
              ∧ ch' = (ch || decide (hgs ≠ (h :: rest).map some))
              ∧ (hgs = (h :: rest).map some → rs = acc ++ h :: rest) := by
          intro acc' hrec hacc
          obtain ⟨hgs, hwc, hch, hrs⟩ := ih acc' _ s1 st1 rs ch' hrec
          refine ⟨hg :: hgs, ?_, ?_, ?_⟩
          · rw [walked_children, Walk.bind_ok hw, Walk.bind_ok hwc]
            rfl
          · rw [hch]
            by_cases e1 : hg = some h <;> by_cases e2 : hgs = rest.map some <;>
              simp [e1, e2]
          · intro e
            simp only [List.map_cons, List.cons.injEq] at e
            rw [hrs e.2, hacc e.1]
            simp
        split at hseq
        · rename_i hcond
          split at hseq
          · exact key _ hseq (fun e => absurd e hcond.2.2)
          · simp [Walk.throw] at hseq
        · rename_i hcond
          split at hseq
          · rename_i a
            exact key _ hseq (fun e => by simp only [Option.some.injEq] at e; rw [e])
          · exact key _ hseq (fun e => by cases e)

/-- C18: generic recursion.  Let a link reach the generic rule: its tag is
plain, or, after the quotation case, the quotation level is positive and the
link is not discarded.  When the walk of its children returns the sequence
`rs` (the walked children, undefined handles skipped and the groundings of
GlobNodes spliced): if no walked child differs from its input child, walk_tree returns the
input link itself and the state is the one that the walk of the children
left (nothing is added to the atomspace); otherwise walk_tree returns what
`add_atom` returns for the link with the tag and the truth value of the input
and `rs` as outgoing set. -/
theorem walk_tree_generic_recursion {S : Type} (c : Config S)
    (vmap : List (Atom × Atom)) (fuel : Nat) (t : LinkType) (out : List Atom)
    (tv : TruthValue) (st st1 : State S) (rs : List Atom) (changed : Bool)
    (hreach : plainTag c t = true
      ∨ (0 < (st.afterQuotationCase t).quotation_level
          ∧ ¬ discards t (st.afterQuotationCase t)))
    (hseq : walk_sequence (walk_tree c vmap fuel) [] false out (st.afterQuotationCase t)
      = some (st1, .ok (rs, changed))) :
    ∃ hgs, walked_children (walk_tree c vmap fuel) out (st.afterQuotationCase t)
        = some (st1, .ok hgs)
      ∧ (hgs = out.map some →
          walk_tree c vmap (fuel + 1) (.link t out tv) st
            = some (st1, .ok (some (.link t out tv))))
      ∧ (hgs ≠ out.map some →
          walk_tree c vmap (fuel + 1) (.link t out tv) st
            = some ({ st1 with
                        as := (c.add_atom st1.as (some (.link t rs tv))).1,
                        trace := st1.trace ++ [.add_atom (some (.link t rs tv))] },
                    .ok (c.add_atom st1.as (some (.link t rs tv))).2)) := by
  have hmere : walk_tree c vmap (fuel + 1) (.link t out tv) st
      = mere_recursive_call c (walk_tree c vmap fuel) (.link t out tv) t out tv
          (st.afterQuotationCase t) := by
    rw [walk_tree_link]
    rcases hreach with hp | ⟨hpos, hnd⟩
    · obtain ⟨h1, h2, h3, h4, h5, h6, h7, h8⟩ := plainTag_iff hp
      simp only [h1, h2, h3, h4, h5, h6, h7, h8, and_false, or_false, if_false]
      split <;> rfl
    · have hnd' : ¬ ((st.avoid_discarding_quotes_level = 0
          ∧ ((st.afterQuotationCase t).quotation_level = 1 ∧ t = .QUOTE_LINK))
          ∨ ((st.afterQuotationCase t).quotation_level = 0 ∧ t = .UNQUOTE_LINK)) := hnd
      simp only [hnd', if_false, gt_iff_lt, hpos, if_true]
  obtain ⟨hgs, hwc, hch, hrs⟩ := walk_sequence_walked _ out [] false _ st1 rs changed hseq
  refine ⟨hgs, hwc, ?_, ?_⟩
  · intro e
    have hc : changed = false := by rw [hch]; simp [e]
    have hr : rs = out := by simpa using hrs e
    rw [hmere, mere_recursive_call, Walk.bind_ok hseq]
    simp [hc, Walk.pure_apply]
  · intro e
    have hc : changed = true := by rw [hch]; simp [e]
    rw [hmere, mere_recursive_call, Walk.bind_ok hseq]
    simp only [hc, if_true]
    rfl

/-- Witness of C18: `(List A X)` with `X ↦ B` walks to `(List A B)`, given to
`add_atom` with the tag and the truth value of the input. -/
theorem walk_tree_generic_recursion_witness :
    ∃ hgs, walked_children (walk_tree (fakeConfig true) [(var 0, concept 2)] 2)
        [concept 1, var 0] (State.init.afterQuotationCase .LIST_LINK)
        = some (State.init, .ok hgs)
      ∧ (hgs = [concept 1, var 0].map some →
          walk_tree (fakeConfig true) [(var 0, concept 2)] 3 (list [concept 1, var 0])
              State.init
            = some (State.init, .ok (some (list [concept 1, var 0]))))
      ∧ (hgs ≠ [concept 1, var 0].map some →
          walk_tree (fakeConfig true) [(var 0, concept 2)] 3 (list [concept 1, var 0])
              State.init
            = some ({ State.init with
                        as := ((fakeConfig true).add_atom State.init.as
                          (some (list [concept 1, concept 2]))).1,
                        trace := State.init.trace
                          ++ [.add_atom (some (list [concept 1, concept 2]))] },
                    .ok ((fakeConfig true).add_atom State.init.as
                          (some (list [concept 1, concept 2]))).2)) :=
  walk_tree_generic_recursion (fakeConfig true) [(var 0, concept 2)] 2 .LIST_LINK
    [concept 1, var 0] DEFAULT_TV State.init State.init [concept 1, concept 2] true
    (Or.inl (by decide)) rfl

/-! ## The PutLink case and the evaluator -/

theorem Walk.bind_assoc {S α β γ : Type} (m : Walk S α) (f : α → Walk S β)
    (g : β → Walk S γ) : (m >>= f) >>= g = m >>= fun a => f a >>= g := by
  funext st
  simp only [Walk.bind_apply]
  rcases m st with _ | ⟨s1, x⟩
  · rfl
  · cases x <;> rfl

theorem State.afterQuotationCase_other {S : Type} (t : LinkType) (st : State S)
    (h1 : t ≠ .QUOTE_LINK) (h2 : t ≠ .UNQUOTE_LINK) : st.afterQuotationCase t = st := by
  cases st
  simp [State.afterQuotationCase, h1, h2]

/-- The PutLink case is its first steps followed by the evaluation of the
result. -/
theorem walk_put_eq {S : Type} (c : Config S) (walk : Atom → Walk S Handle)
    (expr : Atom) :
    walk_put c walk expr = walk_put_body c walk expr >>= walk_put_evaluate c := by
  simp only [walk_put, walk_put_body, Walk.bind_assoc]
  rfl

/-- A PutLink met at quotation level 0 is handled by the PutLink case. -/
theorem walk_tree_put_link {S : Type} (c : Config S) (vmap : List (Atom × Atom))
    (fuel : Nat) (out : List Atom) (tv : TruthValue) (st : State S)
    (hq : st.quotation_level = 0) :
    walk_tree c vmap (fuel + 1) (.link .PUT_LINK out tv) st
      = walk_put c (walk_tree c vmap fuel) (.link .PUT_LINK out tv) st := by
  rw [walk_tree_link, State.afterQuotationCase_other _ _ (by decide) (by decide)]
  simp [hq]

/-- One guarded call of the evaluator: the call is recorded, the exception
`NotEvaluatableException` and the truth value are dropped, any other exception
is thrown on. -/
theorem evaluate_guarded_apply {S : Type} (c : Config S) (r : Atom) (st : State S) :
    Walk.catchNotEvaluatable (do
        let _ ← Walk.call (.do_evaluate r) (fun s => c.do_evaluate s r)
        pure ()) st
      = some ({ st with as := (c.do_evaluate st.as r).1,
                        trace := st.trace ++ [.do_evaluate r] },
              match (c.do_evaluate st.as r).2 with
              | .ok _ => .ok ()
              | .error .NotEvaluatable => .ok ()
              | .error e => .error e) := by
  unfold Walk.catchNotEvaluatable
  rw [Walk.bind_apply]
  simp only [Walk.call]
  rcases h : (c.do_evaluate st.as r).2 with e | v
  · cases e <;> rfl
  · rfl

theorem evaluate_members_benign {S : Type} (c : Config S) :
    ∀ (ms : List Atom) (st : State S),
      (∀ s m, m ∈ ms → benign (c.do_evaluate s m).2) →
      ∃ st3, evaluate_members c ms st = some (st3, .ok ())
        ∧ st3.trace = st.trace ++ ms.map Call.do_evaluate
        ∧ st3.quotation_level = st.quotation_level
        ∧ st3.avoid_discarding_quotes_level = st.avoid_discarding_quotes_level
        ∧ st3.halt = st.halt := by
  intro ms
  induction ms with
  | nil => intro st _; exact ⟨st, rfl, by simp, rfl, rfl, rfl⟩
  | cons m rest ih =>
    intro st hb
    have hm := hb st.as m (List.mem_cons_self m rest)
    have hstep : Walk.catchNotEvaluatable (do
          let _ ← Walk.call (.do_evaluate m) (fun s => c.do_evaluate s m)
          pure ()) st
        = some ({ st with as := (c.do_evaluate st.as m).1,
                          trace := st.trace ++ [.do_evaluate m] }, .ok ()) := by
      rw [evaluate_guarded_apply]
      rcases hm with h | ⟨v, h⟩ <;> rw [h]
    obtain ⟨st3, hrest, htr, h1, h2, h3⟩ := ih
      { st with as := (c.do_evaluate st.as m).1, trace := st.trace ++ [.do_evaluate m] }
      (fun s x hx => hb s x (List.mem_cons_of_mem m hx))
    refine ⟨st3, ?_, ?_, h1, h2, h3⟩
    · rw [evaluate_members, Walk.bind_ok hstep, hrest]
    · rw [htr]; simp

theorem evaluate_members_error {S : Type} (c : Config S) (m : Atom) (post : List Atom)
    (e : Err) (he : e ≠ .NotEvaluatable) (hm : ∀ s, (c.do_evaluate s m).2 = .error e) :
    ∀ (pre : List Atom) (st : State S),
      (∀ s x, x ∈ pre → benign (c.do_evaluate s x).2) →
      ∃ st3, evaluate_members c (pre ++ m :: post) st = some (st3, .error e)
        ∧ st3.trace = st.trace ++ (pre ++ [m]).map Call.do_evaluate := by
  intro pre
  induction pre with
  | nil =>
    intro st _
    have hstep : Walk.catchNotEvaluatable (do
          let _ ← Walk.call (.do_evaluate m) (fun s => c.do_evaluate s m)
          pure ()) st
        = some ({ st with as := (c.do_evaluate st.as m).1,
                          trace := st.trace ++ [.do_evaluate m] }, .error e) := by
      rw [evaluate_guarded_apply, hm st.as]
      cases e <;> first | rfl | exact absurd rfl he
    refine ⟨{ st with as := (c.do_evaluate st.as m).1,
                      trace := st.trace ++ [.do_evaluate m] }, ?_, ?_⟩
    · rw [List.nil_append, evaluate_members, Walk.bind_error hstep]
    · simp
  | cons x rest ih =>
    intro st hb
    have hx := hb st.as x (List.mem_cons_self x rest)
    have hstep : Walk.catchNotEvaluatable (do
          let _ ← Walk.call (.do_evaluate x) (fun s => c.do_evaluate s x)
          pure ()) st
        = some ({ st with as := (c.do_evaluate st.as x).1,
                          trace := st.trace ++ [.do_evaluate x] }, .ok ()) := by
      rw [evaluate_guarded_apply]
      rcases hx with h | ⟨v, h⟩ <;> rw [h]
    obtain ⟨st3, hrest, htr⟩ := ih
      { st with as := (c.do_evaluate st.as x).1, trace := st.trace ++ [.do_evaluate x] }
      (fun s y hy => hb s y (List.mem_cons_of_mem x hy))
    refine ⟨st3, ?_, ?_⟩
    · rw [List.cons_append, evaluate_members, Walk.bind_ok hstep, hrest]
    · rw [htr]; simp

/-- C14: the evaluator in the PutLink case.  Let a PutLink be walked at
quotation level 0.  An exception of the first steps (cast, walk of the values,
beta-reduction, walk of the reduced body), `NotEvaluatableException` included,
is thrown on.  When the reduced body walks to an atom `R`:
if `R` is not a SetLink, the evaluator is called once on `R`; walk_tree
returns `R` when the evaluator returns a truth value, whatever it is, or
throws `NotEvaluatableException`, and throws on any other exception;
if `R` is a SetLink whose members each get a truth value or
`NotEvaluatableException`, every member is evaluated, in order, and walk_tree
returns `R`;
if a member gets another exception, the members before it having got a truth
value or `NotEvaluatableException`, walk_tree throws that exception. -/
theorem walk_tree_put_not_evaluatable {S : Type} (c : Config S)
    (vmap : List (Atom × Atom)) (fuel : Nat) (out : List Atom) (tv : TruthValue)
    (st st2 : State S) (hq : st.quotation_level = 0) :
    (∀ e, walk_put_body c (walk_tree c vmap fuel) (.link .PUT_LINK out tv) st
        = some (st2, .error e) →
      walk_tree c vmap (fuel + 1) (.link .PUT_LINK out tv) st = some (st2, .error e))
    ∧ (∀ R, walk_put_body c (walk_tree c vmap fuel) (.link .PUT_LINK out tv) st
        = some (st2, .ok (some R)) →
      ((∀ ms stv, R ≠ .link .SET_LINK ms stv) →
        walk_tree c vmap (fuel + 1) (.link .PUT_LINK out tv) st
          = some ({ st2 with as := (c.do_evaluate st2.as R).1,
                             trace := st2.trace ++ [.do_evaluate R] },
                  match (c.do_evaluate st2.as R).2 with
                  | .ok _ => .ok (some R)
                  | .error .NotEvaluatable => .ok (some R)
                  | .error e => .error e))
      ∧ (∀ ms stv, R = .link .SET_LINK ms stv →
          (∀ s m, m ∈ ms → benign (c.do_evaluate s m).2) →
          ∃ st3, walk_tree c vmap (fuel + 1) (.link .PUT_LINK out tv) st
              = some (st3, .ok (some R))
            ∧ st3.trace = st2.trace ++ ms.map Call.do_evaluate)
      ∧ (∀ pre m post stv e, R = .link .SET_LINK (pre ++ m :: post) stv →
          (∀ s x, x ∈ pre → benign (c.do_evaluate s x).2) →
          (∀ s, (c.do_evaluate s m).2 = .error e) → e ≠ .NotEvaluatable →
          ∃ st3, walk_tree c vmap (fuel + 1) (.link .PUT_LINK out tv) st
              = some (st3, .error e)
            ∧ st3.trace = st2.trace ++ (pre ++ [m]).map Call.do_evaluate)) := by
  rw [walk_tree_put_link c vmap fuel out tv st hq, walk_put_eq]
  refine ⟨fun e he => Walk.bind_error he _, ?_⟩
  intro R hR
  rw [Walk.bind_ok hR]
  refine ⟨?_, ?_, ?_⟩
  · intro hns
    have hev : walk_put_evaluate c (some R)
        = (do
            Walk.catchNotEvaluatable (do
              let _ ← Walk.call (.do_evaluate R) (fun s => c.do_evaluate s R)
              pure ())
            pure (some R)) := by
      cases R with
      | node t n => rfl
      | link t ms stv =>
        cases t <;> first | rfl | exact absurd rfl (hns ms stv)
    rw [hev, Walk.bind_apply, evaluate_guarded_apply]
    rcases (c.do_evaluate st2.as R).2 with e | v
    · cases e <;> rfl
    · rfl
  · intro ms stv e hb
    subst e
    obtain ⟨st3, h3, htr, _⟩ := evaluate_members_benign c ms st2 hb
    refine ⟨st3, ?_, htr⟩
    show (evaluate_members c ms >>= fun _ => pure _) st2 = _
    rw [Walk.bind_ok h3]
    rfl
  · intro pre m post stv e hR' hb hm he
    subst hR'
    obtain ⟨st3, h3, htr⟩ := evaluate_members_error c m post e he hm pre st2 hb
    refine ⟨st3, ?_, htr⟩
    show (evaluate_members c (pre ++ m :: post) >>= fun _ => pure _) st2 = _
    rw [Walk.bind_error h3]

/-- Witness of C14: the PutLink `(Put A (List B))` reduces to `A`, on which
the evaluator throws `NotEvaluatableException`; walk_tree returns `A`. -/
theorem walk_tree_put_not_evaluatable_witness :
    walk_tree (fakeConfig true) [] 3
        (.link .PUT_LINK [concept 1, list [concept 2]] DEFAULT_TV) State.init
      = some ({ State.init with trace := [.do_evaluate (concept 1)] },
              .ok (some (concept 1))) :=
  ((walk_tree_put_not_evaluatable (fakeConfig true) [] 2 [concept 1, list [concept 2]]
      DEFAULT_TV State.init State.init rfl).2 (concept 1) rfl).1
    (by intro ms stv e; cases e)

/-! ## The arity of a QuoteLink or UnquoteLink -/

/-- An exception of the child-sequence walk is "Expecting glob list" or the
exception of the walk of a child. -/
theorem walk_sequence_error_origin {S : Type} (walk : Atom → Walk S Handle) (e : Err) :
    ∀ (out oset_results : List Atom) (changed : Bool) (st st' : State S),
      walk_sequence walk oset_results changed out st = some (st', .error e) →
      e = .ExpectingGlobList
        ∨ ∃ h ∈ out, ∃ s s', walk h s = some (s', .error e) := by
  intro out
  induction out with
  | nil =>
    intro acc ch st st' h
    simp [walk_sequence, Walk.pure_apply] at h
  | cons h rest ih =>
    intro acc ch st st' hseq
    have lift : ∀ acc' ch' s1,
        walk_sequence walk acc' ch' rest s1 = some (st', .error e) →
        e = .ExpectingGlobList
          ∨ ∃ x ∈ h :: rest, ∃ s s', walk x s = some (s', .error e) := by
      intro acc' ch' s1 hrec
      rcases ih acc' ch' s1 st' hrec with h1 | ⟨x, hx, s, s', hw⟩
      · exact Or.inl h1
      · exact Or.inr ⟨x, List.mem_cons_of_mem h hx, s, s', hw⟩
    rw [walk_sequence, Walk.bind_apply] at hseq
    rcases hw : walk h st with _ | ⟨s1, x⟩
    · rw [hw] at hseq; cases hseq
    · rw [hw] at hseq
      cases x with
      | error e' =>
        simp only [Option.some.injEq, Prod.mk.injEq, Except.error.injEq] at hseq
        obtain ⟨rfl, rfl⟩ := hseq
        exact Or.inr ⟨h, List.mem_cons_self h rest, st, s1, hw⟩
      | ok hg =>
        simp only at hseq
        rw [Walk.bind_ok (Walk.getQuotationLevel_apply s1)] at hseq
        split at hseq
        · split at hseq
          · exact lift _ _ _ hseq
          · simp only [Walk.throw, Option.some.injEq, Prod.mk.injEq,
              Except.error.injEq] at hseq
            exact Or.inl hseq.2.symm
        · split at hseq
          · exact lift _ _ _ hseq
          · exact lift _ _ _ hseq

theorem mere_recursive_call_error_origin {S : Type} (c : Config S)
    (walk : Atom → Walk S Handle) (expr : Atom) (t : LinkType) (out : List Atom)
    (tv : TruthValue) (e : Err) (st st' : State S)
    (h : mere_recursive_call c walk expr t out tv st = some (st', .error e)) :
    e = .ExpectingGlobList ∨ ∃ x ∈ out, ∃ s s', walk x s = some (s', .error e) := by
  rw [mere_recursive_call, Walk.bind_apply] at h
  rcases hseq : walk_sequence walk [] false out st with _ | ⟨s1, x⟩
  · rw [hseq] at h; cases h
  · rw [hseq] at h
    cases x with
    | error e' =>
      simp only [Option.some.injEq, Prod.mk.injEq, Except.error.injEq] at h
      obtain ⟨rfl, rfl⟩ := h
      exact walk_sequence_error_origin walk e' out [] false st s1 hseq
    | ok r =>
      simp only at h
      split at h
      · simp [Walk.call] at h
      · simp [Walk.pure_apply] at h

/-- C12, as stated, fails: an "unexpected arity" exception of the walk of a
descendant is thrown on.  From quotation level 0, `(Quote (Unquote (Quote A
B)))` is discarded, its arity is 1, and its walk throws the exception of the
inner `(Quote A B)`. -/
theorem walk_tree_arity_error_of_descendant :
    walk_tree (fakeConfig true) [] 6 (quote [unquote [quote [concept 1, concept 2]]])
        State.init
      = some ({ State.init with quotation_level := 1 }, .error .InvalidShape) := by
  rfl

/-- C12, amended: let a QuoteLink or UnquoteLink be walked with the quote
preservation level at 0 unless said otherwise.
If the link is discarded (after the quotation case the level is 1 for a
QuoteLink, 0 for an UnquoteLink) and its arity is not 1, walk_tree throws
"unexpected arity" before any child is walked.
If it is discarded and has one child, walk_tree is the walk of that child.
If it is not discarded (a QuoteLink with the preservation level not 0 or the
level not 1, an UnquoteLink with the level not 0) and is no FoldLink or
FunctionLink, every "unexpected arity" exception of walk_tree is the exception
of the walk of one of its children, whatever its arity. -/
theorem walk_tree_quotation_arity {S : Type} (c : Config S) (vmap : List (Atom × Atom))
    (fuel : Nat) (t : LinkType) (out : List Atom) (tv : TruthValue) (st : State S)
    (ht : t = .QUOTE_LINK ∨ t = .UNQUOTE_LINK) :
    (st.avoid_discarding_quotes_level = 0 →
      ((t = .QUOTE_LINK ∧ (st.afterQuotationCase t).quotation_level = 1)
        ∨ (t = .UNQUOTE_LINK ∧ (st.afterQuotationCase t).quotation_level = 0)) →
      out.length ≠ 1 →
      walk_tree c vmap (fuel + 1) (.link t out tv) st
        = some (st.afterQuotationCase t, .error .InvalidShape))
    ∧ (st.avoid_discarding_quotes_level = 0 →
      ((t = .QUOTE_LINK ∧ (st.afterQuotationCase t).quotation_level = 1)
        ∨ (t = .UNQUOTE_LINK ∧ (st.afterQuotationCase t).quotation_level = 0)) →
      ∀ child, out = [child] →
      walk_tree c vmap (fuel + 1) (.link t out tv) st
        = walk_tree c vmap fuel child (st.afterQuotationCase t))
    ∧ (c.isA t .FOLD_LINK = false → c.isA t .FUNCTION_LINK = false →
      ((t = .QUOTE_LINK ∧ ¬ (st.avoid_discarding_quotes_level = 0
            ∧ (st.afterQuotationCase t).quotation_level = 1))
        ∨ (t = .UNQUOTE_LINK ∧ (st.afterQuotationCase t).quotation_level ≠ 0)) →
      ∀ st', walk_tree c vmap (fuel + 1) (.link t out tv) st
          = some (st', .error .InvalidShape) →
        ∃ child ∈ out, ∃ s s',
          walk_tree c vmap fuel child s = some (s', .error .InvalidShape)) := by
  refine ⟨?_, ?_, ?_⟩
  · intro ha hrule hlen
    have hcond : (st.avoid_discarding_quotes_level = 0
        ∧ ((st.afterQuotationCase t).quotation_level = 1 ∧ t = .QUOTE_LINK))
        ∨ ((st.afterQuotationCase t).quotation_level = 0 ∧ t = .UNQUOTE_LINK) := by
      rcases hrule with ⟨h1, h2⟩ | ⟨h1, h2⟩
      · exact Or.inl ⟨ha, h2, h1⟩
      · exact Or.inr ⟨h2, h1⟩
    rw [walk_tree_link, if_pos hcond]
    match out, hlen with
    | [], _ => rfl
    | [x], h => exact absurd rfl h
    | _ :: _ :: _, _ => rfl
  · intro ha hrule child hout
    have hcond : (st.avoid_discarding_quotes_level = 0
        ∧ ((st.afterQuotationCase t).quotation_level = 1 ∧ t = .QUOTE_LINK))
        ∨ ((st.afterQuotationCase t).quotation_level = 0 ∧ t = .UNQUOTE_LINK) := by
      rcases hrule with ⟨h1, h2⟩ | ⟨h1, h2⟩
      · exact Or.inl ⟨ha, h2, h1⟩
      · exact Or.inr ⟨h2, h1⟩
    subst hout
    rw [walk_tree_link, if_pos hcond]
  · intro hfold hfun hrule st' hw
    have hcond : ¬ ((st.avoid_discarding_quotes_level = 0
        ∧ ((st.afterQuotationCase t).quotation_level = 1 ∧ t = .QUOTE_LINK))
        ∨ ((st.afterQuotationCase t).quotation_level = 0 ∧ t = .UNQUOTE_LINK)) := by
      rcases hrule with ⟨h1, h2⟩ | ⟨h1, h2⟩
      · subst h1
        rintro (⟨a, b, _⟩ | ⟨_, b⟩)
        · exact h2 ⟨a, b⟩
        · cases b
      · subst h1
        rintro (⟨_, _, b⟩ | ⟨a, _⟩)
        · cases b
        · exact h2 a
    have hmere : walk_tree c vmap (fuel + 1) (.link t out tv) st
        = mere_recursive_call c (walk_tree c vmap fuel) (.link t out tv) t out tv
            (st.afterQuotationCase t) := by
      rw [walk_tree_link, if_neg hcond]
      rcases ht with rfl | rfl <;> simp only [hfold, hfun] <;> split <;> simp
    rw [hmere] at hw
    rcases mere_recursive_call_error_origin c _ _ t out tv _ _ _ hw with h | h
    · cases h
    · exact h

/-- Witness of C12, amended: `(Quote A B)` met at quotation level 0 throws
"unexpected arity". -/
theorem walk_tree_quotation_arity_witness :
    walk_tree (fakeConfig true) [] 3 (quote [concept 1, concept 2]) State.init
      = some (State.init.afterQuotationCase .QUOTE_LINK, .error .InvalidShape) :=
  (walk_tree_quotation_arity (fakeConfig true) [] 2 .QUOTE_LINK [concept 1, concept 2]
    DEFAULT_TV State.init (Or.inl rfl)).1 rfl (Or.inl ⟨rfl, rfl⟩) (by decide)

/-! ## Exceptions that the walker does not throw -/

theorem noThrow_pure {S α : Type} (e : Err) (a : α) :
    NoThrow e (pure a : Walk S α) := by
  intro st st' h
  simp [Walk.pure_apply] at h

theorem noThrow_bind {S α β : Type} {e : Err} {m : Walk S α} {f : α → Walk S β}
    (hm : NoThrow e m) (hf : ∀ a, NoThrow e (f a)) : NoThrow e (m >>= f) := by
  intro st st' h
  rw [Walk.bind_apply] at h
  rcases hms : m st with _ | ⟨s1, x⟩
  · rw [hms] at h; cases h
  · rw [hms] at h
    cases x with
    | error e' =>
      simp only [Option.some.injEq, Prod.mk.injEq, Except.error.injEq] at h
      obtain ⟨rfl, rfl⟩ := h
      exact hm st s1 hms
    | ok a => exact hf a s1 st' h

theorem noThrow_throw {S α : Type} {e e' : Err} (h : e' ≠ e) :
    NoThrow e (Walk.throw e' : Walk S α) := by
  intro st st' hw
  simp only [Walk.throw, Option.some.injEq, Prod.mk.injEq, Except.error.injEq] at hw
  exact h hw.2

theorem noThrow_ofExcept {S α : Type} {e : Err} {x : Except Err α} (h : x ≠ .error e) :
    NoThrow e (Walk.ofExcept x : Walk S α) := by
  cases x with
  | ok a => exact noThrow_pure e a
  | error e' => exact noThrow_throw (fun h' => h (by rw [h']))

theorem noThrow_call {S α : Type} {e : Err} (ev : Call) (f : S → S × Except Err α)
    (h : ∀ s, (f s).2 ≠ .error e) : NoThrow e (Walk.call ev f) := by
  intro st st' hw
  simp only [Walk.call, Option.some.injEq, Prod.mk.injEq] at hw
  exact h _ hw.2

theorem noThrow_getQuotationLevel {S : Type} (e : Err) :
    NoThrow e (Walk.getQuotationLevel : Walk S Int) := by
  intro st st' h
  simp [Walk.getQuotationLevel] at h

theorem noThrow_getAvoid {S : Type} (e : Err) :
    NoThrow e (Walk.getAvoid : Walk S Int) := by
  intro st st' h
  simp [Walk.getAvoid] at h

theorem noThrow_getHalt {S : Type} (e : Err) :
    NoThrow e (Walk.getHalt : Walk S Bool) := by
  intro st st' h
  simp [Walk.getHalt] at h

theorem noThrow_addQuotationLevel {S : Type} (e : Err) (d : Int) :
    NoThrow e (Walk.addQuotationLevel d : Walk S Unit) := by
  intro st st' h
  simp [Walk.addQuotationLevel] at h

theorem noThrow_addAvoid {S : Type} (e : Err) (d : Int) :
    NoThrow e (Walk.addAvoid d : Walk S Unit) := by
  intro st st' h
  simp [Walk.addAvoid] at h

theorem noThrow_setHalt {S : Type} (e : Err) (b : Bool) :
    NoThrow e (Walk.setHalt b : Walk S Unit) := by
  intro st st' h
  simp [Walk.setHalt] at h

theorem noThrow_catchNotEvaluatable {S : Type} {e : Err} {m : Walk S Unit}
    (hm : NoThrow e m) : NoThrow e (Walk.catchNotEvaluatable m) := by
  intro st st' h
  unfold Walk.catchNotEvaluatable at h
  split at h
  · simp at h
  · exact hm st st' h

theorem noThrow_quotation_case {S : Type} (e : Err) (t : LinkType) :
    NoThrow e (quotation_case t : Walk S Unit) := by
  intro st st' h
  rw [quotation_case_apply] at h
  simp at h

theorem noThrow_walk_sequence {S : Type} {e : Err} {walk : Atom → Walk S Handle}
    (he : e ≠ .ExpectingGlobList) (hw : ∀ a, NoThrow e (walk a)) :
    ∀ (expr oset_results : List Atom) (changed : Bool),
      NoThrow e (walk_sequence walk oset_results changed expr) := by
  intro expr
  induction expr with
  | nil =>
    intro acc ch
    rw [walk_sequence]
    exact noThrow_pure e _
  | cons h rest ih =>
    intro acc ch
    rw [walk_sequence]
    apply noThrow_bind (hw h); intro hg
    apply noThrow_bind (noThrow_getQuotationLevel e); intro ql
    split
    · split
      · exact ih _ _
      · exact noThrow_throw (Ne.symm he)
    · split
      · exact ih _ _
      · exact ih _ _

theorem noThrow_evaluate_members {S : Type} {e : Err} (c : Config S)
    (hc : c.NeverThrows e) : ∀ out : List Atom, NoThrow e (evaluate_members c out) := by
  intro out
  induction out with
  | nil => rw [evaluate_members]; exact noThrow_pure e ()
  | cons plo rest ih =>
    rw [evaluate_members]
    apply noThrow_bind
    · apply noThrow_catchNotEvaluatable
      apply noThrow_bind (noThrow_call _ _ (fun s => hc.2.2.2.2.1 s plo))
      intro _
      exact noThrow_pure e ()
    · intro _
      exact ih

theorem noThrow_remove_results {S : Type} (e : Err) (c : Config S) :
    ∀ rs : List Atom, NoThrow e (remove_results c rs) := by
  intro rs st st' h
  rw [remove_results_apply] at h
  simp at h

theorem noThrow_add_results {S : Type} {e : Err} (c : Config S)
    (he : e ≠ .NullPointer) : ∀ rs : List Atom, NoThrow e (add_results c rs) := by
  intro rs
  induction rs with
  | nil => rw [add_results]; exact noThrow_pure e _
  | cons h rest ih =>
    rw [add_results]
    apply noThrow_bind
    · apply noThrow_call
      intro s hx
      cases hx
    · intro r
      split
      · exact noThrow_throw (Ne.symm he)
      · apply noThrow_bind ih
        intro _
        exact noThrow_pure e _

theorem noThrow_walk_put {S : Type} {e : Err} (c : Config S) (hc : c.NeverThrows e)
    {walk : Atom → Walk S Handle} (hw : ∀ a, NoThrow e (walk a)) (expr : Atom) :
    NoThrow e (walk_put c walk expr) := by
  unfold walk_put
  apply noThrow_bind (noThrow_ofExcept (hc.2.1 _)); intro ppp
  apply noThrow_bind
  · unfold walk_put_values
    split
    · apply noThrow_bind (hw _)
      intro gargs
      split
      · exact noThrow_ofExcept (hc.2.2.1 _)
      · exact noThrow_pure e _
    · exact noThrow_pure e _
  intro ppp'
  apply noThrow_bind (noThrow_ofExcept (hc.2.2.2.1 _)); intro red
  apply noThrow_bind (hw red); intro rex
  split
  · exact noThrow_pure e _
  · apply noThrow_bind (noThrow_evaluate_members c hc _)
    intro _
    exact noThrow_pure e _
  · apply noThrow_bind
    · apply noThrow_catchNotEvaluatable
      apply noThrow_bind (noThrow_call _ _ (fun s => hc.2.2.2.2.1 s _))
      intro _
      exact noThrow_pure e ()
    · intro _
      exact noThrow_pure e _

theorem noThrow_walk_execution_output {S : Type} {e : Err} (c : Config S)
    (hc : c.NeverThrows e) (he : e ≠ .NullPointer)
    {walk : Atom → Walk S Handle} (hw : ∀ a, NoThrow e (walk a)) (expr : Atom) :
    NoThrow e (walk_execution_output c walk expr) := by
  unfold walk_execution_output
  apply noThrow_bind (noThrow_ofExcept (hc.2.2.2.2.2.1 _)); intro eolp
  apply noThrow_bind (noThrow_addAvoid e 1); intro _
  apply noThrow_bind (hw _); intro args
  apply noThrow_bind (noThrow_addAvoid e (-1)); intro _
  apply noThrow_bind
  · unfold resolve_schema
    split
    · exact noThrow_call _ _ (fun s => hc.1 s _)
    · exact noThrow_pure e _
  intro sn
  split
  · apply noThrow_bind (noThrow_ofExcept (hc.2.2.2.2.2.2.1 _)); intro flp
    split
    · apply noThrow_bind (noThrow_ofExcept (hc.2.2.2.2.2.2.2.1 _ _ _)); intro beta_reduced
      exact hw _
    · exact noThrow_throw (Ne.symm he)
  · exact noThrow_call _ _ (fun s => hc.2.2.2.2.2.2.2.2.1 s _ _)

theorem noThrow_mere_recursive_call {S : Type} {e : Err} (c : Config S)
    (he : e ≠ .ExpectingGlobList)
    {walk : Atom → Walk S Handle} (hw : ∀ a, NoThrow e (walk a)) (expr : Atom)
    (t : LinkType) (out : List Atom) (tv : TruthValue) :
    NoThrow e (mere_recursive_call c walk expr t out tv) := by
  unfold mere_recursive_call
  apply noThrow_bind (noThrow_walk_sequence he hw _ _ _); intro r
  split
  · apply noThrow_call
    intro s hx
    cases hx
  · exact noThrow_pure e _

theorem noThrow_walk_tree {S : Type} {e : Err} (c : Config S) (hc : c.NeverThrows e)
    (h1 : e ≠ .InvalidShape) (h2 : e ≠ .ExpectingGlobList) (h3 : e ≠ .NullPointer)
    (vmap : List (Atom × Atom)) :
    ∀ (fuel : Nat) (expr : Atom), NoThrow e (walk_tree c vmap fuel expr) := by
  intro fuel
  induction fuel with
  | zero =>
    intro expr st st' h
    simp [walk_tree, Walk.diverge] at h
  | succ n ih =>
    intro expr
    cases expr with
    | node t name =>
      simp only [walk_tree]
      apply noThrow_bind (noThrow_getQuotationLevel e); intro ql
      split
      · exact noThrow_pure e _
      · split
        · apply noThrow_bind (noThrow_call _ _ (fun s => hc.1 s _))
          intro d
          exact ih d
        · split
          · exact noThrow_pure e _
          · split
            · exact noThrow_pure e _
            · apply noThrow_bind (noThrow_getHalt e); intro halt
              split
              · exact noThrow_pure e _
              · apply noThrow_bind (noThrow_setHalt e true); intro _
                apply noThrow_bind (ih _); intro hgnd
                apply noThrow_bind (noThrow_setHalt e false); intro _
                exact noThrow_pure e _
    | link t out tv =>
      simp only [walk_tree]
      apply noThrow_bind (noThrow_quotation_case e t); intro _
      apply noThrow_bind (noThrow_getQuotationLevel e); intro ql
      apply noThrow_bind (noThrow_getAvoid e); intro avoid
      split
      · split
        · exact ih _
        · exact noThrow_throw (Ne.symm h1)
      · split
        · exact noThrow_mere_recursive_call c h2 ih _ _ _ _
        · split
          · exact noThrow_walk_put c hc ih _
          · split
            · exact noThrow_walk_execution_output c hc h3 ih _
            · split
              · unfold walk_delete
                apply noThrow_bind (noThrow_walk_sequence h2 ih _ _ _); intro r
                apply noThrow_bind (noThrow_remove_results e c _); intro _
                exact noThrow_pure e _
              · split
                · unfold walk_fold
                  split
                  · apply noThrow_bind (noThrow_walk_sequence h2 ih _ _ _); intro r
                    exact noThrow_call _ _ (fun s => hc.2.2.2.2.2.2.2.2.2.1 s _ _)
                  · exact noThrow_call _ _ (fun s => hc.2.2.2.2.2.2.2.2.2.2.1 s _)
                · split
                  · unfold walk_function
                    split
                    · apply noThrow_bind (noThrow_walk_sequence h2 ih _ _ _); intro r
                      exact noThrow_call _ _
                        (fun s => hc.2.2.2.2.2.2.2.2.2.2.2.1 s _ _)
                    · exact noThrow_call _ _
                        (fun s => hc.2.2.2.2.2.2.2.2.2.2.2.2.1 s _)
                  · split
                    · unfold walk_get
                      split
                      · apply noThrow_bind (noThrow_addAvoid e 1); intro _
                        apply noThrow_bind (noThrow_walk_sequence h2 ih _ _ _); intro r
                        apply noThrow_bind (noThrow_addAvoid e (-1)); intro _
                        apply noThrow_bind (noThrow_add_results c h3 _); intro _
                        exact noThrow_call _ _
                          (fun s => hc.2.2.2.2.2.2.2.2.2.2.2.2.2 s _)
                      · exact noThrow_call _ _
                          (fun s => hc.2.2.2.2.2.2.2.2.2.2.2.2.2 s _)
                    · exact noThrow_mere_recursive_call c h2 ih _ _ _ _

/-! ## The null expression -/

theorem fakeConfig_neverThrows_nullExpression (eager : Bool) :
    (fakeConfig eager).NeverThrows .NullExpression := by
  refine ⟨?_, ?_, ?_, ?_, ?_, ?_, ?_, ?_, ?_, ?_, ?_, ?_, ?_, ?_⟩ <;> intros <;>
    simp only [fakeConfig] <;> (try split) <;> simp

/-- C15: the null expression.  instantiate of the null handle throws "Asked
to ground a null expression" and leaves the state as it is: no collaborator is
called and the atomspace is unchanged.  For an atom, when no collaborator
throws that exception, instantiate does not throw it; and when walk_tree,
started with both quotation counters at 0, returns the handle `h`, instantiate
returns what `add_atom` returns for `h`. -/
theorem instantiate_null_expression {S : Type} (c : Config S) (fuel : Nat)
    (vars : List (Atom × Atom)) (st : State S) :
    instantiate c fuel none vars st = some (st, .error .NullExpression)
    ∧ (c.NeverThrows .NullExpression → ∀ e st',
        instantiate c fuel (some e) vars st ≠ some (st', .error .NullExpression))
    ∧ (∀ e st1 h,
        walk_tree c vars fuel e
            { st with quotation_level := 0, avoid_discarding_quotes_level := 0 }
          = some (st1, .ok h) →
        instantiate c fuel (some e) vars st
          = some ({ st1 with as := (c.add_atom st1.as h).1,
                             trace := st1.trace ++ [.add_atom h] },
                  .ok (c.add_atom st1.as h).2)) := by
  refine ⟨rfl, ?_, ?_⟩
  · intro hc e st'
    have hn : NoThrow .NullExpression (do
        let h ← walk_tree c vars fuel e
        Walk.call (.add_atom h)
          (fun s => ((c.add_atom s h).1, Except.ok (c.add_atom s h).2)) :
            Walk S Handle) := by
      apply noThrow_bind
        (noThrow_walk_tree c hc (by decide) (by decide) (by decide) vars fuel e)
      intro h
      apply noThrow_call
      intro s hx
      cases hx
    exact hn _ st'
  · intro e st1 h hw
    simp only [instantiate]
    rw [Walk.bind_ok hw]
    rfl

/-- Witness of C15: instantiate of `(List X)` with `X ↦ A` returns what
`add_atom` returns for the walked term, and does not throw "Asked to ground a
null expression". -/
theorem instantiate_null_expression_witness :
    instantiate (fakeConfig true) 3 (some (list [var 0])) [(var 0, concept 1)] State.init
      = some ({ State.init with
                  as := [list [concept 1]],
                  trace := [.add_atom (some (list [concept 1])),
                            .add_atom (some (list [concept 1]))] },
              .ok (some (list [concept 1])))
    ∧ instantiate (fakeConfig true) 3 (some (list [var 0])) [(var 0, concept 1)]
        State.init
      ≠ some (State.init, .error .NullExpression) :=
  ⟨(instantiate_null_expression (fakeConfig true) 3 [(var 0, concept 1)] State.init).2.2
    (list [var 0])
    { State.init with
        as := [list [concept 1]],
        trace := [.add_atom (some (list [concept 1]))] }
    (some (list [concept 1])) rfl,
   (instantiate_null_expression (fakeConfig true) 3 [(var 0, concept 1)] State.init).2.1
    (fakeConfig_neverThrows_nullExpression true) (list [var 0]) State.init⟩

/-! ## The guard against infinite regress -/

theorem keepsHalt_bind {S α β : Type} {m : Walk S α} {f : α → Walk S β}
    (hm : KeepsHalt m) (hf : ∀ a, KeepsHalt (f a)) : KeepsHalt (m >>= f) := by
  intro st st' r hh h
  rw [Walk.bind_apply] at h
  rcases hms : m st with _ | ⟨s1, x⟩
  · rw [hms] at h; cases h
  · rw [hms] at h
    have h1 := hm st s1 x hh hms
    cases x with
    | error e =>
      simp only [Option.some.injEq, Prod.mk.injEq] at h
      rw [← h.1]; exact h1
    | ok a => exact hf a s1 st' r h1 h

/-- A computation that leaves the guard as it is keeps it set. -/
theorem keepsHalt_of_same {S α : Type} {m : Walk S α}
    (h : ∀ st st' r, m st = some (st', r) → st'.halt = st.halt) : KeepsHalt m := by
  intro st st' r hh hw
  rw [h st st' r hw, hh]

theorem keepsHalt_pure {S α : Type} (a : α) : KeepsHalt (pure a : Walk S α) :=
  keepsHalt_of_same (by
    intro st st' r h
    simp only [Walk.pure_apply, Option.some.injEq, Prod.mk.injEq] at h
    rw [← h.1])

theorem keepsHalt_throw {S α : Type} (e : Err) : KeepsHalt (Walk.throw e : Walk S α) :=
  keepsHalt_of_same (by
    intro st st' r h
    simp only [Walk.throw, Option.some.injEq, Prod.mk.injEq] at h
    rw [← h.1])

theorem keepsHalt_ofExcept {S α : Type} (x : Except Err α) :
    KeepsHalt (Walk.ofExcept x : Walk S α) := by
  cases x with
  | ok a => exact keepsHalt_pure a
  | error e => exact keepsHalt_throw e

theorem keepsHalt_call {S α : Type} (ev : Call) (f : S → S × Except Err α) :
    KeepsHalt (Walk.call ev f) :=
  keepsHalt_of_same (by
    intro st st' r h
    simp only [Walk.call, Option.some.injEq, Prod.mk.injEq] at h
    rw [← h.1])

theorem keepsHalt_getQuotationLevel {S : Type} :
    KeepsHalt (Walk.getQuotationLevel : Walk S Int) :=
  keepsHalt_of_same (by
    intro st st' r h
    simp only [Walk.getQuotationLevel, Option.some.injEq, Prod.mk.injEq] at h
    rw [← h.1])

theorem keepsHalt_getAvoid {S : Type} : KeepsHalt (Walk.getAvoid : Walk S Int) :=
  keepsHalt_of_same (by
    intro st st' r h
    simp only [Walk.getAvoid, Option.some.injEq, Prod.mk.injEq] at h
    rw [← h.1])

theorem keepsHalt_addAvoid {S : Type} (d : Int) :
    KeepsHalt (Walk.addAvoid d : Walk S Unit) :=
  keepsHalt_of_same (by
    intro st st' r h
    simp only [Walk.addAvoid, Option.some.injEq, Prod.mk.injEq] at h
    rw [← h.1])

theorem keepsHalt_quotation_case {S : Type} (t : LinkType) :
    KeepsHalt (quotation_case t : Walk S Unit) :=
  keepsHalt_of_same (by
    intro st st' r h
    rw [quotation_case_apply] at h
    simp only [Option.some.injEq, Prod.mk.injEq] at h
    rw [← h.1]; rfl)

theorem keepsHalt_catchNotEvaluatable {S : Type} {m : Walk S Unit} (hm : KeepsHalt m) :
    KeepsHalt (Walk.catchNotEvaluatable m) := by
  intro st st' r hh h
  unfold Walk.catchNotEvaluatable at h
  split at h
  · rename_i s1 hms
    simp only [Option.some.injEq, Prod.mk.injEq] at h
    rw [← h.1]
    exact hm st s1 _ hh hms
  · exact hm st st' r hh h

theorem keepsHalt_walk_sequence {S : Type} {walk : Atom → Walk S Handle}
    (hw : ∀ a, KeepsHalt (walk a)) :
    ∀ (expr oset_results : List Atom) (changed : Bool),
      KeepsHalt (walk_sequence walk oset_results changed expr) := by
  intro expr
  induction expr with
  | nil =>
    intro acc ch
    rw [walk_sequence]
    exact keepsHalt_pure _
  | cons h rest ih =>
    intro acc ch
    rw [walk_sequence]
    apply keepsHalt_bind (hw h); intro hg
    apply keepsHalt_bind keepsHalt_getQuotationLevel; intro ql
    split
    · split
      · exact ih _ _
      · exact keepsHalt_throw _
    · split
      · exact ih _ _
      · exact ih _ _

theorem keepsHalt_evaluate_members {S : Type} (c : Config S) :
    ∀ out : List Atom, KeepsHalt (evaluate_members c out) := by
  intro out
  induction out with
  | nil => rw [evaluate_members]; exact keepsHalt_pure ()
  | cons plo rest ih =>
    rw [evaluate_members]
    apply keepsHalt_bind
    · apply keepsHalt_catchNotEvaluatable
      apply keepsHalt_bind (keepsHalt_call _ _)
      intro _
      exact keepsHalt_pure ()
    · intro _
      exact ih

theorem keepsHalt_remove_results {S : Type} (c : Config S) :
    ∀ rs : List Atom, KeepsHalt (remove_results c rs) := by
  intro rs
  apply keepsHalt_of_same
  intro st st' r h
  rw [remove_results_apply] at h
  simp only [Option.some.injEq, Prod.mk.injEq] at h
  rw [← h.1]

theorem keepsHalt_add_results {S : Type} (c : Config S) :
    ∀ rs : List Atom, KeepsHalt (add_results c rs) := by
  intro rs
  induction rs with
  | nil => rw [add_results]; exact keepsHalt_pure _
  | cons h rest ih =>
    rw [add_results]
    apply keepsHalt_bind (keepsHalt_call _ _)
    intro r
    split
    · exact keepsHalt_throw _
    · apply keepsHalt_bind ih
      intro _
      exact keepsHalt_pure _

theorem keepsHalt_walk_put {S : Type} (c : Config S)
    {walk : Atom → Walk S Handle} (hw : ∀ a, KeepsHalt (walk a)) (expr : Atom) :
    KeepsHalt (walk_put c walk expr) := by
  unfold walk_put
  apply keepsHalt_bind (keepsHalt_ofExcept _); intro ppp
  apply keepsHalt_bind
  · unfold walk_put_values
    split
    · apply keepsHalt_bind (hw _)
      intro gargs
      split
      · exact keepsHalt_ofExcept _
      · exact keepsHalt_pure _
    · exact keepsHalt_pure _
  intro ppp'
  apply keepsHalt_bind (keepsHalt_ofExcept _); intro red
  apply keepsHalt_bind (hw red); intro rex
  split
  · exact keepsHalt_pure _
  · apply keepsHalt_bind (keepsHalt_evaluate_members c _)
    intro _
    exact keepsHalt_pure _
  · apply keepsHalt_bind
    · apply keepsHalt_catchNotEvaluatable
      apply keepsHalt_bind (keepsHalt_call _ _)
      intro _
      exact keepsHalt_pure ()
    · intro _
      exact keepsHalt_pure _

theorem keepsHalt_walk_execution_output {S : Type} (c : Config S)
    {walk : Atom → Walk S Handle} (hw : ∀ a, KeepsHalt (walk a)) (expr : Atom) :
    KeepsHalt (walk_execution_output c walk expr) := by
  unfold walk_execution_output
  apply keepsHalt_bind (keepsHalt_ofExcept _); intro eolp
  apply keepsHalt_bind (keepsHalt_addAvoid 1); intro _
  apply keepsHalt_bind (hw _); intro args
  apply keepsHalt_bind (keepsHalt_addAvoid (-1)); intro _
  apply keepsHalt_bind
  · unfold resolve_schema
    split
    · exact keepsHalt_call _ _
    · exact keepsHalt_pure _
  intro sn
  split
  · apply keepsHalt_bind (keepsHalt_ofExcept _); intro flp
    split
    · apply keepsHalt_bind (keepsHalt_ofExcept _); intro beta_reduced
      exact hw _
    · exact keepsHalt_throw _
  · exact keepsHalt_call _ _

theorem keepsHalt_mere_recursive_call {S : Type} (c : Config S)
    {walk : Atom → Walk S Handle} (hw : ∀ a, KeepsHalt (walk a)) (expr : Atom)
    (t : LinkType) (out : List Atom) (tv : TruthValue) :
    KeepsHalt (mere_recursive_call c walk expr t out tv) := by
  unfold mere_recursive_call
  apply keepsHalt_bind (keepsHalt_walk_sequence hw _ _ _); intro r
  split
  · exact keepsHalt_call _ _
  · exact keepsHalt_pure _

/-- While the guard `_halt` is set, walk_tree leaves it set. -/
theorem keepsHalt_walk_tree {S : Type} (c : Config S) (vmap : List (Atom × Atom)) :
    ∀ (fuel : Nat) (expr : Atom), KeepsHalt (walk_tree c vmap fuel expr) := by
  intro fuel
  induction fuel with
  | zero =>
    intro expr st st' r _ h
    simp [walk_tree, Walk.diverge] at h
  | succ n ih =>
    intro expr
    cases expr with
    | node t name =>
      intro st st' r hh h
      simp only [walk_tree] at h
      rw [Walk.bind_ok (Walk.getQuotationLevel_apply st)] at h
      split at h
      · exact keepsHalt_pure _ st st' r hh h
      · split at h
        · exact keepsHalt_bind (keepsHalt_call _ _) (fun d => ih d) st st' r hh h
        · split at h
          · exact keepsHalt_pure _ st st' r hh h
          · rcases hfind : vmap_find vmap (Atom.node t name) with _ | gnd
            · rw [hfind] at h
              exact keepsHalt_pure _ st st' r hh h
            · rw [hfind] at h
              simp only at h
              rw [Walk.bind_ok (Walk.getHalt_apply st)] at h
              simp only [hh, if_true] at h
              exact keepsHalt_pure _ st st' r hh h
    | link t out tv =>
      simp only [walk_tree]
      apply keepsHalt_bind (keepsHalt_quotation_case t); intro _
      apply keepsHalt_bind keepsHalt_getQuotationLevel; intro ql
      apply keepsHalt_bind keepsHalt_getAvoid; intro avoid
      split
      · split
        · exact ih _
        · exact keepsHalt_throw _
      · split
        · exact keepsHalt_mere_recursive_call c ih _ _ _ _
        · split
          · exact keepsHalt_walk_put c ih _
          · split
            · exact keepsHalt_walk_execution_output c ih _
            · split
              · unfold walk_delete
                apply keepsHalt_bind (keepsHalt_walk_sequence ih _ _ _); intro r
                apply keepsHalt_bind (keepsHalt_remove_results c _); intro _
                exact keepsHalt_pure _
              · split
                · unfold walk_fold
                  split
                  · apply keepsHalt_bind (keepsHalt_walk_sequence ih _ _ _); intro r
                    exact keepsHalt_call _ _
                  · exact keepsHalt_call _ _
                · split
                  · unfold walk_function
                    split
                    · apply keepsHalt_bind (keepsHalt_walk_sequence ih _ _ _); intro r
                      exact keepsHalt_call _ _
                    · exact keepsHalt_call _ _
                  · split
                    · unfold walk_get
                      split
                      · apply keepsHalt_bind (keepsHalt_addAvoid 1); intro _
                        apply keepsHalt_bind (keepsHalt_walk_sequence ih _ _ _); intro r
                        apply keepsHalt_bind (keepsHalt_addAvoid (-1)); intro _
                        apply keepsHalt_bind (keepsHalt_add_results c _); intro _
                        exact keepsHalt_call _ _
                      · exact keepsHalt_call _ _
                    · exact keepsHalt_mere_recursive_call c ih _ _ _ _

/-- A grounded VariableNode or GlobNode met with the guard `_halt` set is
returned as it is. -/
theorem walk_tree_halted {S : Type} (c : Config S) (vmap : List (Atom × Atom))
    (fuel : Nat) (t : NodeType) (name : Nat) (gnd : Atom) (st : State S)
    (ht : t = .VARIABLE_NODE ∨ t = .GLOB_NODE)
    (hfind : vmap_find vmap (.node t name) = some gnd) (hh : st.halt = true) :
    walk_tree c vmap (fuel + 1) (.node t name) st = some (st, .ok (some (.node t name))) := by
  simp only [walk_tree]
  rw [Walk.bind_ok (Walk.getQuotationLevel_apply st)]
  have h1 : ¬ (t ≠ .VARIABLE_NODE ∧ t ≠ .GLOB_NODE) := by
    rcases ht with rfl | rfl <;> simp
  have h2 : t ≠ .DEFINED_SCHEMA_NODE := by rcases ht with rfl | rfl <;> simp
  by_cases hq : st.quotation_level > 0
  · simp [hq, Walk.pure_apply]
  · simp only [hq, if_false, h1, h2, hfind]
    rw [Walk.bind_ok (Walk.getHalt_apply st)]
    simp [hh, Walk.pure_apply]

/-- A grounded VariableNode or GlobNode met at quotation level 0 with the
guard clear: the guard is set, the grounding is walked, the guard is
cleared. -/
theorem walk_tree_expand {S : Type} (c : Config S) (vmap : List (Atom × Atom))
    (fuel : Nat) (t : NodeType) (name : Nat) (gnd : Atom) (st : State S)
    (ht : t = .VARIABLE_NODE ∨ t = .GLOB_NODE)
    (hfind : vmap_find vmap (.node t name) = some gnd)
    (hq : st.quotation_level = 0) (hh : st.halt = false) :
    walk_tree c vmap (fuel + 1) (.node t name) st
      = match walk_tree c vmap fuel gnd { st with halt := true } with
        | none => none
        | some (st1, .error e) => some (st1, .error e)
        | some (st1, .ok r) => some ({ st1 with halt := false }, .ok r) := by
  generalize hres : walk_tree c vmap fuel gnd { st with halt := true } = res
  simp only [walk_tree]
  rw [Walk.bind_ok (Walk.getQuotationLevel_apply st)]
  have h1 : ¬ (t ≠ .VARIABLE_NODE ∧ t ≠ .GLOB_NODE) := by
    rcases ht with rfl | rfl <;> simp
  have h2 : t ≠ .DEFINED_SCHEMA_NODE := by rcases ht with rfl | rfl <;> simp
  simp only [hq, lt_self_iff_false, if_false, h1, h2, hfind]
  rw [Walk.bind_ok (Walk.getHalt_apply st)]
  simp only [hh, Bool.false_eq_true, if_false]
  have hset : (Walk.setHalt true : Walk S Unit) st
      = some ({ st with halt := true }, .ok ()) := rfl
  rw [Walk.bind_ok hset, Walk.bind_apply, hres]
  rcases res with _ | ⟨s1, x⟩
  · rfl
  · cases x <;> rfl

/-- C16: one-level variable expansion.  With `X ↦ Y` and `Y ↦ Z`, `X` and `Y`
VariableNodes, walk_tree of `X` at quotation level 0 with the guard `_halt`
clear returns `Y` and leaves the state as it was.  More generally: a grounded
VariableNode or GlobNode met while the guard is set is returned as it is;
every walk started with the guard set ends with the guard set, so the guard
is set all the time the grounding of a variable is walked; and the walk of a
grounded variable met with the guard clear returns what the walk of its
grounding with the guard set returns, with the guard clear again. -/
theorem walk_tree_one_level {S : Type} (c : Config S) (vmap : List (Atom × Atom))
    (fuel : Nat) :
    (∀ (nx ny : Nat) (z : Atom) (st : State S),
      vmap_find vmap (.node .VARIABLE_NODE nx) = some (.node .VARIABLE_NODE ny) →
      vmap_find vmap (.node .VARIABLE_NODE ny) = some z →
      st.quotation_level = 0 → st.halt = false →
      walk_tree c vmap (fuel + 2) (.node .VARIABLE_NODE nx) st
        = some (st, .ok (some (.node .VARIABLE_NODE ny))))
    ∧ (∀ (t : NodeType) (name : Nat) (gnd : Atom) (st : State S),
      (t = .VARIABLE_NODE ∨ t = .GLOB_NODE) →
      vmap_find vmap (.node t name) = some gnd → st.halt = true →
      walk_tree c vmap (fuel + 1) (.node t name) st
        = some (st, .ok (some (.node t name))))
    ∧ (∀ (expr : Atom) (st st' : State S) (r : Except Err Handle),
      st.halt = true → walk_tree c vmap fuel expr st = some (st', r) →
      st'.halt = true)
    ∧ (∀ (t : NodeType) (name : Nat) (gnd : Atom) (st st' : State S) (r : Handle),
      (t = .VARIABLE_NODE ∨ t = .GLOB_NODE) →
      vmap_find vmap (.node t name) = some gnd →
      st.quotation_level = 0 → st.halt = false →
      walk_tree c vmap (fuel + 1) (.node t name) st = some (st', .ok r) →
      st'.halt = false
        ∧ ∃ st1, walk_tree c vmap fuel gnd { st with halt := true } = some (st1, .ok r)
          ∧ st' = { st1 with halt := false }) := by
  refine ⟨?_, ?_, ?_, ?_⟩
  · intro nx ny z st hx hy hq hh
    have hw := walk_tree_halted c vmap fuel .VARIABLE_NODE ny z { st with halt := true }
      (Or.inl rfl) hy rfl
    rw [walk_tree_grounded c vmap (fuel + 1) .VARIABLE_NODE nx _ st _ _ (Or.inl rfl)
      hx hq hh hw, State.halt_restore st hh]
  · intro t name gnd st ht hfind hh
    exact walk_tree_halted c vmap fuel t name gnd st ht hfind hh
  · intro expr st st' r hh hw
    exact keepsHalt_walk_tree c vmap fuel expr st st' r hh hw
  · intro t name gnd st st' r ht hfind hq hh hw
    rw [walk_tree_expand c vmap fuel t name gnd st ht hfind hq hh] at hw
    rcases hg : walk_tree c vmap fuel gnd { st with halt := true } with _ | ⟨s1, x⟩
    · rw [hg] at hw; cases hw
    · rw [hg] at hw
      cases x with
      | error e => simp at hw
      | ok a =>
        simp only [Option.some.injEq, Prod.mk.injEq, Except.ok.injEq] at hw
        obtain ⟨rfl, rfl⟩ := hw
        exact ⟨rfl, s1, rfl, rfl⟩

/-- Witness of C16: with `X ↦ Y` and `Y ↦ A`, the walk of `X` returns `Y`. -/
theorem walk_tree_one_level_witness :
    walk_tree (fakeConfig true) [(var 0, var 1), (var 1, concept 1)] 2 (var 0) State.init
      = some (State.init, .ok (some (var 1))) :=
  (walk_tree_one_level (fakeConfig true) [(var 0, var 1), (var 1, concept 1)] 0).1
    0 1 (concept 1) State.init rfl rfl rfl rfl

/-! ## The sign of the quotation counters -/

theorem avoidBracket_bind {S α β : Type} {m : Walk S α} {f : α → Walk S β}
    (hm : AvoidBracket m) (hf : ∀ a, AvoidBracket (f a)) : AvoidBracket (m >>= f) := by
  intro st st' r h
  rw [Walk.bind_apply] at h
  rcases hms : m st with _ | ⟨s1, x⟩
  · rw [hms] at h; cases h
  · rw [hms] at h
    obtain ⟨h1, h2⟩ := hm st s1 x hms
    cases x with
    | error e =>
      simp only [Option.some.injEq, Prod.mk.injEq] at h
      obtain ⟨rfl, rfl⟩ := h
      exact ⟨h1, fun a ha => by cases ha⟩
    | ok a =>
      obtain ⟨h3, h4⟩ := hf a s1 st' r h
      have e := h2 a rfl
      exact ⟨by omega, fun b hb => by rw [h4 b hb, e]⟩

/-- A computation that leaves the quote preservation level as it is. -/
theorem avoidBracket_of_same {S α : Type} {m : Walk S α}
    (h : ∀ st st' r, m st = some (st', r) →
      st'.avoid_discarding_quotes_level = st.avoid_discarding_quotes_level) :
    AvoidBracket m := by
  intro st st' r hw
  have e := h st st' r hw
  exact ⟨by omega, fun _ _ => e⟩

theorem avoidBracket_pure {S α : Type} (a : α) : AvoidBracket (pure a : Walk S α) :=
  avoidBracket_of_same (by
    intro st st' r h
    simp only [Walk.pure_apply, Option.some.injEq, Prod.mk.injEq] at h
    rw [← h.1])

theorem avoidBracket_throw {S α : Type} (e : Err) :
    AvoidBracket (Walk.throw e : Walk S α) :=
  avoidBracket_of_same (by
    intro st st' r h
    simp only [Walk.throw, Option.some.injEq, Prod.mk.injEq] at h
    rw [← h.1])

theorem avoidBracket_ofExcept {S α : Type} (x : Except Err α) :
    AvoidBracket (Walk.ofExcept x : Walk S α) := by
  cases x with
  | ok a => exact avoidBracket_pure a
  | error e => exact avoidBracket_throw e

theorem avoidBracket_call {S α : Type} (ev : Call) (f : S → S × Except Err α) :
    AvoidBracket (Walk.call ev f) :=
  avoidBracket_of_same (by
    intro st st' r h
    simp only [Walk.call, Option.some.injEq, Prod.mk.injEq] at h
    rw [← h.1])

theorem avoidBracket_getQuotationLevel {S : Type} :
    AvoidBracket (Walk.getQuotationLevel : Walk S Int) :=
  avoidBracket_of_same (by
    intro st st' r h
    simp only [Walk.getQuotationLevel, Option.some.injEq, Prod.mk.injEq] at h
    rw [← h.1])

theorem avoidBracket_getAvoid {S : Type} : AvoidBracket (Walk.getAvoid : Walk S Int) :=
  avoidBracket_of_same (by
    intro st st' r h
    simp only [Walk.getAvoid, Option.some.injEq, Prod.mk.injEq] at h
    rw [← h.1])

theorem avoidBracket_getHalt {S : Type} : AvoidBracket (Walk.getHalt : Walk S Bool) :=
  avoidBracket_of_same (by
    intro st st' r h
    simp only [Walk.getHalt, Option.some.injEq, Prod.mk.injEq] at h
    rw [← h.1])

theorem avoidBracket_setHalt {S : Type} (b : Bool) :
    AvoidBracket (Walk.setHalt b : Walk S Unit) :=
  avoidBracket_of_same (by
    intro st st' r h
    simp only [Walk.setHalt, Option.some.injEq, Prod.mk.injEq] at h
    rw [← h.1])

theorem avoidBracket_quotation_case {S : Type} (t : LinkType) :
    AvoidBracket (quotation_case t : Walk S Unit) :=
  avoidBracket_of_same (by
    intro st st' r h
    rw [quotation_case_apply] at h
    simp only [Option.some.injEq, Prod.mk.injEq] at h
    rw [← h.1]; rfl)

theorem avoidBracket_catchNotEvaluatable {S : Type} {m : Walk S Unit}
    (hm : ∀ st st' r, m st = some (st', r) →
      st'.avoid_discarding_quotes_level = st.avoid_discarding_quotes_level) :
    AvoidBracket (Walk.catchNotEvaluatable m) := by
  apply avoidBracket_of_same
  intro st st' r h
  unfold Walk.catchNotEvaluatable at h
  split at h
  · rename_i s1 hms
    simp only [Option.some.injEq, Prod.mk.injEq] at h
    rw [← h.1]
    exact hm st s1 _ hms
  · exact hm st st' r h

theorem evaluate_guarded_avoid {S : Type} (c : Config S) (a : Atom) :
    AvoidBracket (Walk.catchNotEvaluatable (do
      let _ ← Walk.call (.do_evaluate a) (fun s => c.do_evaluate s a)
      pure () : Walk S Unit)) := by
  apply avoidBracket_of_same
  intro st st' r h
  rw [evaluate_guarded_apply] at h
  simp only [Option.some.injEq, Prod.mk.injEq] at h
  rw [← h.1]

/-- The bracket of lines 231-233 and 334-336: raise the level, run, lower
the level, go on. -/
theorem avoidBracket_bracket {S α β : Type} {m : Walk S α} {k : α → Walk S β}
    (hm : AvoidBracket m) (hk : ∀ a, AvoidBracket (k a)) :
    AvoidBracket (Walk.addAvoid 1 >>= fun _ =>
      m >>= fun a => Walk.addAvoid (-1) >>= fun _ => k a) := by
  intro st st' r h
  have hadd : (Walk.addAvoid 1 : Walk S Unit) st
      = some ({ st with avoid_discarding_quotes_level :=
          st.avoid_discarding_quotes_level + 1 }, .ok ()) := rfl
  rw [Walk.bind_ok hadd, Walk.bind_apply] at h
  rcases hms : m { st with avoid_discarding_quotes_level :=
      st.avoid_discarding_quotes_level + 1 } with _ | ⟨s1, x⟩
  · rw [hms] at h; cases h
  · rw [hms] at h
    obtain ⟨h1, h2⟩ := hm _ s1 x hms
    simp only at h1 h2
    cases x with
    | error e =>
      simp only [Option.some.injEq, Prod.mk.injEq] at h
      obtain ⟨rfl, rfl⟩ := h
      exact ⟨by omega, fun a ha => by cases ha⟩
    | ok a =>
      have hsub : (Walk.addAvoid (-1) : Walk S Unit) s1
          = some ({ s1 with avoid_discarding_quotes_level :=
              s1.avoid_discarding_quotes_level + -1 }, .ok ()) := rfl
      simp only at h
      rw [Walk.bind_ok hsub] at h
      obtain ⟨h3, h4⟩ := hk a _ st' r h
      simp only at h3 h4
      have e := h2 a rfl
      exact ⟨by omega, fun b hb => by rw [h4 b hb, e]; omega⟩

theorem avoidBracket_walk_sequence {S : Type} {walk : Atom → Walk S Handle}
    (hw : ∀ a, AvoidBracket (walk a)) :
    ∀ (expr oset_results : List Atom) (changed : Bool),
      AvoidBracket (walk_sequence walk oset_results changed expr) := by
  intro expr
  induction expr with
  | nil =>
    intro acc ch
    rw [walk_sequence]
    exact avoidBracket_pure _
  | cons h rest ih =>
    intro acc ch
    rw [walk_sequence]
    apply avoidBracket_bind (hw h); intro hg
    apply avoidBracket_bind avoidBracket_getQuotationLevel; intro ql
    split
    · split
      · exact ih _ _
      · exact avoidBracket_throw _
    · split
      · exact ih _ _
      · exact ih _ _

theorem avoidBracket_evaluate_members {S : Type} (c : Config S) :
    ∀ out : List Atom, AvoidBracket (evaluate_members c out) := by
  intro out
  induction out with
  | nil => rw [evaluate_members]; exact avoidBracket_pure ()
  | cons plo rest ih =>
    rw [evaluate_members]
    exact avoidBracket_bind (evaluate_guarded_avoid c plo) (fun _ => ih)

theorem avoidBracket_remove_results {S : Type} (c : Config S) :
    ∀ rs : List Atom, AvoidBracket (remove_results c rs) := by
  intro rs
  apply avoidBracket_of_same
  intro st st' r h
  rw [remove_results_apply] at h
  simp only [Option.some.injEq, Prod.mk.injEq] at h
  rw [← h.1]

theorem avoidBracket_add_results {S : Type} (c : Config S) :
    ∀ rs : List Atom, AvoidBracket (add_results c rs) := by
  intro rs
  induction rs with
  | nil => rw [add_results]; exact avoidBracket_pure _
  | cons h rest ih =>
    rw [add_results]
    apply avoidBracket_bind (avoidBracket_call _ _)
    intro r
    split
    · exact avoidBracket_throw _
    · apply avoidBracket_bind ih
      intro _
      exact avoidBracket_pure _

theorem avoidBracket_walk_put {S : Type} (c : Config S)
    {walk : Atom → Walk S Handle} (hw : ∀ a, AvoidBracket (walk a)) (expr : Atom) :
    AvoidBracket (walk_put c walk expr) := by
  unfold walk_put
  apply avoidBracket_bind (avoidBracket_ofExcept _); intro ppp
  apply avoidBracket_bind
  · unfold walk_put_values
    split
    · apply avoidBracket_bind (hw _)
      intro gargs
      split
      · exact avoidBracket_ofExcept _
      · exact avoidBracket_pure _
    · exact avoidBracket_pure _
  intro ppp'
  apply avoidBracket_bind (avoidBracket_ofExcept _); intro red
  apply avoidBracket_bind (hw red); intro rex
  split
  · exact avoidBracket_pure _
  · apply avoidBracket_bind (avoidBracket_evaluate_members c _)
    intro _
    exact avoidBracket_pure _
  · apply avoidBracket_bind (evaluate_guarded_avoid c _)
    intro _
    exact avoidBracket_pure _

theorem avoidBracket_walk_execution_output {S : Type} (c : Config S)
    {walk : Atom → Walk S Handle} (hw : ∀ a, AvoidBracket (walk a)) (expr : Atom) :
    AvoidBracket (walk_execution_output c walk expr) := by
  unfold walk_execution_output
  apply avoidBracket_bind (avoidBracket_ofExcept _); intro eolp
  apply avoidBracket_bracket (hw _); intro args
  apply avoidBracket_bind
  · unfold resolve_schema
    split
    · exact avoidBracket_call _ _
    · exact avoidBracket_pure _
  intro sn
  split
  · apply avoidBracket_bind (avoidBracket_ofExcept _); intro flp
    split
    · apply avoidBracket_bind (avoidBracket_ofExcept _); intro beta_reduced
      exact hw _
    · exact avoidBracket_throw _
  · exact avoidBracket_call _ _

theorem avoidBracket_mere_recursive_call {S : Type} (c : Config S)
    {walk : Atom → Walk S Handle} (hw : ∀ a, AvoidBracket (walk a)) (expr : Atom)
    (t : LinkType) (out : List Atom) (tv : TruthValue) :
    AvoidBracket (mere_recursive_call c walk expr t out tv) := by
  unfold mere_recursive_call
  apply avoidBracket_bind (avoidBracket_walk_sequence hw _ _ _); intro r
  split
  · exact avoidBracket_call _ _
  · exact avoidBracket_pure _

/-- The quote preservation level is as it was when walk_tree returns normally,
and not lower when it throws. -/
theorem avoidBracket_walk_tree {S : Type} (c : Config S) (vmap : List (Atom × Atom)) :
    ∀ (fuel : Nat) (expr : Atom), AvoidBracket (walk_tree c vmap fuel expr) := by
  intro fuel
  induction fuel with
  | zero =>
    intro expr st st' r h
    simp [walk_tree, Walk.diverge] at h
  | succ n ih =>
    intro expr
    cases expr with
    | node t name =>
      simp only [walk_tree]
      apply avoidBracket_bind avoidBracket_getQuotationLevel; intro ql
      split
      · exact avoidBracket_pure _
      · split
        · exact avoidBracket_bind (avoidBracket_call _ _) (fun d => ih d)
        · split
          · exact avoidBracket_pure _
          · split
            · exact avoidBracket_pure _
            · apply avoidBracket_bind avoidBracket_getHalt; intro halt
              split
              · exact avoidBracket_pure _
              · apply avoidBracket_bind (avoidBracket_setHalt true); intro _
                apply avoidBracket_bind (ih _); intro hgnd
                apply avoidBracket_bind (avoidBracket_setHalt false); intro _
                exact avoidBracket_pure _
    | link t out tv =>
      simp only [walk_tree]
      apply avoidBracket_bind (avoidBracket_quotation_case t); intro _
      apply avoidBracket_bind avoidBracket_getQuotationLevel; intro ql
      apply avoidBracket_bind avoidBracket_getAvoid; intro avoid
      split
      · split
        · exact ih _
        · exact avoidBracket_throw _
      · split
        · exact avoidBracket_mere_recursive_call c ih _ _ _ _
        · split
          · exact avoidBracket_walk_put c ih _
          · split
            · exact avoidBracket_walk_execution_output c ih _
            · split
              · unfold walk_delete
                apply avoidBracket_bind (avoidBracket_walk_sequence ih _ _ _); intro r
                apply avoidBracket_bind (avoidBracket_remove_results c _); intro _
                exact avoidBracket_pure _
              · split
                · unfold walk_fold
                  split
                  · apply avoidBracket_bind (avoidBracket_walk_sequence ih _ _ _)
                    intro r
                    exact avoidBracket_call _ _
                  · exact avoidBracket_call _ _
                · split
                  · unfold walk_function
                    split
                    · apply avoidBracket_bind (avoidBracket_walk_sequence ih _ _ _)
                      intro r
                      exact avoidBracket_call _ _
                    · exact avoidBracket_call _ _
                  · split
                    · unfold walk_get
                      split
                      · apply avoidBracket_bracket (avoidBracket_walk_sequence ih _ _ _)
                        intro r
                        apply avoidBracket_bind (avoidBracket_add_results c _); intro _
                        exact avoidBracket_call _ _
                      · exact avoidBracket_call _ _
                    · exact avoidBracket_mere_recursive_call c ih _ _ _ _

/-- C19, as stated, fails for the quotation level: instantiate of `(Unquote
A)` starts with the level at 0, the UnquoteLink lowers it to -1, and the walk
goes on and ends at level -1. -/
theorem instantiate_unquote_negative_level :
    instantiate (fakeConfig true) 3 (some (unquote [concept 1])) [] State.init
      = some ({ State.init with
                  quotation_level := -1,
                  as := [unquote [concept 1]],
                  trace := [.add_atom (some (unquote [concept 1]))] },
              .ok (some (unquote [concept 1]))) := by
  rfl

/-- C19, amended: the quote preservation level is never negative.  A walk
started with the level at 0 or more ends, normally or by an exception, with
the level at 0 or more, and with the level as it was when it returns normally;
this holds for walk_tree on every term, hence for every inner call.
instantiate of an atom, which starts the walk with the level at 0, ends with
the level at 0 or more. -/
theorem preserve_quotes_level_nonneg {S : Type} (c : Config S)
    (vars : List (Atom × Atom)) (fuel : Nat) :
    (∀ (expr : Atom) (st st' : State S) (r : Except Err Handle),
      0 ≤ st.avoid_discarding_quotes_level →
      walk_tree c vars fuel expr st = some (st', r) →
      0 ≤ st'.avoid_discarding_quotes_level
        ∧ ∀ a, r = .ok a →
            st'.avoid_discarding_quotes_level = st.avoid_discarding_quotes_level)
    ∧ (∀ (expr : Atom) (st st' : State S) (r : Except Err Handle),
      instantiate c fuel (some expr) vars st = some (st', r) →
      0 ≤ st'.avoid_discarding_quotes_level) := by
  refine ⟨?_, ?_⟩
  · intro expr st st' r h0 hw
    obtain ⟨h1, h2⟩ := avoidBracket_walk_tree c vars fuel expr st st' r hw
    exact ⟨by omega, h2⟩
  · intro expr st st' r hw
    have hb : AvoidBracket (do
        let h ← walk_tree c vars fuel expr
        Walk.call (.add_atom h)
          (fun s => ((c.add_atom s h).1, Except.ok (c.add_atom s h).2)) :
            Walk S Handle) :=
      avoidBracket_bind (avoidBracket_walk_tree c vars fuel expr)
        (fun h => avoidBracket_call _ _)
    exact (hb _ st' r hw).1

/-- Witness of C19, amended: the eager walk of `(Get G)` with the GlobNode `G`
grounded by a node throws with the quote preservation level at 1. -/
theorem preserve_quotes_level_nonneg_witness :
    0 ≤ ({ State.init with avoid_discarding_quotes_level := 1 }
          : State AtomSet).avoid_discarding_quotes_level
    ∧ ∀ a, (Except.error Err.ExpectingGlobList : Except Err Handle) = .ok a →
        ({ State.init with avoid_discarding_quotes_level := 1 }
          : State AtomSet).avoid_discarding_quotes_level
          = State.init.avoid_discarding_quotes_level :=
  (preserve_quotes_level_nonneg (fakeConfig true) [(glob 0, concept 1)] 5).1
    (.link .GET_LINK [glob 0] DEFAULT_TV) State.init
    { State.init with avoid_discarding_quotes_level := 1 }
    (.error .ExpectingGlobList) (by decide) rfl

/-! ## Termination -/

theorem vmap_find_depth {vmap : List (Atom × Atom)} {k v : Atom} :
    vmap_find vmap k = some v → v.depth ≤ vmap_depth vmap := by
  induction vmap with
  | nil => intro h; simp [vmap_find] at h
  | cons p rest ih =>
    obtain ⟨k', v'⟩ := p
    intro h
    simp only [vmap_find] at h
    simp only [vmap_depth]
    split at h
    · simp only [Option.some.injEq] at h
      subst h
      exact le_max_left _ _
    · exact le_trans (ih h) (le_max_right _ _)

theorem vmap_find_all {p : Atom → Bool} {vmap : List (Atom × Atom)} {k v : Atom}
    (henv : ∀ q ∈ vmap, Atom.all p q.2 = true) (h : vmap_find vmap k = some v) :
    Atom.all p v = true := by
  obtain ⟨q, hq, hq2⟩ := vmap_find_mem h
  exact hq2 ▸ henv q hq

/-- The child-sequence walk ends when the walk of every child ends, the
guard `_halt` having the value `b` before every child. -/
theorem walk_sequence_terminates {S : Type} (walk : Atom → Walk S Handle) (b : Bool) :
    ∀ (out oset_results : List Atom) (changed : Bool) (st : State S),
      (∀ h ∈ out, ∀ st, st.halt = b →
        ∃ st' r, walk h st = some (st', r) ∧ ∀ a, r = .ok a → st'.halt = b) →
      st.halt = b →
      ∃ st' r, walk_sequence walk oset_results changed out st = some (st', r)
        ∧ ∀ a, r = .ok a → st'.halt = b := by
  intro out
  induction out with
  | nil =>
    intro acc ch st _ hb
    exact ⟨st, .ok (acc, ch), rfl, fun _ _ => hb⟩
  | cons h rest ih =>
    intro acc ch st hall hb
    obtain ⟨s1, x, hw, hx⟩ := hall h (List.mem_cons_self h rest) st hb
    have hrest := fun acc' ch' hb1 =>
      ih acc' ch' s1 (fun y hy => hall y (List.mem_cons_of_mem h hy)) hb1
    cases x with
    | error e =>
      refine ⟨s1, .error e, ?_, fun a ha => by cases ha⟩
      rw [walk_sequence, Walk.bind_error hw]
    | ok hg =>
      have hb1 := hx hg rfl
      rw [walk_sequence, Walk.bind_ok hw, Walk.bind_ok (Walk.getQuotationLevel_apply s1)]
      split
      · split
        · exact hrest _ _ hb1
        · exact ⟨s1, .error .ExpectingGlobList, rfl, fun a ha => by cases ha⟩
      · split
        · exact hrest _ _ hb1
        · exact hrest _ _ hb1

theorem walkable_link_iff {S : Type} {c : Config S} {t : LinkType} {out : List Atom}
    {tv : TruthValue} (h : walkable c (.link t out tv) = true) :
    t ≠ .PUT_LINK ∧ t ≠ .EXECUTION_OUTPUT_LINK ∧ t ≠ .GET_LINK
      ∧ c.isA t .FOLD_LINK = false ∧ c.isA t .FUNCTION_LINK = false := by
  simpa [walkable, and_assoc] using h

theorem mere_recursive_call_terminates {S : Type} (c : Config S)
    (walk : Atom → Walk S Handle) (b : Bool) (expr : Atom) (t : LinkType)
    (out : List Atom) (tv : TruthValue) (st : State S)
    (hall : ∀ h ∈ out, ∀ st, st.halt = b →
      ∃ st' r, walk h st = some (st', r) ∧ ∀ a, r = .ok a → st'.halt = b)
    (hb : st.halt = b) :
    ∃ st' r, mere_recursive_call c walk expr t out tv st = some (st', r)
      ∧ ∀ a, r = .ok a → st'.halt = b := by
  obtain ⟨s1, x, hseq, hx⟩ := walk_sequence_terminates walk b out [] false st hall hb
  cases x with
  | error e =>
    refine ⟨s1, .error e, ?_, fun a ha => by cases ha⟩
    rw [mere_recursive_call, Walk.bind_error hseq]
  | ok r =>
    have hb1 := hx r rfl
    rw [mere_recursive_call, Walk.bind_ok hseq]
    split
    · exact ⟨_, _, rfl, fun _ _ => hb1⟩
    · exact ⟨s1, _, rfl, fun _ _ => hb1⟩

/-- The walk of a walkable link ends when the walk of every child ends. -/
theorem walk_tree_link_terminates {S : Type} (c : Config S) (vmap : List (Atom × Atom))
    (n : Nat) (t : LinkType) (out : List Atom) (tv : TruthValue) (b : Bool)
    (hwk : walkable c (.link t out tv) = true)
    (hall : ∀ h ∈ out, ∀ st, st.halt = b →
      ∃ st' r, walk_tree c vmap n h st = some (st', r) ∧ ∀ a, r = .ok a → st'.halt = b)
    (st : State S) (hb : st.halt = b) :
    ∃ st' r, walk_tree c vmap (n + 1) (.link t out tv) st = some (st', r)
      ∧ ∀ a, r = .ok a → st'.halt = b := by
  obtain ⟨h1, h2, h3, h4, h5⟩ := walkable_link_iff hwk
  have hb0 : (st.afterQuotationCase t).halt = b := hb
  rw [walk_tree_link]
  simp only [h1, h2, h3, h4, h5, if_false]
  split
  · match out, hall with
    | [], _ => exact ⟨_, .error .InvalidShape, rfl, fun a ha => by cases ha⟩
    | [child], hall => exact hall child (List.mem_singleton.mpr rfl) _ hb0
    | _ :: _ :: _, _ => exact ⟨_, .error .InvalidShape, rfl, fun a ha => by cases ha⟩
  · split
    · exact mere_recursive_call_terminates c _ b _ t out tv _ hall hb0
    · split
      · obtain ⟨s1, x, hseq, hx⟩ :=
          walk_sequence_terminates (walk_tree c vmap n) b out [] false _ hall hb0
        cases x with
        | error e =>
          refine ⟨s1, .error e, ?_, fun a ha => by cases ha⟩
          rw [walk_delete, Walk.bind_error hseq]
        | ok r =>
          have hb1 := hx r rfl
          refine ⟨{ s1 with
              as := (r.1.filter removable).foldl c.remove_atom s1.as,
              trace := s1.trace ++ (r.1.filter removable).map Call.remove_atom },
            .ok none, ?_, fun _ _ => hb1⟩
          rw [walk_delete, Walk.bind_ok hseq, Walk.bind_ok (remove_results_apply c r.1 s1)]
          rfl
      · exact mere_recursive_call_terminates c _ b _ t out tv _ hall hb0

/-- A node that is no DefinedSchemaNode, met with the guard set, is returned
as it is. -/
theorem walk_tree_node_halted {S : Type} (c : Config S) (vmap : List (Atom × Atom))
    (n : Nat) (t : NodeType) (name : Nat) (st : State S)
    (ht : t ≠ .DEFINED_SCHEMA_NODE) (hh : st.halt = true) :
    walk_tree c vmap (n + 1) (.node t name) st = some (st, .ok (some (.node t name))) := by
  by_cases hv : t = .VARIABLE_NODE ∨ t = .GLOB_NODE
  · rcases hfind : vmap_find vmap (.node t name) with _ | gnd
    · simp only [walk_tree]
      rw [Walk.bind_ok (Walk.getQuotationLevel_apply st)]
      simp only [ht, if_false, hfind]
      split <;> [rfl; (split <;> rfl)]
    · exact walk_tree_halted c vmap n t name gnd st hv hfind hh
  · have hv' : t ≠ .VARIABLE_NODE ∧ t ≠ .GLOB_NODE := by
      constructor <;> intro e <;> exact hv (by simp [e])
    simp only [walk_tree]
    rw [Walk.bind_ok (Walk.getQuotationLevel_apply st)]
    simp only [ht, if_false, hv', ne_eq, not_false_eq_true, and_self, if_true]
    split <;> rfl

/-- With the guard set, the walk of a walkable term ends within a budget
above the height of the term. -/
theorem walk_tree_terminates_halted {S : Type} (c : Config S)
    (vmap : List (Atom × Atom)) :
    ∀ (n : Nat) (expr : Atom) (st : State S),
      Atom.all (walkable c) expr = true → expr.depth < n → st.halt = true →
      ∃ st' r, walk_tree c vmap n expr st = some (st', r)
        ∧ ∀ a, r = .ok a → st'.halt = true := by
  intro n
  induction n with
  | zero => intro expr st _ hd; omega
  | succ n ih =>
    intro expr st hall hd hh
    cases expr with
    | node t name =>
      have ht : t ≠ .DEFINED_SCHEMA_NODE := by
        rintro rfl
        simp [Atom.all, walkable] at hall
      exact ⟨st, _, walk_tree_node_halted c vmap n t name st ht hh, fun _ _ => hh⟩
    | link t out tv =>
      apply walk_tree_link_terminates c vmap n t out tv true (Atom.all_head hall) _ st hh
      intro h hmem st0 hh0
      have hdx := Atom.depth_child t out tv hmem
      exact ih h st0 (Atom.all_children hall h hmem) (by omega) hh0

/-- A grounded VariableNode or GlobNode met at a quotation level that is not
positive, with the guard clear: the guard is set, the grounding is walked, the
guard is cleared. -/
theorem walk_tree_expand_unquoted {S : Type} (c : Config S) (vmap : List (Atom × Atom))
    (fuel : Nat) (t : NodeType) (name : Nat) (gnd : Atom) (st : State S)
    (ht : t = .VARIABLE_NODE ∨ t = .GLOB_NODE)
    (hfind : vmap_find vmap (.node t name) = some gnd)
    (hq : ¬ st.quotation_level > 0) (hh : st.halt = false) :
    walk_tree c vmap (fuel + 1) (.node t name) st
      = match walk_tree c vmap fuel gnd { st with halt := true } with
        | none => none
        | some (st1, .error e) => some (st1, .error e)
        | some (st1, .ok r) => some ({ st1 with halt := false }, .ok r) := by
  generalize hres : walk_tree c vmap fuel gnd { st with halt := true } = res
  simp only [walk_tree]
  rw [Walk.bind_ok (Walk.getQuotationLevel_apply st)]
  have h1 : ¬ (t ≠ .VARIABLE_NODE ∧ t ≠ .GLOB_NODE) := by
    rcases ht with rfl | rfl <;> simp
  have h2 : t ≠ .DEFINED_SCHEMA_NODE := by rcases ht with rfl | rfl <;> simp
  simp only [hq, if_false, h1, h2, hfind]
  rw [Walk.bind_ok (Walk.getHalt_apply st)]
  simp only [hh, Bool.false_eq_true, if_false]
  have hset : (Walk.setHalt true : Walk S Unit) st
      = some ({ st with halt := true }, .ok ()) := rfl
  rw [Walk.bind_ok hset, Walk.bind_apply, hres]
  rcases res with _ | ⟨s1, x⟩
  · rfl
  · cases x <;> rfl

/-- With the guard clear, the walk of a walkable term under walkable
groundings ends within a budget above the height of the term plus the height
of the highest grounding. -/
theorem walk_tree_terminates_clear {S : Type} (c : Config S)
    (vmap : List (Atom × Atom)) (henv : ∀ p ∈ vmap, Atom.all (walkable c) p.2 = true) :
    ∀ (n : Nat) (expr : Atom) (st : State S),
      Atom.all (walkable c) expr = true → expr.depth + vmap_depth vmap + 1 < n →
      st.halt = false →
      ∃ st' r, walk_tree c vmap n expr st = some (st', r)
        ∧ ∀ a, r = .ok a → st'.halt = false := by
  intro n
  induction n with
  | zero => intro expr st _ hd; omega
  | succ n ih =>
    intro expr st hall hd hh
    cases expr with
    | node t name =>
      have ht : t ≠ .DEFINED_SCHEMA_NODE := by
        rintro rfl
        simp [Atom.all, walkable] at hall
      by_cases hq : st.quotation_level > 0
      · refine ⟨st, .ok (some (.node t name)), ?_, fun _ _ => hh⟩
        simp only [walk_tree]
        rw [Walk.bind_ok (Walk.getQuotationLevel_apply st)]
        simp [hq, Walk.pure_apply]
      · by_cases hv : t = .VARIABLE_NODE ∨ t = .GLOB_NODE
        · rcases hfind : vmap_find vmap (.node t name) with _ | gnd
          · refine ⟨st, .ok (some (.node t name)), ?_, fun _ _ => hh⟩
            simp only [walk_tree]
            rw [Walk.bind_ok (Walk.getQuotationLevel_apply st)]
            simp only [hq, ht, if_false, hfind]
            split <;> rfl
          · have hgd := vmap_find_depth hfind
            simp only [Atom.depth] at hd
            obtain ⟨s1, x, hw, _⟩ := walk_tree_terminates_halted c vmap n gnd
              { st with halt := true } (vmap_find_all henv hfind) (by omega) rfl
            rw [walk_tree_expand_unquoted c vmap n t name gnd st hv hfind hq hh, hw]
            cases x with
            | error e => exact ⟨s1, .error e, rfl, fun a ha => by cases ha⟩
            | ok a => exact ⟨{ s1 with halt := false }, .ok a, rfl, fun _ _ => rfl⟩
        · have hv' : t ≠ .VARIABLE_NODE ∧ t ≠ .GLOB_NODE := by
            constructor <;> intro e <;> exact hv (by simp [e])
          refine ⟨st, .ok (some (.node t name)), ?_, fun _ _ => hh⟩
          simp only [walk_tree]
          rw [Walk.bind_ok (Walk.getQuotationLevel_apply st)]
          simp [hq, ht, hv', Walk.pure_apply]
    | link t out tv =>
      apply walk_tree_link_terminates c vmap n t out tv false (Atom.all_head hall) _ st hh
      intro h hmem st0 hh0
      have hdx := Atom.depth_child t out tv hmem
      exact ih h st0 (Atom.all_children hall h hmem) (by omega) hh0

/-- Under `selfDefinedConfig`, the walk of a DefinedSchemaNode, or of the list
that holds it, exhausts every budget. -/
theorem walk_tree_self_defined (vmap : List (Atom × Atom)) :
    ∀ (n : Nat) (st : State AtomSet), ¬ st.quotation_level > 0 →
      walk_tree selfDefinedConfig vmap n (dsn 0) st = none
      ∧ walk_tree selfDefinedConfig vmap n (list [dsn 0]) st = none := by
  intro n
  induction n with
  | zero => intro st _; exact ⟨rfl, rfl⟩
  | succ n ih =>
    intro st hq
    constructor
    · simp only [walk_tree, dsn]
      rw [Walk.bind_ok (Walk.getQuotationLevel_apply st)]
      simp only [hq, if_false, if_true]
      have hcall : (Walk.call (.get_definition (.node .DEFINED_SCHEMA_NODE 0))
          (fun s => (s, selfDefinedConfig.get_definition s (.node .DEFINED_SCHEMA_NODE 0)))
            : Walk AtomSet Atom) st
          = some ({ st with trace :=
              st.trace ++ [.get_definition (.node .DEFINED_SCHEMA_NODE 0)] },
            .ok (list [dsn 0])) := rfl
      rw [Walk.bind_ok hcall]
      exact (ih { st with trace :=
        st.trace ++ [.get_definition (.node .DEFINED_SCHEMA_NODE 0)] } hq).2
    · have hp : plainTag selfDefinedConfig .LIST_LINK = true := by decide
      show walk_tree selfDefinedConfig vmap (n + 1) (.link .LIST_LINK [dsn 0] DEFAULT_TV) st
        = none
      rw [walk_tree_plain_link selfDefinedConfig vmap n .LIST_LINK [dsn 0] DEFAULT_TV st hp,
        mere_recursive_call, walk_sequence]
      rw [Walk.bind_none (Walk.bind_none (ih st hq).1 _)]

/-- C17, as stated, fails: a grounding may hold a DefinedSchemaNode, and the
walk of a definition is not guarded.  With `X ↦ f`, where the DefinedSchemaNode
`f` is defined as `(List f)`, the walk of the VariableNode `X` exhausts every
budget. -/
theorem walk_tree_grounding_diverges :
    ¬ ∃ fuel : Nat,
      (walk_tree selfDefinedConfig [(var 0, dsn 0)] fuel (var 0) State.init).isSome
        = true := by
  rintro ⟨fuel, h⟩
  cases fuel with
  | zero => simp [walk_tree, Walk.diverge] at h
  | succ n =>
    have hd := (walk_tree_self_defined [(var 0, dsn 0)] n
      { State.init with halt := true } (by decide)).1
    have he : walk_tree selfDefinedConfig [(var 0, dsn 0)] (n + 1) (var 0) State.init
        = none := by
      have hx := walk_tree_expand_unquoted selfDefinedConfig [(var 0, dsn 0)] n
        .VARIABLE_NODE 0 (dsn 0) State.init (Or.inl rfl) rfl (by decide) rfl
      rw [hd] at hx
      exact hx
    rw [he] at h
    simp at h

/-- C17, amended: termination.  For every map of groundings, cyclic ones
included, and every term, when the term and every grounding are built from
nodes other than DefinedSchemaNode and links other than Put, ExecutionOutput,
Get, Fold-family and Function-family, walk_tree ends, with a result or an
exception, for every budget of at least the height of the term plus the height
of the highest grounding plus 2, from every state. -/
theorem walk_tree_terminates {S : Type} (c : Config S) (vmap : List (Atom × Atom))
    (fuel : Nat) (expr : Atom) (st : State S)
    (hterm : Atom.all (walkable c) expr = true)
    (henv : ∀ p ∈ vmap, Atom.all (walkable c) p.2 = true)
    (hf : expr.depth + vmap_depth vmap + 2 ≤ fuel) :
    ∃ st' r, walk_tree c vmap fuel expr st = some (st', r) := by
  rcases hh : st.halt with _ | _
  · obtain ⟨st', r, hw, _⟩ :=
      walk_tree_terminates_clear c vmap henv fuel expr st hterm (by omega) hh
    exact ⟨st', r, hw⟩
  · obtain ⟨st', r, hw, _⟩ :=
      walk_tree_terminates_halted c vmap fuel expr st hterm (by omega) hh
    exact ⟨st', r, hw⟩

/-- Witness of C17, amended: the cyclic groundings `X ↦ (List Y)` and
`Y ↦ (List X)`; the walk of `(List X Y)` ends. -/
theorem walk_tree_terminates_witness :
    ∃ st' r, walk_tree (fakeConfig true) [(var 0, list [var 1]), (var 1, list [var 0])] 4
        (list [var 0, var 1]) State.init = some (st', r) :=
  walk_tree_terminates (fakeConfig true) [(var 0, list [var 1]), (var 1, list [var 0])] 4
    (list [var 0, var 1]) State.init (by decide) (by decide) (by decide)

end Instantiator
